import Mathlib

/-!
Verification of the RRB-tree core of the `immer` persistent-sequence library.

The embedding follows `src/immer/detail/rbts/rrbtree.hpp` (the tree façade)
and the visitor implementations packaged with the repository
(`push_tail_visitor`, `update_visitor`, `slice_right_visitor`,
`slice_left_visitor`, the `concat_*` machinery and
`concat_rebalance_plan::shuffle`).  Nodes are modelled as an inductive type
with the three shapes of the C++ `node` (leaf, regular inner, relaxed inner
with size table); machine indices become `Nat` with `x >> s` rendered as
`x / 2 ^ s` and `x & mask<s>` as `x % 2 ^ s`.  The primitives of
`node.hpp` / `position.hpp` are not part of the packaged sources; they are
modelled from the specification where needed and marked as such.

Throughout, `B` is the inner branching bits and `BL` the leaf branching
bits.  A node at height `0` is a leaf; a node at height `h+1` is an inner
node whose children have height `h`.  An inner node of height `h+1` sits at
shift level `BL + B*h`, so leaves hang below the level-`BL` inner nodes,
matching the descent loops of the source (`for level = shift;
level != endshift; level -= B`), whose trip count the height parameter
mirrors.
-/

namespace Immer

/-- The three node shapes of `node.hpp` (spec §3): leaves carry values,
regular inner nodes carry children only, relaxed inner nodes additionally
carry a cumulative size table. -/
inductive Node (α : Type) where
  | leaf : List α → Node α
  | inner : List (Node α) → Node α
  | relaxed : List (Node α) → List Nat → Node α
  deriving Repr

namespace Node

/-- `node->relaxed()`: the size table when the node is a relaxed inner
node, else null. -/
def relaxedOf {α : Type} : Node α → Option (List Nat)
  | .relaxed _ szs => some szs
  | _ => none

/-- The children array of an inner node (`node->inner()`); empty for a
leaf. -/
def childrenOf {α : Type} : Node α → List (Node α)
  | .leaf _ => []
  | .inner cs => cs
  | .relaxed cs _ => cs

/-- The value array of a leaf (`node->leaf()`); empty for inner nodes. -/
def leafData {α : Type} : Node α → List α
  | .leaf xs => xs
  | _ => []

/-- The occupied-slot count of a node (`pos.count()`): number of values in
a leaf, number of children in an inner node.  Modelled from the spec:
positions report the logical child count, which for the exact-arity nodes
built by this library coincides with the stored array length. -/
def arity {α : Type} : Node α → Nat
  | .leaf xs => xs.length
  | .inner cs => cs.length
  | .relaxed cs _ => cs.length

mutual

/-- The sequence of elements stored under a node, in order. -/
def toList {α : Type} : Node α → List α
  | .leaf xs => xs
  | .inner cs => toListAll cs
  | .relaxed cs _ => toListAll cs

/-- Elements of a list of subtrees, concatenated in order. -/
def toListAll {α : Type} : List (Node α) → List α
  | [] => []
  | c :: cs => toList c ++ toListAll cs

end

/-- The number of elements stored under a node.  Modelled from the spec:
`sizes[i] = cumulative element count through child i`, so the semantic
size of a subtree is the count of elements under it. -/
def subSize {α : Type} (n : Node α) : Nat := n.toList.length

end Node

/-- The tree façade state `(size, shift, root, tail)` of `rrbtree`
(spec §3, `rrbtree.hpp`). -/
structure RRB (α : Type) where
  size : Nat
  shift : Nat
  root : Node α
  tail : Node α
  deriving Repr

/-- The canonical empty tree: `(0, BL, make_inner_n(0), make_leaf_n(0))`
(`rrbtree::empty`). -/
def emptyRRB {α : Type} (BL : Nat) : RRB α :=
  ⟨0, BL, .inner [], .leaf []⟩

/-- All elements of the tree: body (under the root) followed by the tail
buffer. -/
def RRB.toList {α : Type} (t : RRB α) : List α :=
  t.root.toList ++ t.tail.toList

/-- `rrbtree::tail_offset`: the last entry of the root's size table when
the root is relaxed, else `(size - 1) & ~mask<BL>` when `size` is nonzero,
else `0`. -/
def tailOffset {α : Type} (BL : Nat) (t : RRB α) : Nat :=
  match t.root.relaxedOf with
  | some szs => szs.getD (szs.length - 1) 0
  | none => if t.size ≠ 0 then (t.size - 1) - (t.size - 1) % 2 ^ BL else 0

/-- `rrbtree::tail_size`: `size - tail_offset()`. -/
def tailSize {α : Type} (BL : Nat) (t : RRB α) : Nat :=
  t.size - tailOffset BL t

/-- Height of the root node implied by the façade's `shift`: a root at
shift `BL` has one inner level, and each `B` bits of shift add one. -/
def hRoot (B BL : Nat) (shift : Nat) : Nat := (shift - BL) / B + 1

/-- The size-table scan of the relaxed descent
(`while (r->sizes[node_index] <= index) ++node_index`): the first slot at
or after `k` whose cumulative size exceeds `idx`. -/
def sizeIndex (szs : List Nat) (idx : Nat) (k : Nat) : Nat :=
  if h : k < szs.length then
    if szs.get ⟨k, h⟩ ≤ idx then sizeIndex szs idx (k + 1) else k
  else k
termination_by szs.length - k

/-- The descent loop of `rrbtree::get` (and `find_leaf_regular`, modelled
from spec §4.3.1): at a relaxed node scan the size table starting from the
radix guess and subtract the preceding cumulative size; at a regular node
extract `(i >> level) & mask<B>`; at the leaf index by `i & mask<BL>`.
The height argument mirrors the loop's level count-down. -/
def getLoop (B BL : Nat) {α : Type} : Nat → Node α → Nat → Nat → Option α
  | 0, n, _, idx => n.leafData.get? (idx % 2 ^ BL)
  | h + 1, .relaxed cs szs, level, idx =>
      let k := sizeIndex szs idx (idx / 2 ^ level % 2 ^ B)
      let idx2 := if k = 0 then idx else idx - szs.getD (k - 1) 0
      match cs.get? k with
      | some c => getLoop B BL h c (level - B) idx2
      | none => none
  | h + 1, .inner cs, level, idx =>
      match cs.get? (idx / 2 ^ level % 2 ^ B) with
      | some c => getLoop B BL h c (level - B) idx
      | none => none
  | _ + 1, .leaf _, _, _ => none

/-- `rrbtree::get`: tail lookup for `index >= tail_offset()`, else descend
the root.  The `assert(index < size)` precondition is rendered as the
out-of-range failure `none`. -/
def RRB.get {α : Type} (B BL : Nat) (t : RRB α) (idx : Nat) : Option α :=
  if idx < t.size then
    let off := tailOffset BL t
    if off ≤ idx then t.tail.leafData.get? ((idx - off) % 2 ^ BL)
    else getLoop B BL (hRoot B BL t.shift) t.root t.shift idx
  else none

/-- `node_t::make_path(shift, leaf)` (modelled from the spec, §4.1:
"builds a rightward spine of single-child inner nodes terminating at
`leaf`"), indexed by the height of the resulting subtree. -/
def makePathH {α : Type} : Nat → Node α → Node α
  | 0, l => l
  | d + 1, l => .inner [makePathH d l]

/-- `push_tail_visitor::visit_regular` (statically regular descent): find
the slot of the last element and of the slot after appending a full tail;
recurse into the same slot or lay a fresh path at the next slot, keeping
the first `new_idx` children. -/
def pushTailReg (B BL : Nat) {α : Type} : Nat → Node α → Nat → Nat → Node α → Node α
  | 0, n, _, _, _ => n
  | h + 1, n, level, sz, tl =>
      let cs := n.childrenOf
      let idx := (sz - 1) / 2 ^ level % 2 ^ B
      let newIdx := (sz + 2 ^ BL - 1) / 2 ^ level % 2 ^ B
      let child :=
        if idx = newIdx then
          pushTailReg B BL h (cs.getD idx (.leaf [])) (level - B) (sz - idx * 2 ^ level) tl
        else makePathH h tl
      .inner (cs.take newIdx ++ [child])

/-- `push_tail_visitor::visit_relaxed`: try to absorb the tail into the
last child (when it is not full and not a leaf slot), else lay a fresh
path at the next slot; `none` when the node is full
(`new_idx >= branches<B>`).  Children of a relaxed position are
re-dispatched on their own kind, as `visit_maybe_relaxed_sub` does. -/
def pushTailAny (B BL : Nat) {α : Type} : Nat → Node α → Nat → Nat → Node α → Nat → Option (Node α)
  | 0, _, _, _, _, _ => none
  | h + 1, .relaxed cs szs, level, _, tl, ts =>
      let idx := cs.length - 1
      let childSz := szs.getD idx 0 - (if idx = 0 then 0 else szs.getD (idx - 1) 0)
      let total := szs.getD idx 0
      let newIdx := if childSz = 2 ^ level ∨ level = BL then idx + 1 else idx
      if 2 ^ B ≤ newIdx then none
      else if newIdx = idx then
        match pushTailAny B BL h (cs.getD idx (.leaf [])) (level - B) childSz tl ts with
        | some nc =>
            some (.relaxed (cs.take idx ++ [nc]) (szs.take idx ++ [total + ts]))
        | none =>
            if idx + 1 < 2 ^ B then
              some (.relaxed (cs.take (idx + 1) ++ [makePathH h tl])
                             (szs.take (idx + 1) ++ [total + ts]))
            else none
      else
        some (.relaxed (cs.take newIdx ++ [makePathH h tl])
                       (szs.take newIdx ++ [total + ts]))
  | h + 1, n, level, sz, tl, _ => some (pushTailReg B BL (h + 1) n level sz tl)

/-- `rrbtree::push_tail`: dispatch on the root's kind; grow a new root of
arity 2 when the old root cannot absorb the tail (relaxed full, or regular
and `size == branches<B> << shift`); for an empty body, the new root is a
fresh path. -/
def pushTailF (B BL : Nat) {α : Type} (h : Nat) (root : Node α) (shift sz : Nat)
    (tl : Node α) (ts : Nat) : Nat × Node α :=
  match root.relaxedOf with
  | some _ =>
      match pushTailAny B BL h root shift 0 tl ts with
      | some nr => (shift, nr)
      | none => (shift + B, .relaxed [root, makePathH h tl] [sz, sz + ts])
  | none =>
      if sz = 2 ^ B * 2 ^ shift then (shift + B, .inner [root, makePathH h tl])
      else if sz ≠ 0 then (shift, pushTailReg B BL h root shift sz tl)
      else (shift, makePathH h tl)

/-- `rrbtree::push_back`: extend a non-full tail in place
(`copy_leaf_emplace`), else push the full tail into the body and start a
fresh one-element tail. -/
def RRB.pushBack {α : Type} (B BL : Nat) (t : RRB α) (v : α) : RRB α :=
  let ts := tailSize BL t
  if ts < 2 ^ BL then
    ⟨t.size + 1, t.shift, t.root, .leaf (t.tail.leafData.take ts ++ [v])⟩
  else
    let off := tailOffset BL t
    let nr := pushTailF B BL (hRoot B BL t.shift) t.root t.shift off t.tail (t.size - off)
    ⟨t.size + 1, nr.1, nr.2, .leaf [v]⟩

/-- Copy-with-modification of one slot
(`node->leaf()[offset] = fn(std::move(node->leaf()[offset]))` after a
copy); out-of-range leaves the list unchanged. -/
def modAt {β : Type} (xs : List β) (i : Nat) (f : β → β) : List β :=
  match xs.get? i with
  | some a => xs.set i (f a)
  | none => xs

/-- `update_visitor`: walk to the leaf containing `idx`, rebuilding one
node per level (same kind, same size table), and apply `f` at
`idx & mask<BL>` in a copied leaf. -/
def updLoop (B BL : Nat) {α : Type} : Nat → Node α → Nat → Nat → (α → α) → Node α
  | 0, n, _, idx, f => .leaf (modAt n.leafData (idx % 2 ^ BL) f)
  | h + 1, .relaxed cs szs, level, idx, f =>
      let off := sizeIndex szs idx (idx / 2 ^ level % 2 ^ B)
      let idx2 := idx - (if off = 0 then 0 else szs.getD (off - 1) 0)
      .relaxed (modAt cs off (fun c => updLoop B BL h c (level - B) idx2 f)) szs
  | h + 1, .inner cs, level, idx, f =>
      .inner (modAt cs (idx / 2 ^ level % 2 ^ B) (fun c => updLoop B BL h c (level - B) idx f))
  | _ + 1, .leaf xs, _, _, _ => .leaf xs

/-- `rrbtree::update`: rebuild only the tail when `idx >= tail_offset()`,
else rebuild the path to the leaf in the body. -/
def RRB.update {α : Type} (B BL : Nat) (t : RRB α) (idx : Nat) (f : α → α) : RRB α :=
  let off := tailOffset BL t
  if off ≤ idx then
    ⟨t.size, t.shift, t.root, .leaf (modAt t.tail.leafData ((idx - off) % 2 ^ BL) f)⟩
  else
    ⟨t.size, t.shift, updLoop B BL (hRoot B BL t.shift) t.root t.shift idx f, t.tail⟩

/-- `rrbtree::assoc`: update with a constant function. -/
def RRB.assoc {α : Type} (B BL : Nat) (t : RRB α) (idx : Nat) (v : α) : RRB α :=
  t.update B BL idx (fun _ => v)

/-- `slice_right_visitor` (result: new shift, optional new subtree, new
tail size, new tail).  `coll` is the `Collapse` template flag: when set
and the last index lands in slot 0, delegate to the single child; a
one-past slot result of `idx = 1` collapses one level. -/
def sliceR (B BL : Nat) {α : Type} (coll : Bool) :
    Nat → Node α → Nat → Nat → Nat × Option (Node α) × Nat × Node α
  | 0, n, _, last =>
      let newTS := last % 2 ^ BL + 1
      (0, none, newTS, .leaf (n.leafData.take newTS))
  | h + 1, .relaxed cs szs, level, last =>
      let idx := sizeIndex szs last (last / 2 ^ level % 2 ^ B)
      if coll ∧ idx = 0 then
        sliceR B BL true h (cs.getD 0 (.leaf [])) (level - B) last
      else
        let lastL := last - (if idx = 0 then 0 else szs.getD (idx - 1) 0)
        match sliceR B BL false h (cs.getD idx (.leaf [])) (level - B) lastL with
        | (_, some nxt, ts, tl) =>
            (level, some (.relaxed (cs.take idx ++ [nxt]) (szs.take idx ++ [last + 1 - ts])),
             ts, tl)
        | (_, none, ts, tl) =>
            if idx = 0 then (level, none, ts, tl)
            else if coll ∧ idx = 1 ∧ BL < level then
              (level - B, some (cs.getD 0 (.leaf [])), ts, tl)
            else (level, some (.relaxed (cs.take idx) (szs.take idx)), ts, tl)
  | h + 1, .inner cs, level, last =>
      let idx := last / 2 ^ level % 2 ^ B
      if coll ∧ idx = 0 then
        sliceR B BL true h (cs.getD 0 (.leaf [])) (level - B) last
      else
        match sliceR B BL false h (cs.getD idx (.leaf [])) (level - B) last with
        | (_, some nxt, ts, tl) =>
            (level, some (.inner (cs.take idx ++ [nxt])), ts, tl)
        | (_, none, ts, tl) =>
            if idx = 0 then (level, none, ts, tl)
            else if coll ∧ idx = 1 ∧ BL < level then
              (level - B, some (cs.getD 0 (.leaf [])), ts, tl)
            else (level, some (.inner (cs.take idx)), ts, tl)
  | _ + 1, .leaf _, level, _ => (level, none, 0, .leaf [])

/-- `rrbtree::take`: empty for `new_size == 0`, the tree itself when
`new_size >= size`, a truncated tail when the cut lands in the tail, else
`slice_right` on the body (falling back to the canonical empty root when
the body vanishes). -/
def RRB.take {α : Type} (B BL : Nat) (t : RRB α) (n : Nat) : RRB α :=
  let off := tailOffset BL t
  if n = 0 then emptyRRB BL
  else if t.size ≤ n then t
  else if off < n then ⟨n, t.shift, t.root, .leaf (t.tail.leafData.take (n - off))⟩
  else
    match sliceR B BL true (hRoot B BL t.shift) t.root t.shift (n - 1) with
    | (nsh, some nr, _, ntl) => ⟨n, nsh, nr, ntl⟩
    | (_, none, _, ntl) => ⟨n, BL, .inner [], ntl⟩

/-- Child index containing `i` (`pos.subindex(i)`; modelled from the spec
§4.2: the size-table scan for a relaxed node, `i >> shift` for a regular
one). -/
def subindexAt (B : Nat) {α : Type} (n : Node α) (level i : Nat) : Nat :=
  match n.relaxedOf with
  | some szs => sizeIndex szs i (i / 2 ^ level % 2 ^ B)
  | none => i / 2 ^ level

/-- Elements preceding child `j` (`pos.size_before(j)`; modelled from the
spec §4.2). -/
def sizeBeforeAt {α : Type} (n : Node α) (level j : Nat) : Nat :=
  match n.relaxedOf with
  | some szs => if j = 0 then 0 else szs.getD (j - 1) 0
  | none => j * 2 ^ level

/-- Size of child `j` of a node of logical size `sz`
(`pos.size_sbh(j, size_before)`; modelled from the spec §4.2: size-table
difference for a relaxed node, full except for a clipped last child for a
regular one). -/
def childSizeAt {α : Type} (n : Node α) (level sz j : Nat) : Nat :=
  match n.relaxedOf with
  | some szs => szs.getD j 0 - (if j = 0 then 0 else szs.getD (j - 1) 0)
  | none => min (sz - j * 2 ^ level) (2 ^ level)

/-- Cumulative sums continuing from `acc` (`pos.copy_sizes`; modelled from
the spec: size tables hold cumulative element counts). -/
def cumFrom : Nat → List Nat → List Nat
  | _, [] => []
  | acc, s :: rest => (acc + s) :: cumFrom (acc + s) rest

/-- Size table of a relaxed node from its children's sizes. -/
def cumSizes (l : List Nat) : List Nat := cumFrom 0 l

/-- `slice_left_visitor` (result: new shift, new subtree).  At an inner
node, rebuild a relaxed node whose first child is the recursively sliced
slot and whose size table restarts at the partial first child; with the
`Collapse` flag, a cut in the last slot above the leaf level collapses
into that child. -/
def sliceL (B BL : Nat) {α : Type} (coll : Bool) :
    Nat → Node α → Nat → Nat → Nat → Nat × Node α
  | 0, n, _, _, first => (0, .leaf (n.leafData.drop (first % 2 ^ BL)))
  | h + 1, n, level, sz, first =>
      let cs := n.childrenOf
      let cnt := cs.length
      let idx := subindexAt B n level first
      let leftSize := sizeBeforeAt n level idx
      let childSz := childSizeAt n level sz idx
      let childDropped := first - leftSize
      if coll ∧ BL < level ∧ idx = cnt - 1 then
        sliceL B BL true h (cs.getD idx (.leaf [])) (level - B) childSz childDropped
      else
        let sub := sliceL B BL false h (cs.getD idx (.leaf [])) (level - B) childSz childDropped
        let s0 := childSz - childDropped
        let rest := (List.range (cnt - idx - 1)).map
          (fun j => childSizeAt n level sz (idx + 1 + j))
        (level, .relaxed (sub.2 :: cs.drop (idx + 1)) (s0 :: cumFrom s0 rest))

/-- `rrbtree::drop`: the tree itself for `elems == 0`, empty when
everything is dropped, a (suffix of the) tail over the canonical empty
root when the cut lands at or after `tail_offset()`, else `slice_left` on
the body. -/
def RRB.drop {α : Type} (B BL : Nat) (t : RRB α) (elems : Nat) : RRB α :=
  if elems = 0 then t
  else if t.size ≤ elems then emptyRRB BL
  else if elems = tailOffset BL t then ⟨t.size - elems, BL, .inner [], t.tail⟩
  else if tailOffset BL t < elems then
    ⟨t.size - elems, BL, .inner [],
     .leaf (t.tail.leafData.drop (elems - tailOffset BL t))⟩
  else
    let r := sliceL B BL true (hRoot B BL t.shift) t.root t.shift (tailOffset BL t) elems
    ⟨t.size - elems, r.1, r.2, t.tail⟩

/-! ### The concat rebalancing plan (`concat_rebalance_plan::shuffle`) -/

/-- The skip loop `while (counts[i] > branches - rrb_invariant) i++`:
first slot at or after `i` whose count is at most `branches - 1`. -/
def skipFull (branches : Nat) (counts : List Nat) (i : Nat) : Nat :=
  if h : i < counts.length then
    if branches - 1 < counts.get ⟨i, h⟩ then skipFull branches counts (i + 1) else i
  else i
termination_by counts.length - i

/-- The redistribution do-while: pour `remaining` into the successive
slots, writing `min(remaining + counts[i+1], branches)` each step, until
drained.  Returns the written slots and the untouched remainder. -/
def redistGo (branches : Nat) : Nat → List Nat → List Nat × List Nat
  | _, [] => ([], [])
  | remaining, c :: rest =>
      let w := min (remaining + c) branches
      let rem2 := remaining + c - w
      if rem2 = 0 then ([w], rest)
      else
        let p := redistGo branches rem2 rest
        (w :: p.1, p.2)

/-- One redistribution step at slot `i1`: drain slot `i1` into its
successors and remove the emptied slot (`std::move` + `--n`); the scan
pointer moves back one written slot (`--i`). -/
def redistribute (branches : Nat) (counts : List Nat) (i1 : Nat) : List Nat × Nat :=
  match counts.drop i1 with
  | [] => (counts, i1)
  | c :: rest =>
      let p := redistGo branches c rest
      (counts.take i1 ++ p.1 ++ p.2, i1 + p.1.length - 1)

/-- The outer loop `while (n >= optimal + rrb_extras)` of `shuffle`,
fuelled by the slot count (each iteration removes one slot). -/
def shuffleGo (branches optimal : Nat) : Nat → List Nat → Nat → List Nat
  | 0, counts, _ => counts
  | fuel + 1, counts, i =>
      if optimal + 2 ≤ counts.length then
        let i1 := skipFull branches counts i
        let p := redistribute branches counts i1
        shuffleGo branches optimal fuel p.1 p.2
      else counts

/-- `concat_rebalance_plan::shuffle(shift)`: with `bits = BL` at the leaf
level and `B` above, redistribute short slots until at most
`optimal + 1 = ((total - 1) >> bits) + 2` slots remain. -/
def shuffle (B BL : Nat) (shift : Nat) (counts : List Nat) : List Nat :=
  let bits := if shift = BL then BL else B
  let branches := 2 ^ bits
  let optimal := (counts.sum - 1) / 2 ^ bits + 1
  shuffleGo branches optimal counts.length counts 0

/-! ### Concatenation (`concat_trees` and its helpers) -/

/-- `concat_center_pos`: the 1-3 freshly merged nodes, their size entries,
and the shift of the would-be parent. -/
structure Center (α : Type) where
  sh : Nat
  ns : List (Node α)
  szs : List Nat

/-- `concat_center_pos::realize()`: more than one node becomes a fresh
relaxed parent at `shift_`; a single node is the new root one level
down. -/
def Center.realize {α : Type} (B : Nat) (c : Center α) : Nat × Node α :=
  if 1 < c.ns.length then (c.sh, .relaxed c.ns c.szs)
  else (c.sh - B, c.ns.getD 0 (.leaf []))

/-- `concat_leafs`: a center of two or three leaves
`(lleaf, [tleaf?], rleaf)` depending on whether the left tail is
nonempty. -/
def concatLeafs (BL : Nat) {α : Type} (l : Node α) (tl : List α) (r : Node α) : Center α :=
  if tl.length ≠ 0 then
    ⟨BL, [l, .leaf tl, r], [l.leafData.length, tl.length, r.leafData.length]⟩
  else
    ⟨BL, [l, r], [l.leafData.length, r.leafData.length]⟩

/-- Greedy chunking of the merged child stream by the plan's target
counts (`concat_merger`'s buffer): emit a chunk whenever the current
target count is reached; a leftover shorter than the target persists as
the buffer. -/
def mergeFill {α β : Type} (build : List β → Node α) :
    List Nat → List β → List β → List (Node α) × List Nat × List β
  | [], buf, inc => ([], [], buf ++ inc)
  | c :: csRest, buf, inc =>
      if buf.length + inc.length < c then ([], c :: csRest, buf ++ inc)
      else
        let node := build ((buf ++ inc).take c)
        let p := mergeFill build csRest [] ((buf ++ inc).drop c)
        (node :: p.1, p.2.1, p.2.2)

/-- `concat_merger::merge_leaf` / `merge_inner` over the ordered sources:
a source whose arity equals the pending target count with an empty buffer
is adopted whole (`add_child(from, from_size)`); otherwise its parts are
poured into the chunking buffer. -/
def mergeSrcs {α β : Type} (build : List β → Node α) (parts : Node α → List β) :
    List Nat → List β → List (Node α) → List (Node α)
  | _, _, [] => []
  | counts, buf, s :: ss =>
      if buf.length = 0 ∧ counts.headD 0 = (parts s).length then
        s :: mergeSrcs build parts counts.tail [] ss
      else
        let p := mergeFill build counts buf (parts s)
        p.1 ++ mergeSrcs build parts p.2.1 p.2.2 ss

/-- Split of the merged targets into at most `branches<B>`-ary parents
(`concat_merger::add_child` opening a fresh parent when the current one is
full). -/
def chunksPow {β : Type} (b : Nat) : List β → List (List β)
  | [] => []
  | x :: xs => ((x :: xs).take (2 ^ b)) :: chunksPow b ((x :: xs).drop (2 ^ b))
termination_by l => l.length
decreasing_by
  simp only [List.length_drop, List.length_cons]
  have : 0 < 2 ^ b := Nat.pos_pow_of_pos b (by omega)
  omega

/-- The merger's result center: targets grouped into 1-3 relaxed parents
with per-parent cumulative size tables, and cumulative totals as the
center's size entries. -/
def centerOfTargets (B : Nat) {α : Type} (sh : Nat) (targets : List (Node α)) : Center α :=
  let groups := chunksPow B targets
  ⟨sh + B,
   groups.map (fun g => Node.relaxed g (cumSizes (g.map Node.subSize))),
   cumFrom 0 (groups.map (fun g => (g.map Node.subSize).sum))⟩

/-- `concat_rebalance`: collect the arities of the left frame's children
but the last, the center's nodes, and the right frame's children but the
first; shuffle them into a plan; merge the same sources into fresh
targets of the planned arities. -/
def concatRebalance (B BL : Nat) {α : Type}
    (l : Option (Node α)) (c : Center α) (r : Option (Node α)) : Center α :=
  let lsrc := match l with
    | some n => n.childrenOf.dropLast
    | none => []
  let rsrc := match r with
    | some n => n.childrenOf.drop 1
    | none => []
  let srcs := lsrc ++ c.ns ++ rsrc
  let counts := srcs.map Node.arity
  let plan := shuffle B BL c.sh counts
  let targets :=
    if c.sh = BL then
      mergeSrcs (fun xs => Node.leaf xs) Node.leafData plan [] srcs
    else
      mergeSrcs (fun cs => Node.relaxed cs (cumSizes (cs.map Node.subSize)))
                Node.childrenOf plan [] srcs
  centerOfTargets B c.sh targets

/-- `concat_inners`: align the two trees by height, recursing into the
taller tree's spine child (left's last / right's first), concatenating
leaves at the bottom, and rebalancing the result with the outer frames at
every level on the way up.  `tl` is the left tail carried to the bottom
(empty in the façade's call path). -/
def concatInners (B BL : Nat) {α : Type} :
    Nat → Node α → Nat → List α → Nat → Node α → Nat → Center α
  | lh, ln, lsz, tl, rh, rn, rsz =>
    if rh < lh then
      let llevel := BL + B * (lh - 1 - 1)
      let lcs := ln.childrenOf
      let li := lcs.length - 1
      let cp := concatInners B BL (lh - 1) (lcs.getD li (.leaf []))
        (childSizeAt ln llevel lsz li) tl rh rn rsz
      concatRebalance B BL (some ln) cp none
    else if lh < rh then
      let rlevel := BL + B * (rh - 1 - 1)
      let rcs := rn.childrenOf
      let cp := concatInners B BL lh ln lsz tl (rh - 1) (rcs.getD 0 (.leaf []))
        (childSizeAt rn rlevel rsz 0)
      concatRebalance B BL none cp (some rn)
    else
      if lh ≤ 1 then
        let lcs := ln.childrenOf
        let rcs := rn.childrenOf
        let c0 := concatLeafs BL (lcs.getD (lcs.length - 1) (.leaf [])) tl
          (rcs.getD 0 (.leaf []))
        concatRebalance B BL (some ln) c0 (some rn)
      else
        let llevel := BL + B * (lh - 1 - 1)
        let lcs := ln.childrenOf
        let li := lcs.length - 1
        let rcs := rn.childrenOf
        let cp := concatInners B BL (lh - 1) (lcs.getD li (.leaf []))
          (childSizeAt ln llevel lsz li) tl (rh - 1) (rcs.getD 0 (.leaf []))
          (childSizeAt rn (BL + B * (rh - 1 - 1)) rsz 0)
        concatRebalance B BL (some ln) cp (some rn)
termination_by lh _ _ _ rh => lh + rh
decreasing_by all_goals omega

/-- The two-root `concat_trees` used by `rrbtree::concat` (the façade
pushes the left tail itself and passes body roots only; the corresponding
overload is not among the packaged sources and is modelled from the spec,
§4.3.6, as `concat_inners` with an empty center tail).  Returns the
realized root and its shift. -/
def concatTrees (B BL : Nat) {α : Type} (lh : Nat) (lroot : Node α) (lsz : Nat)
    (rh : Nat) (rroot : Node α) (rsz : Nat) : Nat × Node α :=
  (concatInners B BL lh lroot lsz [] rh rroot rsz).realize B

/-- `rrbtree::concat`: degenerate cases for an empty side; a tail-only
right operand is appended like a (possibly split) `push_back` of its tail;
otherwise push the left tail into its body and concatenate the two bodies,
keeping the right tail. -/
def RRB.concat {α : Type} (B BL : Nat) (t r : RRB α) : RRB α :=
  if t.size = 0 then r
  else if r.size = 0 then t
  else if tailOffset BL r = 0 then
    let off := tailOffset BL t
    let ts := t.size - off
    if ts = 2 ^ BL then
      let nr := pushTailF B BL (hRoot B BL t.shift) t.root t.shift off t.tail ts
      ⟨t.size + r.size, nr.1, nr.2, r.tail⟩
    else if ts + r.size ≤ 2 ^ BL then
      ⟨t.size + r.size, t.shift, t.root,
       .leaf (t.tail.leafData.take ts ++ r.tail.leafData.take r.size)⟩
    else
      let remaining := 2 ^ BL - ts
      let addTail := Node.leaf (t.tail.leafData.take ts ++ r.tail.leafData.take remaining)
      let newTail := Node.leaf ((r.tail.leafData.take r.size).drop remaining)
      let nr := pushTailF B BL (hRoot B BL t.shift) t.root t.shift off addTail (2 ^ BL)
      ⟨t.size + r.size, nr.1, nr.2, newTail⟩
  else
    let off := tailOffset BL t
    let wt := pushTailF B BL (hRoot B BL t.shift) t.root t.shift off t.tail (t.size - off)
    let cn := concatTrees B BL (hRoot B BL wt.1) wt.2 t.size
      (hRoot B BL r.shift) r.root (tailOffset BL r)
    ⟨t.size + r.size, cn.1, cn.2, r.tail⟩

/-! ### Well-formedness invariants (spec §3) -/

/-- Capacity of a subtree of height `h`: leaves hold up to `2^BL`
elements, each inner level multiplies by `2^B`. -/
def cap (B BL h : Nat) : Nat := 2 ^ (BL + B * h)

/-- A perfectly full regular subtree of height `h` (spec §3: "all but the
rightmost are perfectly full at their shift level"). -/
inductive WfFull (B BL : Nat) {α : Type} : Nat → Node α → Prop where
  | leaf {xs : List α} : xs.length = 2 ^ BL → WfFull B BL 0 (.leaf xs)
  | inner {h : Nat} {cs : List (Node α)} :
      cs.length = 2 ^ B → (∀ c ∈ cs, WfFull B BL h c) →
      WfFull B BL (h + 1) (.inner cs)

/-- A well-formed regular subtree of height `h` holding `sz` elements: all
children full except the last, which is recursively regular (spec §3,
invariant 3). -/
inductive WfReg (B BL : Nat) {α : Type} : Nat → Node α → Nat → Prop where
  | leaf {xs : List α} {sz : Nat} :
      xs.length = sz → 0 < sz → sz ≤ 2 ^ BL → WfReg B BL 0 (.leaf xs) sz
  | inner {h : Nat} {cs0 : List (Node α)} {cl : Node α} {szl : Nat} :
      (∀ c ∈ cs0, WfFull B BL h c) → WfReg B BL h cl szl →
      cs0.length + 1 ≤ 2 ^ B →
      WfReg B BL (h + 1) (.inner (cs0 ++ [cl])) (cs0.length * cap B BL h + szl)

/-- A well-formed subtree of height `h` holding `sz` elements: regular (an
inner one aligned to full leaves), or relaxed with a strictly increasing
cumulative size table matching its children (spec §3, invariants 1-2). -/
inductive WfAny (B BL : Nat) {α : Type} : Nat → Node α → Nat → Prop where
  | reg {h : Nat} {n : Node α} {sz : Nat} :
      WfReg B BL h n sz → (1 ≤ h → sz % 2 ^ BL = 0) → WfAny B BL h n sz
  | rel {h : Nat} {cs : List (Node α)} {ss : List Nat} :
      cs.length = ss.length →
      (∀ p ∈ cs.zip ss, WfAny B BL h p.1 p.2) →
      (∀ s ∈ ss, 0 < s ∧ s ≤ cap B BL h) →
      0 < cs.length → cs.length ≤ 2 ^ B →
      WfAny B BL (h + 1) (.relaxed cs (cumSizes ss)) ss.sum

/-- Well-formedness of a subtree that is allowed to be ragged along its
rightmost spine (leaves there may be partial and sizes unaligned): the
shape of a body just after the tail has been pushed into it during
`concat`. -/
inductive WfL (B BL : Nat) {α : Type} : Nat → Node α → Nat → Prop where
  | any {h : Nat} {n : Node α} {sz : Nat} : WfAny B BL h n sz → WfL B BL h n sz
  | leafL {xs : List α} {sz : Nat} :
      xs.length = sz → 0 < sz → sz ≤ 2 ^ BL → WfL B BL 0 (.leaf xs) sz
  | spine {h : Nat} {cs0 : List (Node α)} {cl : Node α} {szl : Nat} :
      (∀ c ∈ cs0, WfFull B BL h c) → WfL B BL h cl szl → 0 < szl → szl ≤ cap B BL h →
      cs0.length + 1 ≤ 2 ^ B →
      WfL B BL (h + 1) (.inner (cs0 ++ [cl])) (cs0.length * cap B BL h + szl)
  | relSpine {h : Nat} {cs : List (Node α)} {ss : List Nat} {cl : Node α} {sl : Nat} :
      cs.length = ss.length →
      (∀ p ∈ cs.zip ss, WfAny B BL h p.1 p.2) →
      (∀ s ∈ ss, 0 < s ∧ s ≤ cap B BL h) →
      WfL B BL h cl sl → 0 < sl → sl ≤ cap B BL h →
      cs.length + 1 ≤ 2 ^ B →
      WfL B BL (h + 1) (.relaxed (cs ++ [cl]) (cumSizes (ss ++ [sl]))) (ss ++ [sl]).sum

/-- Well-formedness of the tree façade (spec §3): the shift encodes a
whole number of inner levels, the tail is a leaf holding the last
`size - tail_offset()` elements (nonempty unless the tree is, at most
`2^BL`), and the root is either the canonical empty root at shift `BL` or
a well-formed subtree holding exactly `tail_offset()` elements. -/
structure WfT (B BL : Nat) {α : Type} (t : RRB α) : Prop where
  shiftD : ∃ d, t.shift = BL + B * d
  tailLeaf : t.tail = Node.leaf t.tail.leafData
  sizeEq : t.size = tailOffset BL t + t.tail.leafData.length
  tailLe : t.tail.leafData.length ≤ 2 ^ BL
  tailNE : t.size ≠ 0 → t.tail.leafData.length ≠ 0
  rootWf : (tailOffset BL t = 0 ∧ t.root = Node.inner [] ∧ t.shift = BL)
      ∨ WfAny B BL (hRoot B BL t.shift) t.root (tailOffset BL t)

/-- Sequences constructed from the empty tree by the persistent
operations, paired with the reference list obtained by the same operations
on a linear list (claim C1 / spec §8.1).  `update`/`assoc` carry their
documented in-range precondition (spec §6). -/
inductive Built (B BL : Nat) {α : Type} : RRB α → List α → Prop where
  | empty : Built B BL (emptyRRB BL) []
  | push {t : RRB α} {l : List α} {v : α} :
      Built B BL t l → Built B BL (t.pushBack B BL v) (l ++ [v])
  | upd {t : RRB α} {l : List α} {i : Nat} {f : α → α} :
      Built B BL t l → i < t.size → Built B BL (t.update B BL i f) (modAt l i f)
  | asc {t : RRB α} {l : List α} {i : Nat} {v : α} :
      Built B BL t l → i < t.size → Built B BL (t.assoc B BL i v) (l.set i v)
  | takeN {t : RRB α} {l : List α} {n : Nat} :
      Built B BL t l → Built B BL (t.take B BL n) (l.take n)
  | dropN {t : RRB α} {l : List α} {n : Nat} :
      Built B BL t l → Built B BL (t.drop B BL n) (l.drop n)
  | cat {t u : RRB α} {l m : List α} :
      Built B BL t l → Built B BL u m → Built B BL (t.concat B BL u) (l ++ m)

/-- The spec's wording of `tail_offset` (§4.4): "the last entry of the
root's size table when the root is relaxed, else `(size − 1) & ~mask<BL>`
when `size` is non-zero, else 0" — with the low-bit clear written via the
spec's mask.  Used to compare against the implementation's formula. -/
def tailOffsetSpec {α : Type} (BL : Nat) (t : RRB α) : Nat :=
  match t.root.relaxedOf with
  | some szs => szs.getD (szs.length - 1) 0
  | none => if t.size ≠ 0 then 2 ^ BL * ((t.size - 1) / 2 ^ BL) else 0

/-! ### Basic lemmas -/

namespace Node

theorem toList_leaf {α : Type} (xs : List α) : (Node.leaf xs).toList = xs := rfl

theorem toList_inner {α : Type} (cs : List (Node α)) :
    (Node.inner cs).toList = toListAll cs := rfl

theorem toList_relaxed {α : Type} (cs : List (Node α)) (szs : List Nat) :
    (Node.relaxed cs szs).toList = toListAll cs := rfl

theorem toListAll_nil {α : Type} : toListAll ([] : List (Node α)) = [] := rfl

theorem toListAll_cons {α : Type} (c : Node α) (cs : List (Node α)) :
    toListAll (c :: cs) = c.toList ++ toListAll cs := rfl

theorem toListAll_append {α : Type} (cs ds : List (Node α)) :
    toListAll (cs ++ ds) = toListAll cs ++ toListAll ds := by
  induction cs with
  | nil => simp [toListAll_nil]
  | cons c cs ih => simp [toListAll_cons, ih, List.append_assoc]

end Node

theorem cumFrom_length (a : Nat) (l : List Nat) : (cumFrom a l).length = l.length := by
  induction l generalizing a with
  | nil => rfl
  | cons s rest ih => simp [cumFrom, ih]

theorem take_sum_add (ss : List Nat) (j : Nat) (hj : j < ss.length) :
    (ss.take (j + 1)).sum = (ss.take j).sum + ss.getD j 0 := by
  induction ss generalizing j with
  | nil => simp at hj
  | cons s rest ih =>
    cases j with
    | zero => simp
    | succ j =>
      simp only [List.take_succ_cons, List.sum_cons, List.getD_cons_succ]
      rw [ih j (by simpa using hj)]
      omega

theorem take_sum_mono (ss : List Nat) {a b : Nat} (hab : a ≤ b) :
    (ss.take a).sum ≤ (ss.take b).sum := by
  induction ss generalizing a b with
  | nil => simp
  | cons s rest ih =>
    cases a with
    | zero => simp
    | succ a =>
      cases b with
      | zero => omega
      | succ b => simpa using ih (Nat.succ_le_succ_iff.mp hab)

theorem cumFrom_getD (a : Nat) (l : List Nat) (j : Nat) (hj : j < l.length) :
    (cumFrom a l).getD j 0 = a + (l.take (j + 1)).sum := by
  induction l generalizing a j with
  | nil => simp at hj
  | cons s rest ih =>
    cases j with
    | zero => simp [cumFrom]
    | succ j =>
      simp only [cumFrom, List.getD_cons_succ, List.take_succ_cons, List.sum_cons]
      rw [ih (a + s) j (by simpa using hj)]
      omega

theorem cumSizes_getD (l : List Nat) (j : Nat) (hj : j < l.length) :
    (cumSizes l).getD j 0 = (l.take (j + 1)).sum := by
  simpa [cumSizes] using cumFrom_getD 0 l j hj

theorem cumSizes_length (l : List Nat) : (cumSizes l).length = l.length :=
  cumFrom_length 0 l

theorem take_sum_le_sum (ss : List Nat) (j : Nat) : (ss.take j).sum ≤ ss.sum := by
  conv_rhs => rw [← List.take_append_drop j ss]
  rw [List.sum_append]
  exact Nat.le_add_right _ _

/-- Locating an index in a list of block sizes. -/
theorem locate {ss : List Nat} {idx : Nat} (h : idx < ss.sum) :
    ∃ j, j < ss.length ∧ (ss.take j).sum ≤ idx ∧ idx < (ss.take (j + 1)).sum := by
  induction ss generalizing idx with
  | nil => simp at h
  | cons s rest ih =>
    by_cases hs : idx < s
    · exact ⟨0, by simp, by simp, by simpa using hs⟩
    · obtain ⟨j, hj, hle, hlt⟩ := @ih (idx - s) (by simp at h; omega)
      refine ⟨j + 1, by simpa using hj, ?_, ?_⟩
      · simp only [List.take_succ_cons, List.sum_cons]; omega
      · simp only [List.take_succ_cons, List.sum_cons]; omega

theorem sizeIndex_eq {szs : List Nat} {idx j k : Nat}
    (hj : j < szs.length) (hjgt : idx < szs.getD j 0)
    (hbelow : ∀ m, k ≤ m → m < j → szs.getD m 0 ≤ idx) (hkj : k ≤ j) :
    sizeIndex szs idx k = j := by
  generalize hd : j - k = d
  induction d generalizing k with
  | zero =>
    have hk : k = j := by omega
    subst hk
    rw [sizeIndex]
    simp only [hj, dif_pos]
    have hgt : ¬ szs[k] ≤ idx := by
      rw [List.getD_eq_getElem?_getD] at hjgt
      simp [List.getElem?_eq_getElem hj] at hjgt
      omega
    simp [List.get_eq_getElem, hgt]
  | succ d ih =>
    have hkj2 : k < j := by omega
    rw [sizeIndex]
    have hk : k < szs.length := by omega
    simp only [hk, dif_pos]
    have hle : szs.get ⟨k, hk⟩ ≤ idx := by
      have := hbelow k le_rfl hkj2
      rw [List.getD_eq_getElem?_getD] at this
      simpa [List.getElem?_eq_getElem hk, List.get_eq_getElem] using this
    simp only [hle, if_pos]
    exact ih (fun m hm hmj => hbelow m (by omega) hmj) (by omega) (by omega)

theorem toListAll_get_cum {α : Type} {cs : List (Node α)} {ss : List Nat}
    (hlen : cs.length = ss.length)
    (hsz : ∀ p ∈ cs.zip ss, (p.1 : Node α).toList.length = p.2)
    {k r : Nat} (hk : k < cs.length) (hr : r < ss.getD k 0) :
    (Node.toListAll cs).get? ((ss.take k).sum + r) =
      (cs.getD k (.leaf [])).toList.get? r := by
  induction cs generalizing ss k with
  | nil => simp at hk
  | cons c cs ih =>
    cases ss with
    | nil => simp at hlen
    | cons s rest =>
      have hcl : c.toList.length = s := hsz (c, s) (by simp)
      cases k with
      | zero =>
        simp only [List.take_zero, List.sum_nil, Nat.zero_add, List.getD_cons_zero]
        rw [Node.toListAll_cons, List.get?_append]
        rw [hcl]
        simpa using hr
      | succ k =>
        simp only [List.take_succ_cons, List.sum_cons, List.getD_cons_succ]
        rw [Node.toListAll_cons, List.get?_append_right (by omega)]
        have : s + (rest.take k).sum + r - c.toList.length = (rest.take k).sum + r := by
          rw [hcl]; omega
        rw [this]
        exact ih (by simpa using hlen) (fun p hp => hsz p (by simp [hp])) (by simpa using hk)
          (by simpa using hr)

theorem cap_succ (B BL h : Nat) : cap B BL (h + 1) = 2 ^ B * cap B BL h := by
  simp [cap, Nat.mul_succ, pow_add]
  ring

theorem cap_pos (B BL h : Nat) : 0 < cap B BL h := Nat.pos_pow_of_pos _ (by omega)

theorem cap_zero (B BL : Nat) : cap B BL 0 = 2 ^ BL := by simp [cap]

theorem wfRegInner {B BL : Nat} {α : Type} {h : Nat} (cs0 : List (Node α))
    {cl : Node α} {szl : Nat}
    (h1 : ∀ c ∈ cs0, WfFull B BL h c) (h2 : WfReg B BL h cl szl)
    (h3 : cs0.length + 1 ≤ 2 ^ B) :
    WfReg B BL (h + 1) (.inner (cs0 ++ [cl])) (cs0.length * cap B BL h + szl) :=
  WfReg.inner h1 h2 h3

theorem wfAnyRel {B BL : Nat} {α : Type} (h : Nat) (cs : List (Node α)) (ss : List Nat)
    (h1 : cs.length = ss.length) (h2 : ∀ p ∈ cs.zip ss, WfAny B BL h p.1 p.2)
    (h3 : ∀ s ∈ ss, 0 < s ∧ s ≤ cap B BL h) (h4 : 0 < cs.length)
    (h5 : cs.length ≤ 2 ^ B) :
    WfAny B BL (h + 1) (.relaxed cs (cumSizes ss)) ss.sum :=
  WfAny.rel h1 h2 h3 h4 h5

theorem toListAll_length_of {α : Type} {cs : List (Node α)} {ss : List Nat}
    (hlen : cs.length = ss.length)
    (hsz : ∀ p ∈ cs.zip ss, (p.1 : Node α).toList.length = p.2) :
    (Node.toListAll cs).length = ss.sum := by
  induction cs generalizing ss with
  | nil => cases ss with
    | nil => simp [Node.toListAll_nil]
    | cons s rest => simp at hlen
  | cons c cs ih =>
    cases ss with
    | nil => simp at hlen
    | cons s rest =>
      rw [Node.toListAll_cons]
      simp only [List.length_append, List.sum_cons]
      rw [hsz (c, s) (by simp), ih (by simpa using hlen)
        (fun p hp => hsz p (by simp [hp]))]

theorem toListAll_length_const {α : Type} {cs : List (Node α)} {L : Nat}
    (hsz : ∀ c ∈ cs, (c : Node α).toList.length = L) :
    (Node.toListAll cs).length = cs.length * L := by
  induction cs with
  | nil => simp [Node.toListAll_nil]
  | cons c cs ih =>
    rw [Node.toListAll_cons]
    simp only [List.length_append, List.length_cons]
    rw [hsz c (by simp), ih (fun d hd => hsz d (by simp [hd]))]
    ring

theorem wfFull_length {B BL : Nat} {α : Type} {h : Nat} {c : Node α}
    (hw : WfFull B BL h c) : c.toList.length = cap B BL h := by
  induction hw with
  | leaf hx => simpa [cap] using hx
  | @inner h cs hlen hall ih =>
    rw [Node.toList_inner, toListAll_length_const ih, hlen, cap_succ]

theorem wfReg_length {B BL : Nat} {α : Type} {h : Nat} {n : Node α} {sz : Nat}
    (hw : WfReg B BL h n sz) : n.toList.length = sz ∧ 0 < sz ∧ sz ≤ cap B BL h := by
  induction hw with
  | leaf hx hpos hle => exact ⟨hx, hpos, by simpa [cap] using hle⟩
  | @inner h cs0 cl szl hfull hreg hle ih =>
    refine ⟨?_, ?_, ?_⟩
    · rw [Node.toList_inner, Node.toListAll_append, List.length_append,
        toListAll_length_const (fun c hc => wfFull_length (hfull c hc)),
        Node.toListAll_cons, Node.toListAll_nil, List.append_nil, ih.1]
    · omega
    · have := ih.2.2
      rw [cap_succ]
      have hlen2 : cs0.length + 1 ≤ 2 ^ B := hle
      nlinarith [cap_pos B BL h]

theorem wfAny_length {B BL : Nat} {α : Type} {h : Nat} {n : Node α} {sz : Nat}
    (hw : WfAny B BL h n sz) : n.toList.length = sz ∧ 0 < sz ∧ sz ≤ cap B BL h := by
  induction hw with
  | reg hr _ => exact wfReg_length hr
  | @rel h cs ss hlen hch hbounds hpos hle ih =>
    refine ⟨?_, ?_, ?_⟩
    · rw [Node.toList_relaxed]
      exact toListAll_length_of hlen (fun p hp => (ih p hp).1)
    · cases ss with
      | nil => rw [hlen] at hpos; simp at hpos
      | cons s rest =>
        have := (hbounds s (by simp)).1
        simp only [List.sum_cons]
        omega
    · calc ss.sum ≤ ss.length • cap B BL h :=
            List.sum_le_card_nsmul _ _ (fun s hs => (hbounds s hs).2)
        _ = ss.length * cap B BL h := by simp
        _ ≤ 2 ^ B * cap B BL h := by
            have : ss.length ≤ 2 ^ B := by omega
            exact Nat.mul_le_mul_right _ this
        _ = cap B BL (h + 1) := (cap_succ B BL h).symm

theorem wfFull_wfReg {B BL : Nat} {α : Type} {h : Nat} {c : Node α}
    (hw : WfFull B BL h c) : WfReg B BL h c (cap B BL h) := by
  induction hw with
  | leaf hx =>
    exact WfReg.leaf hx (Nat.pos_pow_of_pos _ (by omega)) (by simp [cap])
  | @inner h cs hlen hall ih =>
    rcases List.eq_nil_or_concat cs with hnil | ⟨cs0, cl, rfl⟩
    · rw [hnil] at hlen
      have : 0 < 2 ^ B := Nat.pos_pow_of_pos _ (by omega)
      simp at hlen; omega
    · rw [List.concat_eq_append] at hlen hall ih ⊢
      have hmain := wfRegInner cs0
        (fun c (hc : c ∈ cs0) => hall c (by simp [hc]))
        (ih cl (by simp)) (by simpa using hlen.le)
      have hsz : cs0.length * cap B BL h + cap B BL h = cap B BL (h + 1) := by
        rw [cap_succ]
        have : cs0.length + 1 = 2 ^ B := by simpa using hlen
        nlinarith [cap_pos B BL h]
      rw [hsz] at hmain
      exact hmain

theorem toListAll_singleton {α : Type} (c : Node α) :
    Node.toListAll [c] = c.toList := by
  rw [Node.toListAll_cons, Node.toListAll_nil, List.append_nil]

theorem toListAll_get_const {α : Type} {cs : List (Node α)} {L : Nat}
    (hL : ∀ c ∈ cs, (c : Node α).toList.length = L)
    {k r : Nat} (hk : k < cs.length) (hr : r < L) :
    (Node.toListAll cs).get? (k * L + r) = (cs.getD k (.leaf [])).toList.get? r := by
  induction cs generalizing k with
  | nil => simp at hk
  | cons c cs ih =>
    cases k with
    | zero =>
      simp only [Nat.zero_mul, Nat.zero_add, List.getD_cons_zero]
      rw [Node.toListAll_cons, List.get?_append]
      rw [hL c (by simp)]; exact hr
    | succ k =>
      simp only [List.getD_cons_succ]
      rw [Node.toListAll_cons, List.get?_append_right (by
        rw [hL c (by simp)]; nlinarith)]
      have : (k + 1) * L + r - c.toList.length = k * L + r := by
        rw [hL c (by simp)]; ring_nf; omega
      rw [this]
      exact ih (fun d hd => hL d (by simp [hd])) (by simpa using hk) 

theorem mod_mul_decomp (idx b c : Nat) :
    idx % (c * b) = (idx / b % c) * b + idx % b := by
  conv_lhs => rw [← Nat.div_add_mod (idx % (c * b)) b]
  rw [Nat.mod_mod_of_dvd _ (Dvd.intro_left c rfl)]
  rw [mul_comm c b, Nat.mod_mul_right_div_self]
  ring

theorem getLoop_full {B BL : Nat} {α : Type} {h : Nat} {c : Node α}
    (hw : WfFull B BL h c) :
    ∀ idx lv, (1 ≤ h → lv = BL + B * (h - 1)) →
    getLoop B BL h c lv idx = c.toList.get? (idx % cap B BL h) := by
  induction hw with
  | leaf hx => intro idx lv _; simp [getLoop, Node.leafData, cap, Node.toList_leaf]
  | @inner h cs hlen hall ih =>
    intro idx lv hlv
    have hlv1 : lv = BL + B * h := by simpa using hlv (by omega)
    have hcap : (2 : Nat) ^ lv = cap B BL h := by rw [hlv1]; rfl
    have hBpos : 0 < (2 : Nat) ^ B := Nat.pos_pow_of_pos _ (by omega)
    have hjlt : idx / 2 ^ lv % 2 ^ B < 2 ^ B := Nat.mod_lt _ hBpos
    have hjlen : idx / 2 ^ lv % 2 ^ B < cs.length := by rw [hlen]; exact hjlt
    obtain ⟨cj, hcj⟩ : ∃ cj, cs.get? (idx / 2 ^ lv % 2 ^ B) = some cj :=
      ⟨cs.get ⟨_, hjlen⟩, List.get?_eq_get hjlen⟩
    have hcjmem : cj ∈ cs := by
      have := List.get?_mem hcj
      exact this
    rw [getLoop]
    simp only [hcj]
    rw [ih cj hcjmem idx (lv - B) (by
      intro h1
      have hh : h - 1 + 1 = h := Nat.succ_pred_eq_of_pos h1
      have hm : B * h = B * (h - 1) + B := by
        conv_lhs => rw [← hh]
        rw [Nat.mul_succ]
      rw [hlv1]
      omega)]
    have hgd : cs.getD (idx / 2 ^ lv % 2 ^ B) (.leaf []) = cj := by
      rw [List.getD_eq_getElem?_getD, ← List.get?_eq_getElem?, hcj]; rfl
    rw [← hgd]
    rw [← toListAll_get_const (L := cap B BL h)
      (fun d hd => wfFull_length (hall d hd)) hjlen (Nat.mod_lt _ (cap_pos B BL h))]
    rw [← Node.toList_inner]
    congr 1
    rw [cap_succ, mod_mul_decomp idx (cap B BL h) (2 ^ B), hcap]

theorem lvl_step {B BL lv h : Nat} (hlv : lv = BL + B * h) (h1 : 1 ≤ h) :
    lv - B = BL + B * (h - 1) := by
  have hh : h - 1 + 1 = h := Nat.succ_pred_eq_of_pos h1
  have hm : B * h = B * (h - 1) + B := by
    conv_lhs => rw [← hh]
    rw [Nat.mul_succ]
  omega

theorem getLoop_reg {B BL : Nat} {α : Type} {h : Nat} {n : Node α} {sz : Nat}
    (hw : WfReg B BL h n sz) :
    ∀ idx loc lv, (1 ≤ h → lv = BL + B * (h - 1)) →
    loc < sz → idx % cap B BL h = loc →
    getLoop B BL h n lv idx = n.toList.get? loc := by
  induction hw with
  | @leaf xs sz hx hpos hle =>
    intro idx loc lv _ hloc hmod
    rw [getLoop]
    have hmod2 : idx % 2 ^ BL = loc := by rw [← cap_zero B BL]; exact hmod
    simp only [Node.leafData, Node.toList_leaf, hmod2]
  | @inner h cs0 cl szl hfull hreg hcnt ih =>
    intro idx loc lv hlv hloc hmod
    have hlv1 : lv = BL + B * h := by simpa using hlv (by omega)
    have hcap : (2 : Nat) ^ lv = cap B BL h := by rw [hlv1]; rfl
    have hszl := wfReg_length hreg
    have hdm := Nat.div_add_mod loc (cap B BL h)
    have hml := Nat.mod_lt loc (cap_pos B BL h)
    have hcm : cap B BL h * (loc / cap B BL h) = (loc / cap B BL h) * cap B BL h :=
      mul_comm _ _
    have hjay : idx / 2 ^ lv % 2 ^ B = loc / cap B BL h := by
      rw [← hmod, cap_succ, mul_comm, Nat.mod_mul_right_div_self, hcap]
    have hjle : loc / cap B BL h ≤ cs0.length := by
      have h1 : loc < (cs0.length + 1) * cap B BL h := by nlinarith [hszl.2.2]
      have := (Nat.div_lt_iff_lt_mul (cap_pos B BL h)).mpr h1
      omega
    have hlocmod : loc % cap B BL h = idx % cap B BL h := by
      rw [← hmod, cap_succ]
      exact Nat.mod_mod_of_dvd idx (dvd_mul_left _ _)
    rw [getLoop]
    rcases Nat.lt_or_ge (loc / cap B BL h) cs0.length with hjlt | hjge
    · -- full child
      have hjlen : loc / cap B BL h < (cs0 ++ [cl]).length := by
        simp; omega
      obtain ⟨cj, hcj⟩ : ∃ cj, (cs0 ++ [cl]).get? (loc / cap B BL h) = some cj :=
        ⟨_, List.get?_eq_get hjlen⟩
      have hcj0 : cs0.get? (loc / cap B BL h) = some cj := by
        rw [← hcj, List.get?_append hjlt]
      have hcjmem : cj ∈ cs0 := List.get?_mem hcj0
      simp only [hjay, hcj]
      rw [getLoop_full (hfull cj hcjmem) idx (lv - B)
        (fun h1 => lvl_step hlv1 h1)]
      rw [Node.toList_inner, Node.toListAll_append, toListAll_singleton]
      have hmul : cap B BL h * (loc / cap B BL h + 1) ≤ cap B BL h * cs0.length :=
        Nat.mul_le_mul_left _ hjlt
      have hmul2 : cap B BL h * (loc / cap B BL h + 1)
          = cap B BL h * (loc / cap B BL h) + cap B BL h := by ring
      rw [List.get?_append (by
        rw [toListAll_length_const (fun d hd => wfFull_length (hfull d hd)), mul_comm]
        omega)]
      have hdecomp : loc = (loc / cap B BL h) * cap B BL h + loc % cap B BL h := by
        omega
      conv_rhs => rw [hdecomp]
      rw [toListAll_get_const (fun d hd => wfFull_length (hfull d hd)) hjlt
        (Nat.mod_lt _ (cap_pos B BL h))]
      have hgd : cs0.getD (loc / cap B BL h) (.leaf []) = cj := by
        rw [List.getD_eq_getElem?_getD, ← List.get?_eq_getElem?, hcj0]; rfl
      rw [hgd, hlocmod]
    · -- last child
      have hjk : loc / cap B BL h = cs0.length := le_antisymm hjle hjge
      have hcjlast : (cs0 ++ [cl]).get? (loc / cap B BL h) = some cl := by
        rw [hjk]
        rw [List.get?_append_right (le_refl _)]
        simp
      simp only [hjay, hcjlast]
      have hlocge : cs0.length * cap B BL h ≤ loc := by
        rw [← hjk]
        exact Nat.div_mul_le_self _ _
      have hloc2 : loc - cs0.length * cap B BL h = loc % cap B BL h := by
        rw [← hjk]
        omega
      rw [ih idx (loc - cs0.length * cap B BL h) (lv - B)
        (fun h1 => lvl_step hlv1 h1) (by omega) (by rw [hloc2, hlocmod])]
      rw [Node.toList_inner, Node.toListAll_append, toListAll_singleton]
      rw [List.get?_append_right (by
        rw [toListAll_length_const (fun d hd => wfFull_length (hfull d hd))]
        omega)]
      rw [toListAll_length_const (fun d hd => wfFull_length (hfull d hd))]

theorem getLoop_any {B BL : Nat} {α : Type} {h : Nat} {n : Node α} {sz : Nat}
    (hw : WfAny B BL h n sz) :
    ∀ idx lv, (1 ≤ h → lv = BL + B * (h - 1)) → idx < sz →
    getLoop B BL h n lv idx = n.toList.get? idx := by
  induction hw with
  | reg hr _ =>
    intro idx lv hlv hidx
    have hlen := wfReg_length hr
    exact getLoop_reg hr idx idx lv hlv hidx (Nat.mod_eq_of_lt (by omega))
  | @rel h cs ss hlen hch hbounds hpos hcnt ih =>
    intro idx lv hlv hidx
    have hlv1 : lv = BL + B * h := by simpa using hlv (by omega)
    have hcap : (2 : Nat) ^ lv = cap B BL h := by rw [hlv1]; rfl
    obtain ⟨j, hjlen, hjle, hjlt⟩ := @locate ss _ (by simpa using hidx)
    have hjlencs : j < cs.length := by omega
    have hsplit : (ss.take (j + 1)).sum = (ss.take j).sum + ss.getD j 0 :=
      take_sum_add ss j hjlen
    -- the scan starts at the radix guess and stops at slot j
    have hstart : idx / 2 ^ lv % 2 ^ B = idx / cap B BL h := by
      rw [hcap]
      apply Nat.mod_eq_of_lt
      have hsum : ss.sum ≤ ss.length * cap B BL h := by
        calc ss.sum ≤ ss.length • cap B BL h :=
              List.sum_le_card_nsmul _ _ (fun s hs => (hbounds s hs).2)
          _ = ss.length * cap B BL h := by simp
      have : idx < 2 ^ B * cap B BL h := by
        have : ss.length * cap B BL h ≤ 2 ^ B * cap B BL h :=
          Nat.mul_le_mul_right _ (by omega)
        omega
      exact (Nat.div_lt_iff_lt_mul (cap_pos B BL h)).mpr (by omega)
    have hstartle : idx / cap B BL h ≤ j := by
      have htb : (ss.take (j + 1)).sum ≤ (j + 1) * cap B BL h := by
        calc (ss.take (j + 1)).sum ≤ (ss.take (j + 1)).length • cap B BL h :=
              List.sum_le_card_nsmul _ _
                (fun s hs => (hbounds s (List.mem_of_mem_take hs)).2)
          _ = (ss.take (j + 1)).length * cap B BL h := by simp
          _ ≤ (j + 1) * cap B BL h := by
              exact Nat.mul_le_mul_right _ (by simp)
      have := (Nat.div_lt_iff_lt_mul (cap_pos B BL h)).mpr (by omega : idx < (j + 1) * cap B BL h)
      omega
    have hkj : sizeIndex (cumSizes ss) idx (idx / 2 ^ lv % 2 ^ B) = j := by
      apply sizeIndex_eq (by rw [cumSizes_length]; omega)
      · rw [cumSizes_getD ss j hjlen]; omega
      · intro m hm hmj
        rw [cumSizes_getD ss m (by omega)]
        have := take_sum_mono ss (a := m + 1) (b := j) (by omega)
        omega
      · rw [hstart]; exact hstartle
    obtain ⟨cj, hcj⟩ : ∃ cj, cs.get? j = some cj :=
      ⟨_, List.get?_eq_get hjlencs⟩
    have hjz : j < (cs.zip ss).length := by
      rw [List.length_zip]; omega
    have hjss : j < ss.length := by omega
    have hzget : (cs.zip ss)[j] = (cs[j], ss[j]) := List.getElem_zip
    have hzmem : (cs[j], ss[j]) ∈ cs.zip ss := by
      rw [← hzget]
      exact List.getElem_mem _
    have hcjv : cs[j] = cj := by
      have := List.get?_eq_getElem? cs j
      rw [hcj] at this
      simp [List.getElem?_eq_getElem hjlencs] at this
      exact this.symm
    have hssj : ss[j] = ss.getD j 0 := by
      rw [List.getD_eq_getElem?_getD, List.getElem?_eq_getElem (by omega : j < ss.length)]
      rfl
    -- the local index inside child j
    have hidx2 : (if j = 0 then idx else idx - (cumSizes ss).getD (j - 1) 0)
        = idx - (ss.take j).sum := by
      rcases Nat.eq_zero_or_pos j with h0 | h1
      · simp [h0]
      · have hj1 : j - 1 + 1 = j := Nat.succ_pred_eq_of_pos h1
        have hgd1 : (cumSizes ss).getD (j - 1) 0 = (ss.take j).sum := by
          rw [cumSizes_getD ss (j - 1) (by omega), hj1]
        have hne : j ≠ 0 := by omega
        rw [if_neg hne, hgd1]
    rw [getLoop]
    simp only [hkj, hidx2, hcj]
    have hloc : idx - (ss.take j).sum < ss.getD j 0 := by omega
    have hIH := ih (cs[j], ss[j]) hzmem (idx - (ss.take j).sum) (lv - B)
      (fun h1 => lvl_step hlv1 h1) (by rw [hssj]; exact hloc)
    dsimp only at hIH
    rw [hcjv] at hIH
    rw [hIH]
    rw [Node.toList_relaxed]
    have hgd : cs.getD j (.leaf []) = cj := by
      rw [List.getD_eq_getElem?_getD, ← List.get?_eq_getElem?, hcj]; rfl
    have := toListAll_get_cum hlen
      (fun p hp => (wfAny_length (hch p hp)).1) hjlencs hloc
    rw [hgd] at this
    rw [← this]
    congr 1
    omega

theorem wfT_root_length {B BL : Nat} {α : Type} {t : RRB α} (hw : WfT B BL t) :
    t.root.toList.length = tailOffset BL t := by
  rcases hw.rootWf with ⟨h0, hroot, _⟩ | hany
  · rw [hroot, h0, Node.toList_inner, Node.toListAll_nil]; rfl
  · exact (wfAny_length hany).1

theorem wfT_tail_toList {B BL : Nat} {α : Type} {t : RRB α} (hw : WfT B BL t) :
    t.tail.toList = t.tail.leafData := by
  conv_lhs => rw [hw.tailLeaf, Node.toList_leaf]

theorem wfT_offLe {B BL : Nat} {α : Type} {t : RRB α} (hw : WfT B BL t) :
    tailOffset BL t ≤ t.size := by
  have := hw.sizeEq
  omega

theorem wfT_tailLen {B BL : Nat} {α : Type} {t : RRB α} (hw : WfT B BL t) :
    t.tail.leafData.length = t.size - tailOffset BL t := by
  have := hw.sizeEq
  omega

theorem wfT_toList_length {B BL : Nat} {α : Type} {t : RRB α} (hw : WfT B BL t) :
    t.toList.length = t.size := by
  rw [RRB.toList, List.length_append, wfT_root_length hw, wfT_tail_toList hw]
  have := hw.sizeEq
  omega

theorem hRoot_eq {B BL : Nat} (hB : 0 < B) (d : Nat) :
    hRoot B BL (BL + B * d) = d + 1 := by
  rw [hRoot]
  congr 1
  rw [Nat.add_sub_cancel_left]
  exact Nat.mul_div_cancel_left d hB

theorem get_correct {B BL : Nat} {α : Type} {t : RRB α} (hB : 0 < B)
    (hw : WfT B BL t) {idx : Nat} (hidx : idx < t.size) :
    t.get B BL idx = t.toList.get? idx := by
  rw [RRB.get, if_pos hidx]
  by_cases hoff : tailOffset BL t ≤ idx
  · rw [if_pos hoff]
    have h1 : idx - tailOffset BL t < 2 ^ BL := by
      have := hw.sizeEq
      have := hw.tailLe
      omega
    rw [Nat.mod_eq_of_lt h1]
    rw [RRB.toList, List.get?_append_right (by rw [wfT_root_length hw]; omega)]
    rw [wfT_root_length hw, wfT_tail_toList hw]
  · rw [if_neg hoff]
    push_neg at hoff
    have hany : WfAny B BL (hRoot B BL t.shift) t.root (tailOffset BL t) := by
      rcases hw.rootWf with ⟨h0, _, _⟩ | hany
      · omega
      · exact hany
    obtain ⟨d, hd⟩ := hw.shiftD
    rw [getLoop_any hany idx t.shift (by
      intro _
      rw [hd, hRoot_eq hB d]
      simp) hoff]
    rw [RRB.toList, List.get?_append (by rw [wfT_root_length hw]; omega)]

theorem tailOffset_empty {BL : Nat} {α : Type} : tailOffset BL (emptyRRB (α := α) BL) = 0 := by
  simp [tailOffset, emptyRRB, Node.relaxedOf]

theorem wfT_empty {B BL : Nat} {α : Type} : WfT B BL (emptyRRB (α := α) BL) := by
  refine ⟨⟨0, by simp [emptyRRB]⟩, rfl, ?_, ?_, ?_, Or.inl ⟨tailOffset_empty, rfl, rfl⟩⟩
  · rw [tailOffset_empty]; rfl
  · simp [emptyRRB, Node.leafData]
  · intro hsz; exact absurd rfl hsz

/-- C5: for every sequence and every index at or past its size, `get`
fails with the out-of-range error (it does not return a value). -/
theorem claim_C5 {B BL : Nat} {α : Type} (t : RRB α) (idx : Nat)
    (h : t.size ≤ idx) : t.get B BL idx = none := by
  rw [RRB.get, if_neg (by omega)]

theorem claim_C5_witness :
    (emptyRRB (α := Nat) 2).size ≤ 3 ∧ (emptyRRB (α := Nat) 2).get 2 2 3 = none :=
  ⟨by decide, claim_C5 _ 3 (by decide)⟩

/-- C7: on a well-formed façade, `tail_offset()` equals the last entry of
the root's size table when the root is relaxed, else `(size - 1)` with the
low `BL` bits cleared when `size` is nonzero, else `0`; and
`tail_offset() ≤ size`. -/
theorem claim_C7 {B BL : Nat} {α : Type} (t : RRB α) (hw : WfT B BL t) :
    tailOffset BL t = tailOffsetSpec BL t ∧ tailOffset BL t ≤ t.size := by
  constructor
  · rw [tailOffset, tailOffsetSpec]
    cases t.root.relaxedOf with
    | some szs => rfl
    | none =>
      dsimp only
      by_cases hsz : t.size ≠ 0
      · rw [if_pos hsz, if_pos hsz]
        have := Nat.div_add_mod (t.size - 1) (2 ^ BL)
        omega
      · simp [hsz]
  · exact wfT_offLe hw

theorem claim_C7_witness :
    tailOffset 2 (emptyRRB (α := Nat) 2) = tailOffsetSpec 2 (emptyRRB (α := Nat) 2) ∧
    tailOffset 2 (emptyRRB (α := Nat) 2) ≤ (emptyRRB (α := Nat) 2).size :=
  claim_C7 (B := 2) _ wfT_empty

/-- C8: `push_back` on a tree with a non-full tail produces a tree with
size incremented, the same shift, the same (shared) root, and the old tail
extended with the new element. -/
theorem claim_C8 {B BL : Nat} {α : Type} (t : RRB α) (v : α)
    (hw : WfT B BL t) (hts : tailSize BL t < 2 ^ BL) :
    t.pushBack B BL v =
      ⟨t.size + 1, t.shift, t.root, Node.leaf (t.tail.leafData ++ [v])⟩ := by
  rw [RRB.pushBack]
  simp only [hts, if_pos]
  have hlen : t.tail.leafData.length = tailSize BL t := by
    rw [tailSize, wfT_tailLen hw]
  rw [← hlen, List.take_length]

theorem claim_C8_witness :
    tailSize 2 (emptyRRB (α := Nat) 2) < 2 ^ 2 ∧
    (emptyRRB (α := Nat) 2).pushBack 2 2 7 =
      ⟨1, 2, Node.inner [], Node.leaf [7]⟩ := by
  constructor
  · decide
  · have h := @claim_C8 2 2 Nat (emptyRRB (α := Nat) 2) 7 wfT_empty (by decide)
    simpa [emptyRRB, Node.leafData] using h

/-- C10: dropping `elems` with `tail_offset() ≤ elems < size` collapses
the tree into the tail: the root becomes the canonical empty root at shift
`BL`, and the elements are the whole tail when `elems = tail_offset()`,
else the tail's suffix of length `size - elems`. -/
theorem claim_C10 {B BL : Nat} {α : Type} (t : RRB α) (elems : Nat)
    (hw : WfT B BL t) (h1 : tailOffset BL t ≤ elems) (h2 : elems < t.size) :
    (t.drop B BL elems).root = Node.inner [] ∧
    (t.drop B BL elems).shift = BL ∧
    (t.drop B BL elems).tail = (if elems = tailOffset BL t then t.tail
        else Node.leaf (t.tail.leafData.drop (elems - tailOffset BL t))) ∧
    (t.drop B BL elems).size = t.size - elems ∧
    (t.drop B BL elems).toList = t.toList.drop elems := by
  have hoff := wfT_offLe hw
  have htoList : t.toList.drop elems
      = t.tail.leafData.drop (elems - tailOffset BL t) := by
    rw [RRB.toList, List.drop_append_eq_append_drop]
    rw [wfT_root_length hw]
    have hall : t.root.toList.drop elems = [] := by
      apply List.drop_eq_nil_of_le
      rw [wfT_root_length hw]
      omega
    rw [hall, List.nil_append, wfT_tail_toList hw]
  by_cases h0 : elems = 0
  · subst h0
    have hofz : tailOffset BL t = 0 := by omega
    rcases hw.rootWf with ⟨_, hroot, hsh⟩ | hany
    · rw [RRB.drop, if_pos rfl]
      refine ⟨hroot, hsh, ?_, by omega, by simp⟩
      rw [if_pos hofz.symm]
    · have := (wfAny_length hany).2.1
      omega
  · rw [RRB.drop, if_neg h0, if_neg (by omega)]
    by_cases heq : elems = tailOffset BL t
    · rw [if_pos heq]
      refine ⟨rfl, rfl, ?_, rfl, ?_⟩
      · rw [if_pos heq]
      · rw [htoList, RRB.toList]
        simp only [Node.toList_inner, Node.toListAll_nil, List.nil_append]
        rw [wfT_tail_toList hw, heq, Nat.sub_self, List.drop_zero]
    · rw [if_neg heq, if_pos (by omega)]
      refine ⟨rfl, rfl, ?_, rfl, ?_⟩
      · rw [if_neg heq]
      · rw [htoList, RRB.toList]
        simp only [Node.toList_inner, Node.toListAll_nil, List.nil_append,
          Node.toList_leaf]

theorem claim_C10_witness :
    tailOffset 2 (⟨1, 2, Node.inner [], Node.leaf [5]⟩ : RRB Nat) ≤ 0 ∧
    ((⟨1, 2, Node.inner [], Node.leaf [5]⟩ : RRB Nat).drop 2 2 0).root = Node.inner [] := by
  have hwf : WfT 2 2 (⟨1, 2, Node.inner [], Node.leaf [5]⟩ : RRB Nat) := by
    refine ⟨⟨0, by decide⟩, rfl, by decide, by decide, fun _ => by decide,
      Or.inl ⟨by decide, rfl, rfl⟩⟩
  have h := @claim_C10 2 2 Nat ⟨1, 2, Node.inner [], Node.leaf [5]⟩ 0 hwf
    (by decide) (by decide)
  exact ⟨by decide, h.1⟩

/-! ### The rebalance plan: `shuffle` preserves the total and caps the
slot count (claim C9) -/

theorem redistGo_spec (branches : Nat) (hbr : 0 < branches) :
    ∀ (rest : List Nat) (remaining : Nat),
    0 < remaining →
    (∀ c ∈ rest, c ≤ branches) →
    remaining ≤ (rest.map (fun c => branches - c)).sum →
    (redistGo branches remaining rest).1.sum + (redistGo branches remaining rest).2.sum
        = remaining + rest.sum ∧
    (redistGo branches remaining rest).1.length
        + (redistGo branches remaining rest).2.length = rest.length ∧
    (∀ x ∈ (redistGo branches remaining rest).1, 0 < x ∧ x ≤ branches) ∧
    (∀ x ∈ (redistGo branches remaining rest).1.dropLast, x = branches) ∧
    (∀ x ∈ (redistGo branches remaining rest).2, x ∈ rest) ∧
    0 < (redistGo branches remaining rest).1.length := by
  intro rest
  induction rest with
  | nil =>
    intro remaining hpos _ hslack
    simp at hslack
    omega
  | cons c rest ih =>
    intro remaining hpos hent hslack
    rw [redistGo]
    have hmle : min (remaining + c) branches ≤ remaining + c := Nat.min_le_left _ _
    have hmbr : min (remaining + c) branches ≤ branches := Nat.min_le_right _ _
    by_cases hz : remaining + c - min (remaining + c) branches = 0
    · rw [if_pos hz]
      refine ⟨?_, by simp [Nat.add_comm], ?_, by simp, by
        intro x hx
        simp only [List.mem_cons]
        right
        simpa using hx, by simp⟩
      · simp only [List.sum_cons, List.sum_nil, List.sum_singleton]
        omega
      · intro x hx
        simp only [List.mem_singleton] at hx
        subst hx
        omega
    · have hwb : min (remaining + c) branches = branches := by
        rcases Nat.le_total (remaining + c) branches with hle | hge
        · rw [Nat.min_eq_left hle] at hz
          omega
        · exact Nat.min_eq_right hge
      rw [if_neg hz, hwb]
      rw [hwb] at hz
      have hcb : c ≤ branches := hent c (by simp)
      have hslack2 : remaining + c - branches
          ≤ (rest.map (fun c => branches - c)).sum := by
        simp only [List.map_cons, List.sum_cons] at hslack
        omega
      have hpos2 : 0 < remaining + c - branches := by omega
      obtain ⟨hsum, hlen, hbnd, hfull, hmem, hne⟩ :=
        ih (remaining + c - branches) hpos2
          (fun d hd => hent d (by simp [hd])) hslack2
      set p := redistGo branches (remaining + c - branches) rest
        with hp
      refine ⟨?_, ?_, ?_, ?_, ?_, ?_⟩
      · dsimp only
        simp only [List.sum_cons]
        omega
      · dsimp only
        simp only [List.length_cons]
        omega
      · intro x hx
        dsimp only at hx
        simp only [List.mem_cons] at hx
        rcases hx with hx | hx
        · subst hx; omega
        · exact hbnd x hx
      · intro x hx
        dsimp only at hx
        rcases List.eq_nil_or_concat p.1 with h0 | ⟨w0, wl, hw0⟩
        · rw [h0] at hne; simp at hne
        · rw [hw0, List.concat_eq_append, ← List.cons_append,
            List.dropLast_append_of_ne_nil _ (by simp)] at hx
          simp only [List.dropLast_single, List.append_nil] at hx
          simp only [List.mem_cons] at hx
          rcases hx with hx | hx
          · exact hx
          · apply hfull
            rw [hw0, List.concat_eq_append,
              List.dropLast_append_of_ne_nil _ (by simp)]
            simpa using hx
      · intro x hx
        dsimp only at hx
        simp only [List.mem_cons]
        right
        exact hmem x hx
      · dsimp only
        simp

theorem getD_mem_of_lt {l : List Nat} {m : Nat} (h : m < l.length) :
    l.getD m 0 ∈ l := by
  rw [List.getD_eq_getElem?_getD, List.getElem?_eq_getElem h]
  exact List.getElem_mem h

theorem slack_sum (branches : Nat) (l : List Nat) (h : ∀ c ∈ l, c ≤ branches) :
    (l.map (fun c => branches - c)).sum + l.sum = l.length * branches := by
  induction l with
  | nil => simp
  | cons c rest ih =>
    simp only [List.map_cons, List.sum_cons, List.length_cons]
    have hc : c ≤ branches := h c (by simp)
    have := ih (fun d hd => h d (by simp [hd]))
    ring_nf
    omega

theorem sum_of_const (l : List Nat) (k : Nat) (h : ∀ c ∈ l, c = k) :
    l.sum = l.length * k := by
  induction l with
  | nil => simp
  | cons c rest ih =>
    simp only [List.sum_cons, List.length_cons]
    rw [h c (by simp), ih (fun d hd => h d (by simp [hd]))]
    ring

theorem skipFull_spec (branches : Nat) (hbr : 0 < branches) (counts : List Nat) :
    ∀ i, (∃ j, i ≤ j ∧ j < counts.length ∧ counts.getD j 0 < branches) →
    i ≤ skipFull branches counts i ∧
    skipFull branches counts i < counts.length ∧
    counts.getD (skipFull branches counts i) 0 < branches ∧
    (∀ m, m < skipFull branches counts i → m < i ∨ branches ≤ counts.getD m 0) := by
  intro i
  generalize hd : counts.length - i = d
  induction d generalizing i with
  | zero =>
    rintro ⟨j, hij, hjlen, _⟩
    omega
  | succ d ih =>
    rintro ⟨j, hij, hjlen, hjshort⟩
    have hi : i < counts.length := by omega
    rw [skipFull]
    simp only [hi, dif_pos]
    by_cases hcur : branches - 1 < counts.get ⟨i, hi⟩
    · rw [if_pos hcur]
      have hifull : branches ≤ counts.getD i 0 := by
        rw [List.getD_eq_getElem?_getD, List.getElem?_eq_getElem hi]
        simp only [Option.getD_some]
        have hcur2 : branches - 1 < counts[i] := by simpa using hcur
        omega
      have hij2 : i ≠ j := by
        intro hcontra
        rw [hcontra] at hifull
        omega
      obtain ⟨h1, h2, h3, h4⟩ := ih (i + 1) (by omega) ⟨j, by omega, hjlen, hjshort⟩
      refine ⟨by omega, h2, h3, ?_⟩
      intro m hm
      rcases h4 m hm with hlt | hge
      · rcases Nat.lt_or_ge m i with hmi | hmi
        · left; exact hmi
        · right
          have : m = i := by omega
          rw [this]; exact hifull
      · right; exact hge
    · rw [if_neg hcur]
      refine ⟨le_refl _, hi, ?_, ?_⟩
      · rw [List.getD_eq_getElem?_getD, List.getElem?_eq_getElem hi]
        simp only [Option.getD_some]
        have hcur2 : ¬ (branches - 1 < counts[i]) := by simpa using hcur
        omega
      · intro m hm; left; exact hm

theorem redistribute_spec (branches : Nat) (hbr : 0 < branches) (counts : List Nat)
    (i1 : Nat) (hi : i1 < counts.length)
    (hbnd : ∀ c ∈ counts, 0 < c ∧ c ≤ branches)
    (hshort : counts.getD i1 0 < branches)
    (hfullpre : ∀ m, m < i1 → branches ≤ counts.getD m 0)
    (hopt : counts.sum + 2 * branches ≤ counts.length * branches) :
    (redistribute branches counts i1).1.sum = counts.sum ∧
    (redistribute branches counts i1).1.length + 1 = counts.length ∧
    (∀ c ∈ (redistribute branches counts i1).1, 0 < c ∧ c ≤ branches) ∧
    (∀ m, m < (redistribute branches counts i1).2 →
        branches ≤ (redistribute branches counts i1).1.getD m 0) := by
  have hdrop : counts.drop i1 = counts.getD i1 0 :: counts.drop (i1 + 1) := by
    rw [List.getD_eq_getElem?_getD, List.getElem?_eq_getElem hi]
    simp only [Option.getD_some]
    exact (List.drop_eq_getElem_cons hi)
  have hcpos : 0 < counts.getD i1 0 := (hbnd _ (getD_mem_of_lt hi)).1
  -- slack available after the short slot
  have hslackpre : ∀ c ∈ counts.take i1, c = branches := by
    intro c hc
    obtain ⟨m, hm, hcm⟩ := List.mem_iff_getElem.mp hc
    have hmlen : m < i1 := by
      rw [List.length_take] at hm
      omega
    have h1 := hfullpre m hmlen
    have h2 : counts.getD m 0 = c := by
      rw [List.getD_eq_getElem?_getD,
        List.getElem?_eq_getElem (by omega : m < counts.length)]
      simp only [Option.getD_some]
      rw [← hcm, List.getElem_take]
    have h3 := (hbnd c (List.mem_of_mem_take hc)).2
    omega
  have hsplit3 : (counts.take i1).sum + counts.getD i1 0 + (counts.drop (i1 + 1)).sum
      = counts.sum := by
    have := List.sum_take_add_sum_drop counts i1
    rw [hdrop] at this
    simp only [List.sum_cons] at this
    omega
  have htakelen : (counts.take i1).length = i1 := by simp; omega
  have htakesum : (counts.take i1).sum = i1 * branches := by
    rw [sum_of_const _ _ hslackpre, htakelen]
  have hslack : counts.getD i1 0
      ≤ ((counts.drop (i1 + 1)).map (fun c => branches - c)).sum := by
    have hrest := slack_sum branches (counts.drop (i1 + 1))
      (fun c hc => (hbnd c (List.mem_of_mem_drop hc)).2)
    have hdl : (counts.drop (i1 + 1)).length = counts.length - i1 - 1 := by
      simp; omega
    rw [hdl] at hrest
    have hlb : (counts.length - i1 - 1) * branches + i1 * branches + 2 * branches
        ≥ counts.length * branches + branches := by
      have h1 : counts.length - i1 - 1 + i1 + 2 = counts.length + 1 := by omega
      have := congrArg (fun x => x * branches) h1
      simp only [Nat.add_mul] at this
      omega
    omega
  obtain ⟨hsum, hlen, hbnd2, hfull2, hmem2, hne2⟩ :=
    redistGo_spec branches hbr (counts.drop (i1 + 1)) (counts.getD i1 0) hcpos
      (fun c hc => (hbnd c (List.mem_of_mem_drop hc)).2) hslack
  rw [redistribute, hdrop]
  dsimp only
  set w := (redistGo branches (counts.getD i1 0) (counts.drop (i1 + 1))).1 with hw
  set u := (redistGo branches (counts.getD i1 0) (counts.drop (i1 + 1))).2 with hu
  refine ⟨?_, ?_, ?_, ?_⟩
  · rw [List.sum_append, List.sum_append]
    omega
  · simp only [List.length_append, htakelen]
    have := List.length_drop (i1 + 1) counts
    omega
  · intro c hc
    simp only [List.mem_append] at hc
    rcases hc with (hc | hc) | hc
    · have := hslackpre c hc
      omega
    · exact hbnd2 c hc
    · exact hbnd c (List.mem_of_mem_drop (hmem2 c hc))
  · intro m hm
    rcases Nat.lt_or_ge m i1 with hmi | hmi
    · rw [List.append_assoc, List.getD_append _ _ _ _ (by rw [htakelen]; omega)]
      have : counts.take i1 = (counts.take i1) ++ [] := by simp
      have h2 : (counts.take i1).getD m 0 = counts.getD m 0 := by
        rw [List.getD_eq_getElem?_getD, List.getD_eq_getElem?_getD,
          List.getElem?_take_of_lt hmi]
      rw [h2]
      exact hfullpre m hmi
    · rw [List.append_assoc, List.getD_append_right _ _ _ _ (by rw [htakelen]; omega)]
      rw [htakelen]
      rw [List.getD_append _ _ _ _ (by
        have : m - i1 < w.length - 1 := by omega
        omega)]
      have hlt : m - i1 < w.length - 1 := by omega
      have hmemw : w.getD (m - i1) 0 ∈ w.dropLast := by
        have hwd : w.dropLast.getD (m - i1) 0 = w.getD (m - i1) 0 := by
          rw [List.getD_eq_getElem?_getD, List.getD_eq_getElem?_getD,
            List.getElem?_dropLast, if_pos hlt]
        rw [← hwd]
        apply getD_mem_of_lt
        simp only [List.length_dropLast]
        omega
      have heq := hfull2 _ hmemw
      omega

theorem shuffleGo_spec (branches optimal : Nat) (hbr : 0 < branches) :
    ∀ fuel counts i,
    counts.length ≤ fuel →
    (∀ c ∈ counts, 0 < c ∧ c ≤ branches) →
    counts.sum ≤ optimal * branches →
    (∀ m, m < i → branches ≤ counts.getD m 0) →
    (shuffleGo branches optimal fuel counts i).sum = counts.sum ∧
    (shuffleGo branches optimal fuel counts i).length ≤ optimal + 1 ∧
    (∀ c ∈ shuffleGo branches optimal fuel counts i, 0 < c ∧ c ≤ branches) := by
  intro fuel
  induction fuel with
  | zero =>
    intro counts i hfl hbnd hsum hpre
    have : counts.length = 0 := by omega
    rw [shuffleGo]
    refine ⟨rfl, by omega, hbnd⟩
  | succ fuel ih =>
    intro counts i hfl hbnd hsum hpre
    rw [shuffleGo]
    by_cases hcond : optimal + 2 ≤ counts.length
    · rw [if_pos hcond]
      dsimp only
      -- a short slot exists
      have hex : ∃ j, i ≤ j ∧ j < counts.length ∧ counts.getD j 0 < branches := by
        by_contra hno
        push_neg at hno
        have hall : ∀ c ∈ counts, c = branches := by
          intro c hc
          obtain ⟨m, hm, hcm⟩ := List.mem_iff_getElem.mp hc
          have hgd : counts.getD m 0 = c := by
            rw [List.getD_eq_getElem?_getD, List.getElem?_eq_getElem hm]
            simp [hcm]
          have hle2 := (hbnd c hc).2
          rcases Nat.lt_or_ge m i with hmi | hmi
          · have := hpre m hmi
            omega
          · have := hno m hmi hm
            omega
        have := sum_of_const counts branches hall
        have h2 : (optimal + 2) * branches ≤ counts.length * branches :=
          Nat.mul_le_mul_right _ hcond
        have h3 : (optimal + 2) * branches = optimal * branches + 2 * branches := by
          ring
        omega
      obtain ⟨hi1ge, hi1lt, hi1short, hi1pre⟩ := skipFull_spec branches hbr counts i hex
      set i1 := skipFull branches counts i with hi1
      have hfullpre : ∀ m, m < i1 → branches ≤ counts.getD m 0 := by
        intro m hm
        rcases hi1pre m hm with hlt | hge
        · exact hpre m hlt
        · exact hge
      have hopt : counts.sum + 2 * branches ≤ counts.length * branches := by
        have h2 : (optimal + 2) * branches ≤ counts.length * branches :=
          Nat.mul_le_mul_right _ hcond
        have h3 : (optimal + 2) * branches = optimal * branches + 2 * branches := by
          ring
        omega
      obtain ⟨hsum2, hlen2, hbnd2, hpre2⟩ :=
        redistribute_spec branches hbr counts i1 hi1lt hbnd hi1short hfullpre hopt
      obtain ⟨ha, hb, hc⟩ := ih (redistribute branches counts i1).1
        (redistribute branches counts i1).2 (by omega) hbnd2 (by omega) hpre2
      exact ⟨by omega, hb, hc⟩
    · rw [if_neg hcond]
      exact ⟨rfl, by omega, hbnd⟩

/-- C9: the rebalance shuffle with `optimal = ((total - 1) >> bits) + 1`
preserves the total and terminates with at most `optimal + 1` plan slots,
for every arity array with entries in `[1, 1 << bits]` and positive
total. -/
theorem claim_C9 (B BL shift : Nat) (counts : List Nat)
    (hbnd : ∀ c ∈ counts, 0 < c ∧ c ≤ 2 ^ (if shift = BL then BL else B))
    (htot : 0 < counts.sum) :
    (shuffle B BL shift counts).sum = counts.sum ∧
    (shuffle B BL shift counts).length
      ≤ ((counts.sum - 1) / 2 ^ (if shift = BL then BL else B) + 1) + 1 := by
  set bits := if shift = BL then BL else B with hbits
  have hbr : 0 < 2 ^ bits := Nat.pos_pow_of_pos _ (by omega)
  have hopt : counts.sum ≤ ((counts.sum - 1) / 2 ^ bits + 1) * 2 ^ bits := by
    have hdm := Nat.div_add_mod (counts.sum - 1) (2 ^ bits)
    have hml := Nat.mod_lt (counts.sum - 1) hbr
    have hc : ((counts.sum - 1) / 2 ^ bits + 1) * 2 ^ bits
        = 2 ^ bits * ((counts.sum - 1) / 2 ^ bits) + 2 ^ bits := by ring
    omega
  obtain ⟨h1, h2, _⟩ := shuffleGo_spec (2 ^ bits) ((counts.sum - 1) / 2 ^ bits + 1)
    hbr counts.length counts 0 (le_refl _) hbnd hopt (by omega)
  exact ⟨h1, h2⟩

theorem claim_C9_witness :
    (∀ c ∈ [1, 1, 1, 1, 1, 1], 0 < c ∧ c ≤ 2 ^ (if 2 = 2 then 2 else 2)) ∧
    (shuffle 2 2 2 [1, 1, 1, 1, 1, 1]).sum = ([1, 1, 1, 1, 1, 1] : List Nat).sum ∧
    (shuffle 2 2 2 [1, 1, 1, 1, 1, 1]).length
      ≤ ((([1, 1, 1, 1, 1, 1] : List Nat).sum - 1) / 2 ^ (if 2 = 2 then 2 else 2) + 1) + 1 :=
  ⟨by decide, claim_C9 2 2 2 [1, 1, 1, 1, 1, 1] (by decide) (by decide)⟩

/-! ### Pushing the tail into the body (`push_tail`) -/

theorem wfReg_full {B BL : Nat} {α : Type} {h : Nat} {n : Node α} {sz : Nat}
    (hw : WfReg B BL h n sz) : sz = cap B BL h → WfFull B BL h n := by
  induction hw with
  | leaf hx hpos hle =>
    intro hs
    exact WfFull.leaf (by rw [hx, hs, cap_zero])
  | @inner h cs0 cl szl hfull hreg hle ih =>
    intro hs
    have hszl := wfReg_length hreg
    have h1 := hszl.2.1
    have h2 := hszl.2.2
    rw [cap_succ] at hs
    have hlen1 : cs0.length + 1 = 2 ^ B := by nlinarith [cap_pos B BL h]
    have hlen2 : szl = cap B BL h := by nlinarith [cap_pos B BL h]
    refine WfFull.inner (by
        simp only [List.length_append, List.length_cons, List.length_nil]
        omega) ?_
    intro c hc
    rcases List.mem_append.mp hc with hc | hc
    · exact hfull c hc
    · simp only [List.mem_singleton] at hc
      subst hc
      exact ih hlen2

theorem makePathH_toList {α : Type} (d : Nat) (l : Node α) :
    (makePathH d l).toList = l.toList := by
  induction d with
  | zero => rfl
  | succ d ih =>
    rw [makePathH, Node.toList_inner, toListAll_singleton, ih]

theorem makePathH_wfReg {B BL : Nat} {α : Type} {tl : List α} {tlen : Nat}
    (hx : tl.length = tlen) (hpos : 0 < tlen) (hle : tlen ≤ 2 ^ BL) (d : Nat)
    (hB : 0 < 2 ^ B) :
    WfReg B BL d (makePathH d (.leaf tl)) tlen := by
  induction d with
  | zero => exact WfReg.leaf hx hpos hle
  | succ d ih =>
    rw [makePathH]
    have := wfRegInner []
      (fun c hc => absurd hc (List.not_mem_nil c)) ih
      (by simp only [List.length_nil]; omega)
    simpa using this

theorem cumSizes_append_one (ss : List Nat) (x : Nat) :
    cumSizes (ss ++ [x]) = cumSizes ss ++ [ss.sum + x] := by
  suffices h : ∀ a, cumFrom a (ss ++ [x]) = cumFrom a ss ++ [a + ss.sum + x] by
    have := h 0
    simpa [cumSizes] using this
  induction ss with
  | nil => intro a; simp [cumFrom]
  | cons s rest ih =>
    intro a
    simp only [List.cons_append, cumFrom, List.sum_cons]
    simp only [List.append_eq]
    rw [ih (a + s)]
    have harith : a + s + rest.sum + x = a + (s + rest.sum) + x := by ring
    rw [harith]

theorem cumSizes_take (ss : List Nat) (k : Nat) :
    (cumSizes ss).take k = cumSizes (ss.take k) := by
  suffices h : ∀ a, (cumFrom a ss).take k = cumFrom a (ss.take k) by
    exact h 0
  induction ss generalizing k with
  | nil => intro a; simp [cumFrom]
  | cons s rest ih =>
    intro a
    cases k with
    | zero => simp [cumFrom]
    | succ k =>
      simp only [cumFrom, List.take_succ_cons]
      rw [ih k (a + s)]

theorem cumSizes_last (ss : List Nat) (hne : ss ≠ []) :
    (cumSizes ss).getD (ss.length - 1) 0 = ss.sum := by
  rw [cumSizes_getD ss (ss.length - 1) (by
    cases ss with
    | nil => exact absurd rfl hne
    | cons a l => simp)]
  have : ss.length - 1 + 1 = ss.length := by
    cases ss with
    | nil => exact absurd rfl hne
    | cons a l => simp
  rw [this, List.take_length]

theorem wfAny_rel_inv {B BL : Nat} {α : Type} {h : Nat} {cs : List (Node α)}
    {szs : List Nat} {sz : Nat} (hw : WfAny B BL h (.relaxed cs szs) sz) :
    ∃ hm ss, h = hm + 1 ∧ szs = cumSizes ss ∧ sz = ss.sum ∧
    cs.length = ss.length ∧
    (∀ p ∈ cs.zip ss, WfAny B BL hm p.1 p.2) ∧
    (∀ s ∈ ss, 0 < s ∧ s ≤ cap B BL hm) ∧
    0 < cs.length ∧ cs.length ≤ 2 ^ B := by
  cases hw with
  | reg hr _ => cases hr
  | rel hlen hch hbounds hpos hle =>
    exact ⟨_, _, rfl, rfl, rfl, hlen, hch, hbounds, hpos, hle⟩

theorem aligned_lt_le {szl bl k : Nat} (hal : szl % 2 ^ bl = 0)
    (hlt : szl < 2 ^ k * 2 ^ bl) : szl + 2 ^ bl ≤ 2 ^ k * 2 ^ bl := by
  have hdvd : 2 ^ bl ∣ szl := Nat.dvd_of_mod_eq_zero hal
  obtain ⟨a, ha⟩ := hdvd
  subst ha
  have hblpos : 0 < 2 ^ bl := Nat.pos_pow_of_pos _ (by omega)
  have halt : a < 2 ^ k := by
    by_contra hcon
    push_neg at hcon
    have : 2 ^ k * 2 ^ bl ≤ 2 ^ bl * a := by
      rw [mul_comm (2 ^ bl) a]
      exact Nat.mul_le_mul_right _ hcon
    omega
  calc 2 ^ bl * a + 2 ^ bl = 2 ^ bl * (a + 1) := by ring
    _ ≤ 2 ^ bl * 2 ^ k := Nat.mul_le_mul_left _ (by omega)
    _ = 2 ^ k * 2 ^ bl := mul_comm _ _

theorem cap_dvd_pow_BL (B BL h : Nat) : 2 ^ BL ∣ cap B BL h := by
  rw [cap]
  exact pow_dvd_pow 2 (by omega)

theorem cap_split (B BL h : Nat) : cap B BL h = 2 ^ (B * h) * 2 ^ BL := by
  rw [cap, ← pow_add]
  congr 1
  omega

theorem pushTailReg_spec {B BL : Nat} {α : Type} {h : Nat} {n : Node α} {sz : Nat}
    (hw : WfReg B BL h n sz) :
    ∀ lv (tl : List α) tlen,
    1 ≤ h → lv = BL + B * (h - 1) →
    sz % 2 ^ BL = 0 →
    tl.length = tlen → 0 < tlen → tlen ≤ 2 ^ BL →
    sz + 2 ^ BL ≤ cap B BL h →
    WfReg B BL h (pushTailReg B BL h n lv sz (.leaf tl)) (sz + tlen) ∧
    (pushTailReg B BL h n lv sz (.leaf tl)).toList = n.toList ++ tl := by
  induction hw with
  | leaf hx hpos hle =>
    intro lv tl tlen h1 _ _ _ _ _ _
    exact absurd h1 (by omega)
  | @inner h cs0 cl szl hfull hreg hcnt ih =>
    intro lv tl tlen _ hlv hal hxl hpos htle hroom
    have hlv1 : lv = BL + B * h := by simpa using hlv
    have hcap : (2 : Nat) ^ lv = cap B BL h := by rw [hlv1]; rfl
    have hszl := wfReg_length hreg
    have hcappos := cap_pos B BL h
    have hblpos : (0:Nat) < 2 ^ BL := Nat.pos_pow_of_pos _ (by omega)
    have hBpos : (0:Nat) < 2 ^ B := Nat.pos_pow_of_pos _ (by omega)
    have hKlt : cs0.length < 2 ^ B := by
      rw [cap_succ] at hroom
      nlinarith [hszl.2.1]
    have hdvdK : 2 ^ BL ∣ cs0.length * cap B BL h :=
      Dvd.dvd.mul_left (cap_dvd_pow_BL B BL h) _
    have hall : szl % 2 ^ BL = 0 := by
      have h1 : (cs0.length * cap B BL h + szl) % 2 ^ BL = 0 := hal
      obtain ⟨q, hq⟩ := hdvdK
      rw [hq, Nat.mul_add_mod] at h1
      exact h1
    have hidx : (cs0.length * cap B BL h + szl - 1) / 2 ^ lv % 2 ^ B
        = cs0.length := by
      rw [hcap]
      have h1 : cs0.length * cap B BL h + szl - 1
          = cap B BL h * cs0.length + (szl - 1) := by
        have := hszl.2.1
        rw [mul_comm]
        omega
      rw [h1, Nat.mul_add_div hcappos, Nat.div_eq_of_lt (by omega)]
      simpa using Nat.mod_eq_of_lt hKlt
    rw [pushTailReg]
    simp only [Node.childrenOf]
    rcases Nat.lt_or_ge szl (cap B BL h) with hslt | hsge
    · -- the last child is not full: absorb the tail into it
      have hroom2 : szl + 2 ^ BL ≤ cap B BL h := by
        rw [cap_split] at hslt ⊢
        exact aligned_lt_le hall hslt
      have hnew : (cs0.length * cap B BL h + szl + 2 ^ BL - 1) / 2 ^ lv % 2 ^ B
          = cs0.length := by
        rw [hcap]
        have h1 : cs0.length * cap B BL h + szl + 2 ^ BL - 1
            = cap B BL h * cs0.length + (szl + 2 ^ BL - 1) := by
          rw [mul_comm]
          omega
        rw [h1, Nat.mul_add_div hcappos, Nat.div_eq_of_lt (by omega)]
        simpa using Nat.mod_eq_of_lt hKlt
      rw [hidx, hnew, if_pos rfl]
      have h1le : 1 ≤ h := by
        by_contra hcon
        push_neg at hcon
        have h0 : h = 0 := by omega
        rw [h0, cap_zero] at hslt
        have := Nat.le_of_dvd hszl.2.1 (Nat.dvd_of_mod_eq_zero hall)
        omega
      have hgetD : (cs0 ++ [cl]).getD cs0.length (.leaf []) = cl := by
        rw [List.getD_append_right _ _ _ _ (le_refl _), Nat.sub_self]
        rfl
      have hsub : cs0.length * cap B BL h + szl - cs0.length * 2 ^ lv = szl := by
        rw [hcap]
        omega
      rw [hgetD, hsub]
      obtain ⟨hwf2, htl2⟩ := ih (lv - B) tl tlen h1le (lvl_step hlv1 h1le)
        hall hxl hpos htle hroom2
      have htake : (cs0 ++ [cl]).take cs0.length = cs0 := List.take_left cs0 [cl]
      rw [htake]
      constructor
      · have := wfRegInner _ hfull hwf2 hcnt
        have harith : cs0.length * cap B BL h + (szl + tlen)
            = cs0.length * cap B BL h + szl + tlen := by omega
        rw [harith] at this
        exact this
      · rw [Node.toList_inner, Node.toList_inner, Node.toListAll_append,
          Node.toListAll_append, toListAll_singleton, toListAll_singleton, htl2,
          List.append_assoc]
    · -- the last child is full: lay a fresh path at the next slot
      have hsfull : szl = cap B BL h := le_antisymm hszl.2.2 hsge
      have hK1lt : cs0.length + 1 < 2 ^ B := by
        rw [cap_succ] at hroom
        nlinarith
      have hble : 2 ^ BL ≤ cap B BL h := by
        rw [cap_split]
        nlinarith [Nat.pos_pow_of_pos (B * h) (show 0 < 2 by omega)]
      have hnew : (cs0.length * cap B BL h + szl + 2 ^ BL - 1) / 2 ^ lv % 2 ^ B
          = cs0.length + 1 := by
        rw [hcap, hsfull]
        have h1 : cs0.length * cap B BL h + cap B BL h + 2 ^ BL - 1
            = cap B BL h * (cs0.length + 1) + (2 ^ BL - 1) := by
          rw [mul_comm]
          ring_nf
          omega
        rw [h1, Nat.mul_add_div hcappos, Nat.div_eq_of_lt (by omega)]
        simpa using Nat.mod_eq_of_lt hK1lt
      rw [hidx, hnew, if_neg (by omega)]
      have htake : (cs0 ++ [cl]).take (cs0.length + 1) = cs0 ++ [cl] := by
        have : cs0.length + 1 = (cs0 ++ [cl]).length := by simp
        rw [this, List.take_length]
      rw [htake]
      constructor
      · have hfull2 : ∀ c ∈ cs0 ++ [cl], WfFull B BL h c := by
          intro c hc
          rcases List.mem_append.mp hc with hc | hc
          · exact hfull c hc
          · simp only [List.mem_singleton] at hc
            subst hc
            exact wfReg_full hreg hsfull
        have hpath := makePathH_wfReg hxl hpos htle h hBpos
        have := wfRegInner _ hfull2 hpath
          (by simp only [List.length_append, List.length_cons, List.length_nil]; omega)
        have harith : (cs0 ++ [cl]).length * cap B BL h + tlen
            = cs0.length * cap B BL h + szl + tlen := by
          simp only [List.length_append, List.length_cons, List.length_nil]
          rw [hsfull]
          ring_nf
        rw [harith] at this
        exact this
      · rw [Node.toList_inner, Node.toList_inner, Node.toListAll_append,
          toListAll_singleton, makePathH_toList, Node.toList_leaf]
theorem zip_take_sub {α β : Type} {l : List α} {r : List β} {n : Nat} {p : α × β}
    (h : p ∈ (l.take n).zip (r.take n)) : p ∈ l.zip r := by
  induction l generalizing r n with
  | nil => simp at h
  | cons a l ih =>
    cases n with
    | zero => simp at h
    | succ n =>
      cases r with
      | nil => simp at h
      | cons b r =>
        simp only [List.take_succ_cons, List.zip_cons_cons, List.mem_cons] at h ⊢
        rcases h with h | h
        · exact Or.inl h
        · exact Or.inr (ih h)

theorem take_getD_last {α : Type} (l : List α) (d : α) :
    l ≠ [] → l.take (l.length - 1) ++ [l.getD (l.length - 1) d] = l := by
  induction l with
  | nil => intro h; exact absurd rfl h
  | cons a t ih =>
    intro _
    cases t with
    | nil => simp
    | cons b t2 =>
      simp only [List.length_cons]
      have hlen : t2.length + 1 + 1 - 1 = t2.length + 1 := by omega
      rw [hlen, List.take_succ_cons, List.getD_cons_succ, List.cons_append]
      congr 1
      have := ih (by simp)
      simpa using this

/-- The relaxed push-tail visitor is sound: whenever it produces a node,
that node is well-formed at the same height with the tail's elements
appended.  The size argument is only inspected on a regular node, where it
must be the true (and non-full) subtree size. -/
theorem pushTailAny_spec {B BL : Nat} {α : Type} {h : Nat} {n : Node α} {sz : Nat}
    (hw : WfAny B BL h n sz) (hB : 0 < B) :
    ∀ lv (tl : List α) (n' : Node α) szArg,
    lv = BL + B * (h - 1) →
    tl.length = 2 ^ BL →
    (n.relaxedOf = none → szArg = sz ∧ sz < cap B BL h) →
    pushTailAny B BL h n lv szArg (.leaf tl) (2 ^ BL) = some n' →
    WfAny B BL h n' (sz + 2 ^ BL) ∧ n'.toList = n.toList ++ tl := by
  have hblpos : (0:Nat) < 2 ^ BL := Nat.pos_pow_of_pos _ (by omega)
  have hBpos : (0:Nat) < 2 ^ B := Nat.pos_pow_of_pos _ (by omega)
  induction hw with
  | @reg h n sz hr hal =>
    intro lv tl n' szArg hlv hxl hroom heq
    cases h with
    | zero =>
      rw [pushTailAny] at heq
      exact absurd heq (by simp)
    | succ h0 =>
      have hinner : ∃ cs, n = Node.inner cs := by
        cases hr with
        | inner hfull hreg hcnt => exact ⟨_, rfl⟩
      obtain ⟨cs, rfl⟩ := hinner
      have hrel : (Node.inner cs : Node α).relaxedOf = none := rfl
      obtain ⟨hszeq, hlt⟩ := hroom hrel
      subst hszeq
      have heq2 : pushTailAny B BL (h0 + 1) (Node.inner cs) lv szArg
          (.leaf tl) (2 ^ BL) = some (pushTailReg B BL (h0 + 1) (Node.inner cs) lv szArg (.leaf tl)) := rfl
      rw [heq2] at heq
      have hn' : n' = pushTailReg B BL (h0 + 1) (Node.inner cs) lv szArg (.leaf tl) := by
        exact (Option.some_inj.mp heq).symm
      subst hn'
      have halz : szArg % 2 ^ BL = 0 := hal (by omega)
      have hroom2 : szArg + 2 ^ BL ≤ cap B BL (h0 + 1) := by
        rw [cap_split] at hlt ⊢
        exact aligned_lt_le halz hlt
      obtain ⟨hwf2, htl2⟩ := pushTailReg_spec hr lv tl (2 ^ BL) (by omega)
        (by simpa using hlv) halz hxl hblpos (le_refl _) hroom2
      refine ⟨WfAny.reg hwf2 (fun _ => ?_), htl2⟩
      rw [Nat.add_mod_right]
      exact halz
  | @rel h cs ss hlen hch hbounds hpos hle ih =>
    intro lv tl n' szArg hlv tlx hroom heq
    have hlv1 : lv = BL + B * h := by simpa using hlv
    have hsslen : 0 < ss.length := hlen ▸ hpos
    have hcslen : cs.length - 1 < cs.length := by omega
    have hcap : (2:Nat) ^ lv = cap B BL h := by rw [hlv1]; rfl
    -- the last-child index and its size
    have hidxlt : cs.length - 1 < ss.length := by omega
    have hchild : (cumSizes ss).getD (cs.length - 1) 0 -
        (if cs.length - 1 = 0 then 0 else (cumSizes ss).getD (cs.length - 1 - 1) 0)
        = ss.getD (cs.length - 1) 0 := by
      by_cases h0 : cs.length - 1 = 0
      · rw [if_pos h0, h0, cumSizes_getD ss 0 (by omega)]
        have := take_sum_add ss 0 (by omega)
        simp only [List.take_zero, List.sum_nil] at this
        omega
      · rw [if_neg h0, cumSizes_getD ss _ hidxlt, cumSizes_getD ss _ (by omega)]
        have h1 : cs.length - 1 - 1 + 1 = cs.length - 1 := by omega
        rw [h1]
        have := take_sum_add ss (cs.length - 1) hidxlt
        omega
    have htotal : (cumSizes ss).getD (cs.length - 1) 0 = ss.sum := by
      have := cumSizes_last ss (by intro hnil; rw [hnil] at hsslen; simp at hsslen)
      rw [← hlen] at this
      exact this
    -- the wf of the last child
    have hne : cs ≠ [] := by intro hnil; rw [hnil] at hpos; simp at hpos
    have hsne : ss ≠ [] := by intro hnil; rw [hnil] at hsslen; simp at hsslen
    have hcsdec := take_getD_last cs (Node.leaf []) hne
    have hssdec := take_getD_last ss 0 hsne
    have hmemlast : (cs.getD (cs.length - 1) (Node.leaf []), ss.getD (ss.length - 1) 0)
        ∈ cs.zip ss := by
      have h1 : cs.zip ss = (cs.take (cs.length - 1)).zip (ss.take (ss.length - 1))
          ++ [(cs.getD (cs.length - 1) (Node.leaf []), ss.getD (ss.length - 1) 0)] := by
        conv_lhs => rw [← hcsdec, ← hssdec]
        rw [List.zip_append (by simp [List.length_take]; omega)]
        simp
      rw [h1]
      simp
    have hwlast := hch _ hmemlast
    have hlastbd := hbounds (ss.getD (ss.length - 1) 0)
      (getD_mem_of_lt (show ss.length - 1 < ss.length by omega))
    -- unfold the visitor
    rw [pushTailAny] at heq
    rw [hchild, htotal] at heq
    by_cases hgrow : ss.getD (cs.length - 1) 0 = 2 ^ lv ∨ lv = BL
    · -- a fresh path at the next slot
      rw [if_pos hgrow] at heq
      by_cases hfull2 : 2 ^ B ≤ cs.length - 1 + 1
      · rw [if_pos hfull2] at heq
        exact absurd heq (by simp)
      · rw [if_neg hfull2] at heq
        rw [if_neg (by omega)] at heq
        have htk1 : cs.take (cs.length - 1 + 1) = cs := by
          have : cs.length - 1 + 1 = cs.length := by omega
          rw [this, List.take_length]
        have htk2 : (cumSizes ss).take (cs.length - 1 + 1) = cumSizes ss := by
          have : cs.length - 1 + 1 = (cumSizes ss).length := by
            rw [cumSizes_length]; omega
          rw [this, List.take_length]
        rw [htk1, htk2] at heq
        have hn' : n' = Node.relaxed (cs ++ [makePathH h (Node.leaf tl)])
            (cumSizes ss ++ [ss.sum + 2 ^ BL]) := (Option.some_inj.mp heq).symm
        subst hn'
        have hpathwf : WfAny B BL h (makePathH h (Node.leaf tl)) (2 ^ BL) :=
          WfAny.reg (makePathH_wfReg tlx hblpos (le_refl _) h hBpos)
            (fun _ => Nat.mod_self _)
        have hieq : cumSizes ss ++ [ss.sum + 2 ^ BL] = cumSizes (ss ++ [2 ^ BL]) := by
          rw [cumSizes_append_one]
        rw [hieq]
        have hwf := wfAnyRel h
          (cs ++ [makePathH h (Node.leaf tl)]) (ss ++ [2 ^ BL])
          (by simp [hlen])
          (by
            intro p hp
            rw [List.zip_append hlen] at hp
            rcases List.mem_append.mp hp with hp | hp
            · exact hch p hp
            · simp only [List.zip_cons_cons, List.zip_nil_right, List.mem_singleton] at hp
              rw [hp]
              exact hpathwf)
          (by
            intro s hs
            rcases List.mem_append.mp hs with hs | hs
            · exact hbounds s hs
            · simp only [List.mem_singleton] at hs
              subst hs
              refine ⟨hblpos, ?_⟩
              rw [cap_split]
              nlinarith [Nat.pos_pow_of_pos (B * h) (show 0 < 2 by omega)])
          (by simp) (by simp; omega)
        rw [List.sum_append, List.sum_singleton] at hwf
        refine ⟨hwf, ?_⟩
        rw [Node.toList_relaxed, Node.toList_relaxed, Node.toListAll_append,
          toListAll_singleton, makePathH_toList, Node.toList_leaf]
    · -- recurse into the last child
      rw [if_neg hgrow] at heq
      push_neg at hgrow
      obtain ⟨hnotfull, hlvne⟩ := hgrow
      have h1le : 1 ≤ h := by
        rcases Nat.eq_zero_or_pos h with h0 | h1
        · rw [h0] at hlv1; simp at hlv1; omega
        · exact h1
      have hnotroomy : ¬ 2 ^ B ≤ cs.length - 1 := by omega
      rw [if_neg hnotroomy, if_pos rfl] at heq
      have hihargs : (cs.getD (cs.length - 1) (Node.leaf [])).relaxedOf = none →
          ss.getD (cs.length - 1) 0 = ss.getD (ss.length - 1) 0 ∧
          ss.getD (ss.length - 1) 0 < cap B BL h := by
        intro _
        refine ⟨by rw [hlen], ?_⟩
        rcases Nat.lt_or_ge (ss.getD (ss.length - 1) 0) (cap B BL h) with hl | hg
        · exact hl
        · have := hlastbd.2
          have hfeq : ss.getD (ss.length - 1) 0 = cap B BL h := by omega
          rw [hlen] at hnotfull
          rw [hcap] at hnotfull
          exact absurd hfeq hnotfull
      -- case on the recursive result
      cases hrec : pushTailAny B BL h (cs.getD (cs.length - 1) (Node.leaf []))
          (lv - B) (ss.getD (cs.length - 1) 0) (.leaf tl) (2 ^ BL) with
      | some nc =>
        rw [hrec] at heq
        dsimp only at heq
        have hnc := ih _ hmemlast (lv - B) tl nc (ss.getD (cs.length - 1) 0)
          (lvl_step hlv1 h1le) tlx hihargs (by rw [hlen] at hrec ⊢; exact hrec)
        have hn' : n' = Node.relaxed (cs.take (cs.length - 1) ++ [nc])
            ((cumSizes ss).take (cs.length - 1) ++ [ss.sum + 2 ^ BL]) :=
          (Option.some_inj.mp heq).symm
        subst hn'
        have hlast_sum : (ss.take (ss.length - 1)).sum + ss.getD (ss.length - 1) 0
            = ss.sum := by
          have := take_sum_add ss (ss.length - 1) (by omega)
          have h2 : ss.length - 1 + 1 = ss.length := by omega
          rw [h2, List.take_length] at this
          omega
        have hieq : (cumSizes ss).take (cs.length - 1) ++ [ss.sum + 2 ^ BL]
            = cumSizes (ss.take (ss.length - 1)
              ++ [ss.getD (ss.length - 1) 0 + 2 ^ BL]) := by
          rw [cumSizes_append_one, cumSizes_take, hlen]
          congr 2
          omega
        rw [hieq]
        have hwf := wfAnyRel h
          (cs.take (cs.length - 1) ++ [nc])
          (ss.take (ss.length - 1) ++ [ss.getD (ss.length - 1) 0 + 2 ^ BL])
          (by simp [List.length_take]; omega)
          (by
            intro p hp
            rw [List.zip_append (by simp [List.length_take]; omega)] at hp
            rcases List.mem_append.mp hp with hp | hp
            · exact hch p (by rw [hlen] at hp; exact zip_take_sub hp)
            · simp only [List.zip_cons_cons, List.zip_nil_right, List.mem_singleton] at hp
              rw [hp]
              exact hnc.1
          )
          (by
            intro s hs
            rcases List.mem_append.mp hs with hs | hs
            · exact hbounds s (List.mem_of_mem_take hs)
            · simp only [List.mem_singleton] at hs
              subst hs
              have hbd := wfAny_length hnc.1
              refine ⟨by omega, hbd.2.2⟩)
          (by simp) (by simp [List.length_take]; omega)
        rw [List.sum_append, List.sum_singleton, ← Nat.add_assoc, hlast_sum] at hwf
        refine ⟨hwf, ?_⟩
        rw [Node.toList_relaxed, Node.toList_relaxed, Node.toListAll_append,
          toListAll_singleton, hnc.2]
        conv_rhs => rw [← hcsdec]
        rw [Node.toListAll_append, toListAll_singleton, List.append_assoc]
      | none =>
        rw [hrec] at heq
        dsimp only at heq
        by_cases hfits : cs.length - 1 + 1 < 2 ^ B
        · rw [if_pos hfits] at heq
          have htk1 : cs.take (cs.length - 1 + 1) = cs := by
            have : cs.length - 1 + 1 = cs.length := by omega
            rw [this, List.take_length]
          have htk2 : (cumSizes ss).take (cs.length - 1 + 1) = cumSizes ss := by
            have : cs.length - 1 + 1 = (cumSizes ss).length := by
              rw [cumSizes_length]; omega
            rw [this, List.take_length]
          rw [htk1, htk2] at heq
          have hn' : n' = Node.relaxed (cs ++ [makePathH h (Node.leaf tl)])
              (cumSizes ss ++ [ss.sum + 2 ^ BL]) := (Option.some_inj.mp heq).symm
          subst hn'
          have hpathwf : WfAny B BL h (makePathH h (Node.leaf tl)) (2 ^ BL) :=
            WfAny.reg (makePathH_wfReg tlx hblpos (le_refl _) h hBpos)
              (fun _ => Nat.mod_self _)
          have hieq : cumSizes ss ++ [ss.sum + 2 ^ BL] = cumSizes (ss ++ [2 ^ BL]) := by
            rw [cumSizes_append_one]
          rw [hieq]
          have hwf := wfAnyRel h
            (cs ++ [makePathH h (Node.leaf tl)]) (ss ++ [2 ^ BL])
            (by simp [hlen])
            (by
              intro p hp
              rw [List.zip_append hlen] at hp
              rcases List.mem_append.mp hp with hp | hp
              · exact hch p hp
              · simp only [List.zip_cons_cons, List.zip_nil_right,
                  List.mem_singleton] at hp
                rw [hp]
                exact hpathwf)
            (by
              intro s hs
              rcases List.mem_append.mp hs with hs | hs
              · exact hbounds s hs
              · simp only [List.mem_singleton] at hs
                subst hs
                refine ⟨hblpos, ?_⟩
                rw [cap_split]
                nlinarith [Nat.pos_pow_of_pos (B * h) (show 0 < 2 by omega)])
            (by simp) (by simp; omega)
          rw [List.sum_append, List.sum_singleton] at hwf
          refine ⟨hwf, ?_⟩
          rw [Node.toList_relaxed, Node.toList_relaxed, Node.toListAll_append,
            toListAll_singleton, makePathH_toList, Node.toList_leaf]
        · rw [if_neg hfits] at heq
          exact absurd heq (by simp)
/-- `rrbtree::push_tail` with a full tail: the resulting root absorbs the
tail's elements at a shift that still encodes whole levels. -/
theorem pushTailF_spec {B BL : Nat} {α : Type} {sh : Nat} {root : Node α} {sz : Nat}
    (hB : 0 < B) (d : Nat) (hsh : sh = BL + B * d)
    (hroot : (sz = 0 ∧ root = Node.inner [] ∧ sh = BL)
      ∨ WfAny B BL (hRoot B BL sh) root sz)
    (tl : List α) (hxl : tl.length = 2 ^ BL) :
    (∃ d', (pushTailF B BL (hRoot B BL sh) root sh sz (.leaf tl) (2 ^ BL)).1
        = BL + B * d') ∧
    WfAny B BL (hRoot B BL (pushTailF B BL (hRoot B BL sh) root sh sz
        (.leaf tl) (2 ^ BL)).1)
      (pushTailF B BL (hRoot B BL sh) root sh sz (.leaf tl) (2 ^ BL)).2
      (sz + 2 ^ BL) ∧
    (pushTailF B BL (hRoot B BL sh) root sh sz (.leaf tl) (2 ^ BL)).2.toList
      = root.toList ++ tl := by
  have hblpos : (0:Nat) < 2 ^ BL := Nat.pos_pow_of_pos _ (by omega)
  have hBpos : (0:Nat) < 2 ^ B := Nat.pos_pow_of_pos _ (by omega)
  have hB2 : (2:Nat) ≤ 2 ^ B := by
    calc (2:Nat) = 2 ^ 1 := by norm_num
      _ ≤ 2 ^ B := Nat.pow_le_pow_right (by omega) (by omega)
  have hh : hRoot B BL sh = d + 1 := by rw [hsh]; exact hRoot_eq hB d
  have hble : 2 ^ BL ≤ cap B BL (d + 1) := by
    rw [cap_split]
    nlinarith [Nat.pos_pow_of_pos (B * (d + 1)) (show 0 < 2 by omega)]
  cases root with
  | relaxed cs szs =>
    have hw : WfAny B BL (hRoot B BL sh) (Node.relaxed cs szs) sz := by
      rcases hroot with ⟨_, habs, _⟩ | hw
      · exact absurd habs (by simp)
      · exact hw
    have hszpos := wfAny_length hw
    cases hpa : pushTailAny B BL (hRoot B BL sh) (Node.relaxed cs szs) sh 0
        (.leaf tl) (2 ^ BL) with
    | some nr =>
      have hres : pushTailF B BL (hRoot B BL sh) (Node.relaxed cs szs) sh sz
          (.leaf tl) (2 ^ BL) = (sh, nr) := by
        rw [pushTailF]
        dsimp only [Node.relaxedOf]
        rw [hpa]
      rw [hres]
      have hspec := pushTailAny_spec hw hB sh tl nr 0
        (by rw [hh, Nat.add_sub_cancel]; exact hsh) hxl
        (fun habs => Option.noConfusion habs) hpa
      exact ⟨⟨d, hsh⟩, hspec.1, hspec.2⟩
    | none =>
      have hres : pushTailF B BL (hRoot B BL sh) (Node.relaxed cs szs) sh sz
          (.leaf tl) (2 ^ BL)
          = (sh + B, .relaxed [Node.relaxed cs szs,
              makePathH (hRoot B BL sh) (.leaf tl)] [sz, sz + 2 ^ BL]) := by
        rw [pushTailF]
        dsimp only [Node.relaxedOf]
        rw [hpa]
      rw [hres]
      have hh2 : hRoot B BL (sh + B) = d + 2 := by
        have : sh + B = BL + B * (d + 1) := by rw [hsh]; ring
        rw [this]
        have h2 : hRoot B BL (BL + B * (d + 1)) = d + 1 + 1 := hRoot_eq hB (d + 1)
        omega
      refine ⟨⟨d + 1, by rw [hsh]; ring⟩, ?_, ?_⟩
      · dsimp only
        rw [hh2]
        have htbl : [sz, sz + 2 ^ BL] = cumSizes [sz, 2 ^ BL] := by
          simp [cumSizes, cumFrom]
        rw [htbl]
        have hwf := wfAnyRel (d + 1)
          [Node.relaxed cs szs, makePathH (hRoot B BL sh) (.leaf tl)]
          [sz, 2 ^ BL]
          (by simp)
          (by
            intro p hp
            simp only [List.zip_cons_cons, List.zip_nil_right, List.mem_cons,
              List.mem_singleton] at hp
            rcases hp with hp | hp | hp
            · rw [hp]
              rw [hh] at hw
              exact hw
            · rw [hp]
              rw [hh]
              exact WfAny.reg (makePathH_wfReg hxl hblpos (le_refl _) (d + 1) hBpos)
                (fun _ => Nat.mod_self _)
            · exact absurd hp (by simp))
          (by
            intro s hs
            simp only [List.mem_cons, List.mem_singleton] at hs
            rcases hs with hs | hs | hs
            · subst hs
              rw [hh] at hszpos
              exact ⟨hszpos.2.1, hszpos.2.2⟩
            · subst hs
              exact ⟨hblpos, hble⟩
            · exact absurd hs (by simp))
          (by simp) (by simp; omega)
        simpa using hwf
      · dsimp only
        rw [Node.toList_relaxed, Node.toListAll_cons, toListAll_singleton,
          makePathH_toList, Node.toList_leaf]
  | inner cs =>
    rcases hroot with ⟨hsz0, hemp, hshBL⟩ | hw
    · have hd0 : d = 0 := by
        rw [hshBL] at hsh
        have hbd : B * d = 0 := by omega
        rcases Nat.mul_eq_zero.mp hbd with h0 | h0
        · omega
        · exact h0
      have hcs : cs = [] := by
        injection hemp with h1
      subst hcs hsz0
      have hres : pushTailF B BL (hRoot B BL sh) (Node.inner []) sh 0
          (.leaf tl) (2 ^ BL)
          = (sh, makePathH (hRoot B BL sh) (.leaf tl)) := by
        rw [pushTailF]
        dsimp only [Node.relaxedOf]
        rw [if_neg (by positivity), if_neg (by simp)]
      rw [hres]
      refine ⟨⟨d, hsh⟩, ?_, ?_⟩
      · dsimp only
        rw [hh]
        subst hd0
        exact WfAny.reg (by simpa using makePathH_wfReg hxl hblpos (le_refl _) 1 hBpos)
          (fun _ => by simpa using Nat.mod_self (2 ^ BL))
      · dsimp only
        rw [makePathH_toList, Node.toList_leaf, Node.toList_inner, Node.toListAll_nil,
          List.nil_append]
    · rw [hh] at hw
      have hreg : WfReg B BL (d + 1) (Node.inner cs) sz ∧ sz % 2 ^ BL = 0 := by
        cases hw with
        | reg hr hal => exact ⟨hr, hal (by omega)⟩
      have hlen := wfReg_length hreg.1
      have hcapeq : (2:Nat) ^ B * 2 ^ sh = cap B BL (d + 1) := by
        rw [hsh, cap, pow_add, ← pow_add]
        ring_nf
      by_cases hfull : sz = 2 ^ B * 2 ^ sh
      · have hres : pushTailF B BL (hRoot B BL sh) (Node.inner cs) sh sz
            (.leaf tl) (2 ^ BL)
            = (sh + B, .inner [Node.inner cs, makePathH (hRoot B BL sh) (.leaf tl)]) := by
          rw [pushTailF]
          dsimp only [Node.relaxedOf]
          rw [if_pos hfull]
        rw [hres]
        have hh2 : hRoot B BL (sh + B) = d + 2 := by
          have : sh + B = BL + B * (d + 1) := by rw [hsh]; ring
          rw [this]
          have h2 : hRoot B BL (BL + B * (d + 1)) = d + 1 + 1 := hRoot_eq hB (d + 1)
          omega
        refine ⟨⟨d + 1, by rw [hsh]; ring⟩, ?_, ?_⟩
        · dsimp only
          rw [hh2, hh]
          have hfullroot : WfFull B BL (d + 1) (Node.inner cs) :=
            wfReg_full hreg.1 (by rw [hfull, hcapeq])
          have hwf := wfRegInner [Node.inner cs]
            (fun c hc => by
              simp only [List.mem_singleton] at hc
              rw [hc]
              exact hfullroot)
            (makePathH_wfReg hxl hblpos (le_refl _) (d + 1) hBpos)
            (by simp; omega)
          have hsz2 : ([Node.inner cs] : List (Node α)).length * cap B BL (d + 1)
              + 2 ^ BL = sz + 2 ^ BL := by
            simp only [List.length_cons, List.length_nil, Nat.zero_add, one_mul]
            rw [hfull, hcapeq]
          rw [hsz2] at hwf
          refine WfAny.reg (by simpa using hwf) (fun _ => ?_)
          rw [Nat.add_mod_right]
          exact hreg.2
        · dsimp only
          rw [Node.toList_inner, Node.toListAll_cons, toListAll_singleton,
            makePathH_toList, Node.toList_leaf]
      · have hnz : sz ≠ 0 := by omega
        have hres : pushTailF B BL (hRoot B BL sh) (Node.inner cs) sh sz
            (.leaf tl) (2 ^ BL)
            = (sh, pushTailReg B BL (hRoot B BL sh) (Node.inner cs) sh sz (.leaf tl)) := by
          rw [pushTailF]
          dsimp only [Node.relaxedOf]
          rw [if_neg hfull, if_pos hnz]
        rw [hres]
        have hroom : sz + 2 ^ BL ≤ cap B BL (d + 1) := by
          rw [cap_split]
          refine aligned_lt_le hreg.2 ?_
          rw [← cap_split]
          rw [← hcapeq] at hlen ⊢
          omega
        have hspec := pushTailReg_spec hreg.1 sh tl (2 ^ BL) (by omega)
          (by rw [hsh]; simp) hreg.2 hxl hblpos (le_refl _) hroom
        rw [hh]
        refine ⟨⟨d, hsh⟩, ?_, hspec.2⟩
        refine WfAny.reg hspec.1 (fun _ => ?_)
        rw [Nat.add_mod_right]
        exact hreg.2
  | leaf xs =>
    rcases hroot with ⟨_, habs, _⟩ | hw
    · exact absurd habs (by simp)
    · rw [hh] at hw
      cases hw with
      | reg hr _ => cases hr
theorem leafData_leaf {α : Type} (xs : List α) : (Node.leaf xs).leafData = xs := rfl

theorem wfAny_reg_inv {B BL : Nat} {α : Type} {h : Nat} {n : Node α} {sz : Nat}
    (hw : WfAny B BL h n sz) (hrel : n.relaxedOf = none) :
    WfReg B BL h n sz ∧ (1 ≤ h → sz % 2 ^ BL = 0) := by
  cases hw with
  | reg hr hal => exact ⟨hr, hal⟩
  | rel hlen hch hbounds hpos hle => exact absurd hrel (by simp [Node.relaxedOf])

theorem wfAny_table_last {B BL : Nat} {α : Type} {h : Nat} {n : Node α} {sz : Nat}
    (hw : WfAny B BL h n sz) {szs : List Nat} (hrel : n.relaxedOf = some szs) :
    szs.getD (szs.length - 1) 0 = sz := by
  cases hw with
  | reg hr hal =>
    cases hr with
    | leaf hx hpos hle => exact absurd hrel (by simp [Node.relaxedOf])
    | inner hfull hreg hcnt => exact absurd hrel (by simp [Node.relaxedOf])
  | @rel h cs ss hlen hch hbounds hpos hle =>
    have hszs : szs = cumSizes ss := by
      simp only [Node.relaxedOf] at hrel
      exact (Option.some_inj.mp hrel).symm
    subst hszs
    rw [cumSizes_length]
    exact cumSizes_last ss (by
      intro hnil
      rw [hnil] at hlen
      rw [hlen] at hpos
      simp at hpos)

/-- `rrbtree::push_back` preserves the façade invariant and appends the
element. -/
theorem pushBack_wf {B BL : Nat} {α : Type} {t : RRB α} (hB : 0 < B)
    (hw : WfT B BL t) (v : α) :
    WfT B BL (t.pushBack B BL v) ∧ (t.pushBack B BL v).toList = t.toList ++ [v] := by
  have hblpos : (0:Nat) < 2 ^ BL := Nat.pos_pow_of_pos _ (by omega)
  have hoffle : tailOffset BL t ≤ t.size := by
    have := hw.sizeEq
    omega
  have htseq : tailSize BL t = t.tail.leafData.length := by
    rw [tailSize, hw.sizeEq]
    omega
  rw [RRB.pushBack]
  by_cases hlt : tailSize BL t < 2 ^ BL
  · rw [if_pos hlt]
    have htake : t.tail.leafData.take (tailSize BL t) = t.tail.leafData := by
      rw [htseq]
      exact List.take_length _
    have hoff' : tailOffset BL ⟨t.size + 1, t.shift, t.root,
        .leaf (t.tail.leafData.take (tailSize BL t) ++ [v])⟩ = tailOffset BL t := by
      rw [tailOffset, tailOffset]
      cases hrel : t.root.relaxedOf with
      | some szs => rfl
      | none =>
        rcases Nat.eq_zero_or_pos t.size with h0 | h1
        · simp [h0]
        · have hoffeq : tailOffset BL t = (t.size - 1) - (t.size - 1) % 2 ^ BL := by
            rw [tailOffset, hrel, if_pos (by omega)]
          have hlen := htseq
          rw [tailSize, hoffeq] at hlen
          have hltb := hlt
          rw [tailSize, hoffeq] at hltb
          have hq := Nat.div_add_mod (t.size - 1) (2 ^ BL)
          have hmlt : (t.size - 1) % 2 ^ BL < 2 ^ BL := Nat.mod_lt _ hblpos
          rw [if_pos (by simp), if_pos (by omega)]
          simp only
          -- the old offset is aligned, and the new last index stays in the
          -- same leaf block because the tail is not yet full
          have hmod : t.size % 2 ^ BL = t.tail.leafData.length := by
            have hdecomp : t.size = 2 ^ BL * ((t.size - 1) / 2 ^ BL)
                + t.tail.leafData.length := by omega
            rw [hdecomp, Nat.mul_add_mod, Nat.mod_eq_of_lt (by omega)]
          simp only [Nat.add_sub_cancel]
          omega
    refine ⟨⟨?_, ?_, ?_, ?_, ?_, ?_⟩, ?_⟩
    · exact hw.shiftD
    · rfl
    · rw [hoff']
      simp only [leafData_leaf, htake, List.length_append, List.length_cons,
        List.length_nil]
      have := hw.sizeEq
      omega
    · simp only [leafData_leaf, htake, List.length_append, List.length_cons,
        List.length_nil]
      omega
    · intro _
      simp [leafData_leaf]
    · rw [hoff']
      exact hw.rootWf
    · simp only [RRB.toList, Node.toList_leaf]
      rw [htake, wfT_tail_toList hw, List.append_assoc]
  · rw [if_neg hlt]
    have hts : tailSize BL t = 2 ^ BL := by
      have := hw.tailLe
      omega
    have htlen : t.tail.leafData.length = 2 ^ BL := by omega
    obtain ⟨d, hd⟩ := hw.shiftD
    have hspec := pushTailF_spec hB d hd
      (by
        rcases hw.rootWf with ⟨h1, h2, h3⟩ | h1
        · exact Or.inl ⟨h1, h2, h3⟩
        · exact Or.inr h1)
      t.tail.leafData htlen
    have hcall : pushTailF B BL (hRoot B BL t.shift) t.root t.shift (tailOffset BL t)
        t.tail (t.size - tailOffset BL t)
        = pushTailF B BL (hRoot B BL t.shift) t.root t.shift (tailOffset BL t)
          (.leaf t.tail.leafData) (2 ^ BL) := by
      rw [← hw.tailLeaf]
      rw [show t.size - tailOffset BL t = 2 ^ BL from hts]
    dsimp only
    rw [hcall]
    obtain ⟨⟨d', hd'⟩, hwfany, htl⟩ := hspec
    set nr := pushTailF B BL (hRoot B BL t.shift) t.root t.shift (tailOffset BL t)
      (.leaf t.tail.leafData) (2 ^ BL) with hnr
    have hsz : t.size = tailOffset BL t + 2 ^ BL := by
      have := hw.sizeEq
      omega
    have hoff' : tailOffset BL ⟨t.size + 1, nr.1, nr.2, .leaf [v]⟩
        = tailOffset BL t + 2 ^ BL := by
      rw [tailOffset]
      cases hrel : nr.2.relaxedOf with
      | some szs =>
        simp only
        exact wfAny_table_last hwfany hrel
      | none =>
        obtain ⟨hreg, hal⟩ := wfAny_reg_inv hwfany hrel
        have halS : (tailOffset BL t + 2 ^ BL) % 2 ^ BL = 0 := by
          refine hal ?_
          rw [hRoot]
          exact Nat.le_add_left 1 _
        simp only
        rw [if_pos (by omega)]
        have : t.size + 1 - 1 = tailOffset BL t + 2 ^ BL := by omega
        rw [this, halS]
        omega
    refine ⟨⟨?_, ?_, ?_, ?_, ?_, ?_⟩, ?_⟩
    · exact ⟨d', hd'⟩
    · rfl
    · rw [hoff']
      simp only [leafData_leaf, List.length_cons, List.length_nil]
      omega
    · simp only [leafData_leaf, List.length_cons, List.length_nil]
      omega
    · intro _
      simp [leafData_leaf]
    · rw [hoff']
      exact Or.inr hwfany
    · simp only [RRB.toList, Node.toList_leaf]
      rw [htl, wfT_tail_toList hw]
theorem modAt_length {β : Type} (xs : List β) (i : Nat) (f : β → β) :
    (modAt xs i f).length = xs.length := by
  rw [modAt]
  cases h : xs.get? i with
  | none => rfl
  | some a => simp [List.length_set]

theorem modAt_get {β : Type} (xs : List β) {i : Nat} (hi : i < xs.length) (f : β → β) :
    modAt xs i f = xs.take i ++ f (xs.get ⟨i, hi⟩) :: xs.drop (i + 1) := by
  rw [modAt, List.get?_eq_get hi]
  exact List.set_eq_take_cons_drop _ hi

theorem modAt_append_left {β : Type} (l1 l2 : List β) {k : Nat} (hk : k < l1.length)
    (f : β → β) : modAt (l1 ++ l2) k f = modAt l1 k f ++ l2 := by
  rw [modAt, modAt, List.get?_append hk, List.get?_eq_get hk]
  exact List.set_append_left _ _ hk

theorem modAt_append_right {β : Type} (l1 l2 : List β) (k : Nat) (f : β → β) :
    modAt (l1 ++ l2) (l1.length + k) f = l1 ++ modAt l2 k f := by
  rw [modAt, modAt, List.get?_append_right (Nat.le_add_right _ _),
    Nat.add_sub_cancel_left]
  cases h : l2.get? k with
  | none => rfl
  | some a =>
    dsimp only
    rw [List.set_append_right _ _ (Nat.le_add_right _ _), Nat.add_sub_cancel_left]

theorem updLoop_full {B BL : Nat} {α : Type} {h : Nat} {c : Node α}
    (hw : WfFull B BL h c) :
    ∀ idx lv (f : α → α), (1 ≤ h → lv = BL + B * (h - 1)) →
    WfFull B BL h (updLoop B BL h c lv idx f) ∧
    (updLoop B BL h c lv idx f).toList = modAt c.toList (idx % cap B BL h) f := by
  induction hw with
  | @leaf xs hx =>
    intro idx lv f _
    rw [updLoop]
    refine ⟨WfFull.leaf ?_, ?_⟩
    · rw [leafData_leaf, modAt_length, hx]
    · rw [Node.toList_leaf, Node.toList_leaf, leafData_leaf, cap_zero]
  | @inner h cs hlen hall ih =>
    intro idx lv f hlv
    have hlv1 : lv = BL + B * h := by simpa using hlv (by omega)
    have hcap : (2 : Nat) ^ lv = cap B BL h := by rw [hlv1]; rfl
    have hBpos : (0:Nat) < 2 ^ B := Nat.pos_pow_of_pos _ (by omega)
    have hjlt : idx / 2 ^ lv % 2 ^ B < 2 ^ B := Nat.mod_lt _ hBpos
    have hjlen : idx / 2 ^ lv % 2 ^ B < cs.length := by rw [hlen]; exact hjlt
    have hcjmem : cs.get ⟨idx / 2 ^ lv % 2 ^ B, hjlen⟩ ∈ cs := List.get_mem cs _ hjlen
    obtain ⟨hwfc, htlc⟩ := ih _ hcjmem idx (lv - B) f (fun h1 => lvl_step hlv1 h1)
    rw [updLoop]
    rw [modAt_get cs hjlen]
    have hdecomp : cs = cs.take (idx / 2 ^ lv % 2 ^ B)
        ++ cs.get ⟨idx / 2 ^ lv % 2 ^ B, hjlen⟩ :: cs.drop (idx / 2 ^ lv % 2 ^ B + 1) := by
      conv_lhs => rw [← List.take_append_drop (idx / 2 ^ lv % 2 ^ B) cs]
      rw [List.drop_eq_get_cons hjlen]
    constructor
    · refine WfFull.inner ?_ ?_
      · simp only [List.length_append, List.length_cons, List.length_take,
          List.length_drop]
        omega
      · intro d hd
        rcases List.mem_append.mp hd with hd | hd
        · exact hall d (List.mem_of_mem_take hd)
        · rcases List.mem_cons.mp hd with hd | hd
          · rw [hd]; exact hwfc
          · exact hall d (List.mem_of_mem_drop hd)
    · rw [Node.toList_inner, Node.toListAll_append, Node.toListAll_cons, htlc]
      conv_rhs => rw [Node.toList_inner, hdecomp, Node.toListAll_append,
        Node.toListAll_cons]
      have hA : (Node.toListAll (cs.take (idx / 2 ^ lv % 2 ^ B))).length
          = (idx / 2 ^ lv % 2 ^ B) * cap B BL h := by
        rw [toListAll_length_const (fun d hd => wfFull_length (hall d (List.mem_of_mem_take hd)))]
        rw [List.length_take]
        congr 1
        omega
      have hmid : (cs.get ⟨idx / 2 ^ lv % 2 ^ B, hjlen⟩).toList.length = cap B BL h :=
        wfFull_length (hall _ hcjmem)
      have hsplit : idx % cap B BL (h + 1)
          = (Node.toListAll (cs.take (idx / 2 ^ lv % 2 ^ B))).length
            + idx % cap B BL h := by
        rw [hA, cap_succ, mod_mul_decomp idx (cap B BL h) (2 ^ B), hcap]
      rw [hsplit, ← List.append_assoc, ← List.append_assoc]
      rw [show Node.toListAll (cs.take (idx / 2 ^ lv % 2 ^ B))
            ++ (cs.get ⟨idx / 2 ^ lv % 2 ^ B, hjlen⟩).toList
            ++ Node.toListAll (cs.drop (idx / 2 ^ lv % 2 ^ B + 1))
          = Node.toListAll (cs.take (idx / 2 ^ lv % 2 ^ B))
            ++ ((cs.get ⟨idx / 2 ^ lv % 2 ^ B, hjlen⟩).toList
              ++ Node.toListAll (cs.drop (idx / 2 ^ lv % 2 ^ B + 1)))
        from by rw [List.append_assoc]]
      rw [modAt_append_right, modAt_append_left _ _ (by
        rw [hmid]
        exact Nat.mod_lt _ (cap_pos B BL h)), List.append_assoc]
theorem updLoop_reg {B BL : Nat} {α : Type} {h : Nat} {n : Node α} {sz : Nat}
    (hw : WfReg B BL h n sz) :
    ∀ idx loc lv (f : α → α), (1 ≤ h → lv = BL + B * (h - 1)) →
    loc < sz → idx % cap B BL h = loc →
    WfReg B BL h (updLoop B BL h n lv idx f) sz ∧
    (updLoop B BL h n lv idx f).toList = modAt n.toList loc f := by
  induction hw with
  | @leaf xs sz hx hpos hle =>
    intro idx loc lv f _ hloc hmod
    rw [updLoop]
    have hmod2 : idx % 2 ^ BL = loc := by rw [← cap_zero B BL]; exact hmod
    refine ⟨WfReg.leaf ?_ hpos hle, ?_⟩
    · rw [leafData_leaf, modAt_length, hx]
    · rw [Node.toList_leaf, Node.toList_leaf, leafData_leaf, hmod2]
  | @inner h cs0 cl szl hfull hreg hcnt ih =>
    intro idx loc lv f hlv hloc hmod
    have hlv1 : lv = BL + B * h := by simpa using hlv (by omega)
    have hcap : (2 : Nat) ^ lv = cap B BL h := by rw [hlv1]; rfl
    have hszl := wfReg_length hreg
    have hdm := Nat.div_add_mod loc (cap B BL h)
    have hml := Nat.mod_lt loc (cap_pos B BL h)
    have hcm : cap B BL h * (loc / cap B BL h)
        = (loc / cap B BL h) * cap B BL h := mul_comm _ _
    have hjay : idx / 2 ^ lv % 2 ^ B = loc / cap B BL h := by
      rw [← hmod, cap_succ, mul_comm, Nat.mod_mul_right_div_self, hcap]
    have hjle : loc / cap B BL h ≤ cs0.length := by
      have h1 : loc < (cs0.length + 1) * cap B BL h := by nlinarith [hszl.2.2]
      have := (Nat.div_lt_iff_lt_mul (cap_pos B BL h)).mpr h1
      omega
    have hlocmod : loc % cap B BL h = idx % cap B BL h := by
      rw [← hmod, cap_succ]
      exact Nat.mod_mod_of_dvd idx (dvd_mul_left _ _)
    rw [updLoop, hjay]
    rcases Nat.lt_or_ge (loc / cap B BL h) cs0.length with hjlt | hjge
    · -- a full child is rebuilt in place
      have hcjmem : cs0.get ⟨loc / cap B BL h, hjlt⟩ ∈ cs0 := List.get_mem cs0 _ hjlt
      obtain ⟨hwfc, htlc⟩ := updLoop_full (hfull _ hcjmem) idx (lv - B) f
        (fun h1 => lvl_step hlv1 h1)
      rw [modAt_append_left _ _ hjlt, modAt_get cs0 hjlt]
      have hdecomp : cs0 = cs0.take (loc / cap B BL h)
          ++ cs0.get ⟨loc / cap B BL h, hjlt⟩ :: cs0.drop (loc / cap B BL h + 1) := by
        conv_lhs => rw [← List.take_append_drop (loc / cap B BL h) cs0]
        rw [List.drop_eq_get_cons hjlt]
      have hA : (Node.toListAll (cs0.take (loc / cap B BL h))).length
          = (loc / cap B BL h) * cap B BL h := by
        rw [toListAll_length_const
          (fun d hd => wfFull_length (hfull d (List.mem_of_mem_take hd)))]
        rw [List.length_take]
        congr 1
        omega
      have hmid : (cs0.get ⟨loc / cap B BL h, hjlt⟩).toList.length = cap B BL h :=
        wfFull_length (hfull _ hcjmem)
      constructor
      · have hwfnew := wfRegInner
          (cs0.take (loc / cap B BL h)
            ++ updLoop B BL h (cs0.get ⟨loc / cap B BL h, hjlt⟩) (lv - B) idx f
              :: cs0.drop (loc / cap B BL h + 1))
          (by
            intro d hd
            rcases List.mem_append.mp hd with hd | hd
            · exact hfull d (List.mem_of_mem_take hd)
            · rcases List.mem_cons.mp hd with hd | hd
              · rw [hd]; exact hwfc
              · exact hfull d (List.mem_of_mem_drop hd))
          hreg
          (by
            simp only [List.length_append, List.length_cons, List.length_take,
              List.length_drop]
            omega)
        have hlen2 : (cs0.take (loc / cap B BL h)
            ++ updLoop B BL h (cs0.get ⟨loc / cap B BL h, hjlt⟩) (lv - B) idx f
              :: cs0.drop (loc / cap B BL h + 1)).length = cs0.length := by
          simp only [List.length_append, List.length_cons, List.length_take,
            List.length_drop]
          omega
        rw [hlen2] at hwfnew
        exact hwfnew
      · rw [Node.toList_inner, Node.toList_inner, Node.toListAll_append,
          Node.toListAll_append, Node.toListAll_cons, toListAll_singleton, htlc]
        conv_rhs => rw [hdecomp, Node.toListAll_append, Node.toListAll_cons]
        have hgen : ∀ (A M C : List α), A.length = (loc / cap B BL h) * cap B BL h →
            M.length = cap B BL h →
            modAt (A ++ (M ++ C)) loc f = A ++ (modAt M (idx % cap B BL h) f ++ C) := by
          intro A M C hA2 hM
          have hlocsplit : loc = A.length + idx % cap B BL h := by
            rw [hA2, ← hlocmod]
            have hcm : cap B BL h * (loc / cap B BL h)
                = (loc / cap B BL h) * cap B BL h := mul_comm _ _
            omega
          rw [hlocsplit, modAt_append_right, modAt_append_left _ _ (by
            rw [hM]
            exact Nat.mod_lt _ (cap_pos B BL h))]
        rw [Node.toListAll_append, Node.toListAll_cons, Node.toListAll_nil,
          List.append_nil]
        simp only [List.append_assoc]
        rw [hgen _ _ _ hA hmid]
    · -- the last child is rebuilt
      have hjk : loc / cap B BL h = cs0.length := le_antisymm hjle hjge
      have hlocge : cs0.length * cap B BL h ≤ loc := by
        rw [← hjk]
        exact Nat.div_mul_le_self _ _
      have hloc2 : loc - cs0.length * cap B BL h = loc % cap B BL h := by
        rw [← hjk]
        omega
      rw [hjk]
      have hmodlast : modAt (cs0 ++ [cl]) cs0.length
          (fun c => updLoop B BL h c (lv - B) idx f) = cs0 ++ [updLoop B BL h cl (lv - B) idx f] := by
        have h0 := modAt_append_right cs0 [cl] 0
          (fun c => updLoop B BL h c (lv - B) idx f)
        simpa [modAt] using h0
      rw [hmodlast]
      obtain ⟨hwfc, htlc⟩ := ih idx (loc - cs0.length * cap B BL h) (lv - B) f
        (fun h1 => lvl_step hlv1 h1) (by omega) (by rw [hloc2, hlocmod])
      refine ⟨WfReg.inner hfull hwfc hcnt, ?_⟩
      rw [Node.toList_inner, Node.toList_inner, Node.toListAll_append,
        Node.toListAll_append, toListAll_singleton, toListAll_singleton, htlc]
      have hA0 : (Node.toListAll cs0).length = cs0.length * cap B BL h :=
        toListAll_length_const (fun d hd => wfFull_length (hfull d hd))
      have hlocsplit : loc = (Node.toListAll cs0).length
          + (loc - cs0.length * cap B BL h) := by
        rw [hA0]
        omega
      rw [hlocsplit, modAt_append_right]
      have hidxeq : (Node.toListAll cs0).length + (loc - cs0.length * cap B BL h)
          - cs0.length * cap B BL h = loc - cs0.length * cap B BL h := by
        rw [hA0]
        omega
      rw [hidxeq]
theorem modAt_cons_zero {β : Type} (c : β) (l : List β) (g : β → β) :
    modAt (c :: l) 0 g = g c :: l := rfl

theorem modAt_cons_succ {β : Type} (c : β) (l : List β) (j : Nat) (g : β → β) :
    modAt (c :: l) (j + 1) g = c :: modAt l j g := by
  rw [modAt, modAt]
  simp only [List.get?_cons_succ]
  cases h : l.get? j with
  | none => rfl
  | some a => rfl

theorem zip_modAt_mem {α β : Type} {cs : List α} {ss : List β} {j : Nat}
    (hj : j < cs.length) (g : α → α) {p : α × β}
    (hp : p ∈ (modAt cs j g).zip ss) :
    p ∈ cs.zip ss ∨ ∃ hj2 : j < ss.length, p = (g (cs.get ⟨j, hj⟩), ss.get ⟨j, hj2⟩) := by
  induction cs generalizing ss j with
  | nil => simp at hj
  | cons c cs ih =>
    cases ss with
    | nil => simp [List.zip_nil_right] at hp
    | cons s ss2 =>
      cases j with
      | zero =>
        rw [modAt_cons_zero] at hp
        simp only [List.zip_cons_cons, List.mem_cons] at hp
        rcases hp with hp | hp
        · exact Or.inr ⟨by simp, by simpa using hp⟩
        · exact Or.inl (List.mem_cons.mpr (Or.inr hp))
      | succ j =>
        rw [modAt_cons_succ] at hp
        simp only [List.zip_cons_cons, List.mem_cons] at hp
        rcases hp with hp | hp
        · exact Or.inl (by simp [hp])
        · rcases ih (by simpa using hj) hp with hin | ⟨hj2, hpe⟩
          · exact Or.inl (List.mem_cons.mpr (Or.inr hin))
          · exact Or.inr ⟨by simpa using hj2, by simpa using hpe⟩

theorem updLoop_any {B BL : Nat} {α : Type} {h : Nat} {n : Node α} {sz : Nat}
    (hw : WfAny B BL h n sz) :
    ∀ idx lv (f : α → α), (1 ≤ h → lv = BL + B * (h - 1)) → idx < sz →
    WfAny B BL h (updLoop B BL h n lv idx f) sz ∧
    (updLoop B BL h n lv idx f).toList = modAt n.toList idx f := by
  induction hw with
  | reg hr hal =>
    intro idx lv f hlv hidx
    obtain ⟨hwf2, htl⟩ := updLoop_reg hr idx idx lv f hlv hidx
      (Nat.mod_eq_of_lt (by have := wfReg_length hr; omega))
    exact ⟨WfAny.reg hwf2 hal, htl⟩
  | @rel h cs ss hlen hch hbounds hpos hcnt ih =>
    intro idx lv f hlv hidx
    have hlv1 : lv = BL + B * h := by simpa using hlv (by omega)
    have hcap : (2 : Nat) ^ lv = cap B BL h := by rw [hlv1]; rfl
    obtain ⟨j, hjlen, hjle, hjlt⟩ := @locate ss _ (by simpa using hidx)
    have hjlencs : j < cs.length := by omega
    have hjss : j < ss.length := by omega
    have hsplit : (ss.take (j + 1)).sum = (ss.take j).sum + ss.getD j 0 :=
      take_sum_add ss j hjlen
    have hstart : idx / 2 ^ lv % 2 ^ B = idx / cap B BL h := by
      rw [hcap]
      apply Nat.mod_eq_of_lt
      have hsum : ss.sum ≤ ss.length * cap B BL h := by
        calc ss.sum ≤ ss.length • cap B BL h :=
              List.sum_le_card_nsmul _ _ (fun s hs => (hbounds s hs).2)
          _ = ss.length * cap B BL h := by simp
      have : idx < 2 ^ B * cap B BL h := by
        have : ss.length * cap B BL h ≤ 2 ^ B * cap B BL h :=
          Nat.mul_le_mul_right _ (by omega)
        omega
      exact (Nat.div_lt_iff_lt_mul (cap_pos B BL h)).mpr (by omega)
    have hstartle : idx / cap B BL h ≤ j := by
      have htb : (ss.take (j + 1)).sum ≤ (j + 1) * cap B BL h := by
        calc (ss.take (j + 1)).sum ≤ (ss.take (j + 1)).length • cap B BL h :=
              List.sum_le_card_nsmul _ _
                (fun s hs => (hbounds s (List.mem_of_mem_take hs)).2)
          _ = (ss.take (j + 1)).length * cap B BL h := by simp
          _ ≤ (j + 1) * cap B BL h := by
              exact Nat.mul_le_mul_right _ (by simp)
      have := (Nat.div_lt_iff_lt_mul (cap_pos B BL h)).mpr
        (by omega : idx < (j + 1) * cap B BL h)
      omega
    have hkj : sizeIndex (cumSizes ss) idx (idx / 2 ^ lv % 2 ^ B) = j := by
      apply sizeIndex_eq (by rw [cumSizes_length]; omega)
      · rw [cumSizes_getD ss j hjlen]; omega
      · intro m hm hmj
        rw [cumSizes_getD ss m (by omega)]
        have := take_sum_mono ss (a := m + 1) (b := j) (by omega)
        omega
      · rw [hstart]; exact hstartle
    have hjz : j < (cs.zip ss).length := by
      rw [List.length_zip]; omega
    have hzget : (cs.zip ss)[j] = (cs[j], ss[j]) := List.getElem_zip
    have hzmem : (cs[j], ss[j]) ∈ cs.zip ss := by
      rw [← hzget]
      exact List.getElem_mem _
    have hssj : ss[j] = ss.getD j 0 := by
      rw [List.getD_eq_getElem?_getD, List.getElem?_eq_getElem (by omega : j < ss.length)]
      rfl
    have hidx2 : idx - (if j = 0 then 0 else (cumSizes ss).getD (j - 1) 0)
        = idx - (ss.take j).sum := by
      rcases Nat.eq_zero_or_pos j with h0 | h1
      · simp [h0]
      · have hj1 : j - 1 + 1 = j := Nat.succ_pred_eq_of_pos h1
        have hgd1 : (cumSizes ss).getD (j - 1) 0 = (ss.take j).sum := by
          rw [cumSizes_getD ss (j - 1) (by omega), hj1]
        have hne : j ≠ 0 := by omega
        rw [if_neg hne, hgd1]
    have hloc : idx - (ss.take j).sum < ss.getD j 0 := by omega
    have hIH := ih (cs[j], ss[j]) hzmem (idx - (ss.take j).sum) (lv - B) f
      (fun h1 => lvl_step hlv1 h1) (by rw [hssj]; exact hloc)
    dsimp only at hIH
    obtain ⟨hwfc, htlc⟩ := hIH
    have hgeteq : cs.get ⟨j, hjlencs⟩ = cs[j] := rfl
    rw [updLoop, hkj, hidx2]
    have hcsdec : cs = cs.take j ++ cs.get ⟨j, hjlencs⟩ :: cs.drop (j + 1) := by
      conv_lhs => rw [← List.take_append_drop j cs]
      rw [List.drop_eq_get_cons hjlencs]
    have hA : (Node.toListAll (cs.take j)).length = (ss.take j).sum := by
      refine toListAll_length_of (by simp [List.length_take]; omega) ?_
      intro p hp
      exact (wfAny_length (hch p (zip_take_sub hp))).1
    have hM : (cs.get ⟨j, hjlencs⟩).toList.length = ss.getD j 0 := by
      rw [hgeteq, ← hssj]
      exact (wfAny_length (hch _ hzmem)).1
    constructor
    · have hwf := wfAnyRel h
        (modAt cs j (fun c => updLoop B BL h c (lv - B) (idx - (ss.take j).sum) f))
        ss
        (by rw [modAt_length]; exact hlen)
        (by
          intro p hp
          rcases zip_modAt_mem hjlencs _ hp with hin | ⟨hj2, hpe⟩
          · exact hch p hin
          · rw [hpe]
            dsimp only
            rw [hgeteq]
            have hsseq : ss.get ⟨j, hj2⟩ = ss[j] := rfl
            rw [hsseq]
            exact hwfc)
        hbounds
        (by rw [modAt_length]; exact hpos)
        (by rw [modAt_length]; exact hcnt)
      exact hwf
    · rw [← hgeteq] at htlc
      rw [modAt_get cs hjlencs, Node.toList_relaxed, Node.toList_relaxed,
        Node.toListAll_append, Node.toListAll_cons, htlc]
      have hconv : modAt (Node.toListAll cs) idx f
          = Node.toListAll (cs.take j)
            ++ (modAt (cs.get ⟨j, hjlencs⟩).toList (idx - (ss.take j).sum) f
              ++ Node.toListAll (cs.drop (j + 1))) := by
        conv_lhs =>
          rw [hcsdec, Node.toListAll_append, Node.toListAll_cons]
          rw [show idx = (Node.toListAll (cs.take j)).length + (idx - (ss.take j).sum)
            from by rw [hA]; omega]
          rw [modAt_append_right, modAt_append_left _ _ (by rw [hM]; exact hloc)]
      rw [hconv]
/-- `rrbtree::update` preserves the façade invariant and rewrites exactly
the addressed position (under its documented `index < size`
precondition). -/
theorem update_wf {B BL : Nat} {α : Type} {t : RRB α} (hB : 0 < B)
    (hw : WfT B BL t) (idx : Nat) (hidx : idx < t.size) (f : α → α) :
    WfT B BL (t.update B BL idx f) ∧
    (t.update B BL idx f).toList = modAt t.toList idx f := by
  have hblpos : (0:Nat) < 2 ^ BL := Nat.pos_pow_of_pos _ (by omega)
  have hsz := hw.sizeEq
  rw [RRB.update]
  by_cases hcase : tailOffset BL t ≤ idx
  · rw [if_pos hcase]
    have hmod2 : (idx - tailOffset BL t) % 2 ^ BL = idx - tailOffset BL t := by
      apply Nat.mod_eq_of_lt
      have := hw.tailLe
      omega
    have hoff' : tailOffset BL ⟨t.size, t.shift, t.root,
        .leaf (modAt t.tail.leafData ((idx - tailOffset BL t) % 2 ^ BL) f)⟩
        = tailOffset BL t := rfl
    refine ⟨⟨hw.shiftD, rfl, ?_, ?_, ?_, ?_⟩, ?_⟩
    · rw [hoff']
      simp only [leafData_leaf, modAt_length]
      exact hsz
    · simp only [leafData_leaf, modAt_length]
      exact hw.tailLe
    · intro hne
      simp only [leafData_leaf, modAt_length]
      exact hw.tailNE hne
    · rw [hoff']
      exact hw.rootWf
    · simp only [RRB.toList, Node.toList_leaf]
      rw [hmod2, wfT_tail_toList hw]
      rw [show idx = t.root.toList.length + (idx - tailOffset BL t) from by
        rw [wfT_root_length hw]; omega]
      rw [modAt_append_right]
      have hidxeq : t.root.toList.length + (idx - tailOffset BL t)
          - tailOffset BL t = idx - tailOffset BL t := by
        rw [wfT_root_length hw]
        omega
      rw [hidxeq]
  · rw [if_neg hcase]
    push_neg at hcase
    obtain ⟨d, hd⟩ := hw.shiftD
    have hany : WfAny B BL (hRoot B BL t.shift) t.root (tailOffset BL t) := by
      rcases hw.rootWf with ⟨h0, _, _⟩ | h1
      · omega
      · exact h1
    obtain ⟨hwf2, htl2⟩ := updLoop_any hany idx t.shift f
      (by
        intro _
        rw [hd, hRoot_eq hB d, Nat.add_sub_cancel])
      hcase
    have hoff' : tailOffset BL ⟨t.size, t.shift,
        updLoop B BL (hRoot B BL t.shift) t.root t.shift idx f, t.tail⟩
        = tailOffset BL t := by
      rw [tailOffset]
      cases hrel : (updLoop B BL (hRoot B BL t.shift) t.root t.shift idx f).relaxedOf with
      | some szs =>
        simp only
        exact wfAny_table_last hwf2 hrel
      | none =>
        obtain ⟨hreg, hal⟩ := wfAny_reg_inv hwf2 hrel
        have halo : tailOffset BL t % 2 ^ BL = 0 := by
          refine hal ?_
          rw [hRoot]
          exact Nat.le_add_left 1 _
        obtain ⟨q, hq⟩ := Nat.dvd_of_mod_eq_zero halo
        have htlen := hw.tailNE (by omega)
        have htlle := hw.tailLe
        simp only
        rw [if_pos (by omega)]
        have hdec : t.size - 1 = 2 ^ BL * q + (t.tail.leafData.length - 1) := by
          omega
        rw [hdec, Nat.mul_add_mod, Nat.mod_eq_of_lt (by omega)]
        omega
    refine ⟨⟨hw.shiftD, hw.tailLeaf, ?_, hw.tailLe, hw.tailNE, ?_⟩, ?_⟩
    · rw [hoff']
      exact hsz
    · rw [hoff']
      exact Or.inr hwf2
    · simp only [RRB.toList]
      rw [htl2, modAt_append_left _ _ (by rw [wfT_root_length hw]; exact hcase)]
theorem toListAll_take_const {α : Type} {cs : List (Node α)} {L : Nat}
    (hL : ∀ c ∈ cs, (c : Node α).toList.length = L) (j : Nat) :
    Node.toListAll (cs.take j) = (Node.toListAll cs).take (j * L) := by
  induction cs generalizing j with
  | nil => simp [Node.toListAll_nil]
  | cons c cs ih =>
    cases j with
    | zero => simp [Node.toListAll_nil]
    | succ j =>
      rw [List.take_succ_cons, Node.toListAll_cons, Node.toListAll_cons]
      rw [ih (fun d hd => hL d (by simp [hd])) j]
      have h1 : (j + 1) * L = c.toList.length + j * L := by
        rw [hL c (by simp)]
        ring
      rw [h1, List.take_append]

theorem toListAll_take_cum {α : Type} {cs : List (Node α)} {ss : List Nat}
    (hlen : cs.length = ss.length)
    (hsz : ∀ p ∈ cs.zip ss, (p.1 : Node α).toList.length = p.2) (j : Nat) :
    Node.toListAll (cs.take j) = (Node.toListAll cs).take ((ss.take j).sum) := by
  induction cs generalizing ss j with
  | nil => simp [Node.toListAll_nil]
  | cons c cs ih =>
    cases ss with
    | nil => simp at hlen
    | cons s rest =>
      cases j with
      | zero => simp [Node.toListAll_nil]
      | succ j =>
        rw [List.take_succ_cons, Node.toListAll_cons, Node.toListAll_cons,
          List.take_succ_cons, List.sum_cons]
        rw [ih (by simpa using hlen) (fun p hp => hsz p (by simp [hp])) j]
        have h1 : s + (rest.take j).sum = c.toList.length + (rest.take j).sum := by
          rw [hsz (c, s) (by simp)]
        rw [h1, List.take_append]
theorem toListAll_split_at {α : Type} (cs : List (Node α)) {j : Nat} (hj : j < cs.length) :
    Node.toListAll cs = Node.toListAll (cs.take j) ++ ((cs.get ⟨j, hj⟩).toList
      ++ Node.toListAll (cs.drop (j + 1))) := by
  conv_lhs => rw [← List.take_append_drop j cs, List.drop_eq_get_cons hj]
  rw [Node.toListAll_append, Node.toListAll_cons]

theorem wfReg_prefix_full {B BL : Nat} {α : Type} {h : Nat} {cs0 : List (Node α)}
    (hfull : ∀ c ∈ cs0, WfFull B BL h c) {j : Nat} (hj : 0 < j)
    (hjle : j ≤ cs0.length) (hcnt : cs0.length + 1 ≤ 2 ^ B) :
    WfReg B BL (h + 1) (.inner (cs0.take j)) (j * cap B BL h) := by
  have hj1 : j - 1 < cs0.length := by omega
  have hdec : cs0.take j = cs0.take (j - 1) ++ [cs0.get ⟨j - 1, hj1⟩] := by
    conv_lhs => rw [show j = (j - 1) + 1 from by omega, List.take_succ,
      List.getElem?_eq_getElem hj1]
    rfl
  rw [hdec]
  have hmain := wfRegInner (cs0.take (j - 1))
    (fun c hc => hfull c (List.mem_of_mem_take hc))
    (wfFull_wfReg (hfull _ (List.get_mem cs0 _ hj1)))
    (by rw [List.length_take]; omega)
  have hsz : (cs0.take (j - 1)).length * cap B BL h + cap B BL h = j * cap B BL h := by
    rw [List.length_take, min_eq_left (by omega)]
    have : (j - 1) * cap B BL h + cap B BL h = (j - 1 + 1) * cap B BL h := by ring
    rw [this]
    congr 1
    omega
  rw [hsz] at hmain
  exact hmain

theorem wfReg_prefix_part {B BL : Nat} {α : Type} {h : Nat} {cs0 : List (Node α)}
    (hfull : ∀ c ∈ cs0, WfFull B BL h c) {j : Nat} {n2 : Node α} {sz2 : Nat}
    (hj : j ≤ cs0.length) (hw2 : WfReg B BL h n2 sz2)
    (hcnt : cs0.length + 1 ≤ 2 ^ B) :
    WfReg B BL (h + 1) (.inner (cs0.take j ++ [n2])) (j * cap B BL h + sz2) := by
  have hmain := wfRegInner (cs0.take j)
    (fun c hc => hfull c (List.mem_of_mem_take hc)) hw2
    (by rw [List.length_take]; omega)
  have hsz : (cs0.take j).length * cap B BL h + sz2 = j * cap B BL h + sz2 := by
    rw [List.length_take, min_eq_left hj]
  rw [hsz] at hmain
  exact hmain

theorem sliceR_reg {B BL : Nat} {α : Type} (hB : 0 < B) :
    ∀ h {n : Node α} {sz : Nat}, WfReg B BL h n sz →
    ∀ last loc lv, (1 ≤ h → lv = BL + B * (h - 1)) → loc < sz →
    last % cap B BL h = loc →
    match sliceR B BL false h n lv last with
    | (_, none, ts, tl) =>
        loc < 2 ^ BL ∧ ts = loc + 1 ∧ tl = Node.leaf (n.toList.take (loc + 1))
    | (sh2, some n2, ts, tl) =>
        sh2 = lv ∧ 2 ^ BL ≤ loc ∧ ts = loc % 2 ^ BL + 1 ∧
        WfReg B BL h n2 (loc + 1 - ts) ∧
        n2.toList = n.toList.take (loc + 1 - ts) ∧
        tl = Node.leaf ((n.toList.take (loc + 1)).drop (loc + 1 - ts)) := by
  intro h
  induction h with
  | zero =>
    intro n sz hw last loc lv _ hloc hmod
    cases hw with
    | leaf hx hpos hle =>
      rw [sliceR]
      dsimp only
      have hmod2 : last % 2 ^ BL = loc := by rw [← cap_zero B BL]; exact hmod
      have hle2 : sz ≤ 2 ^ BL := by simpa [cap] using hle
      refine ⟨by omega, by rw [hmod2], ?_⟩
      rw [leafData_leaf, Node.toList_leaf, hmod2]
  | succ h ih =>
    intro n sz hw last loc lv hlv hloc hmod
    cases hw with
    | @inner _ cs0 cl szl hfull hreg hcnt =>
      have hlv1 : lv = BL + B * h := by simpa using hlv (by omega)
      have hcap : (2 : Nat) ^ lv = cap B BL h := by rw [hlv1]; rfl
      have hcappos := cap_pos B BL h
      have hblpos : (0:Nat) < 2 ^ BL := Nat.pos_pow_of_pos _ (by omega)
      have hble : 2 ^ BL ≤ cap B BL h := by
        rw [cap_split]
        nlinarith [Nat.pos_pow_of_pos (B * h) (show 0 < 2 by omega)]
      have hszl := wfReg_length hreg
      have hdm := Nat.div_add_mod loc (cap B BL h)
      have hml := Nat.mod_lt loc hcappos
      have hcm : cap B BL h * (loc / cap B BL h)
          = (loc / cap B BL h) * cap B BL h := mul_comm _ _
      have hjay : last / 2 ^ lv % 2 ^ B = loc / cap B BL h := by
        rw [← hmod, cap_succ, mul_comm, Nat.mod_mul_right_div_self, hcap]
      have hjle : loc / cap B BL h ≤ cs0.length := by
        have h1 : loc < (cs0.length + 1) * cap B BL h := by nlinarith [hszl.2.2]
        have := (Nat.div_lt_iff_lt_mul hcappos).mpr h1
        omega
      have hlocmod : last % cap B BL h = loc % cap B BL h := by
        conv_rhs => rw [← hmod]
        rw [cap_succ]
        exact (Nat.mod_mod_of_dvd last (dvd_mul_left _ _)).symm
      have hmodbl : loc % cap B BL h % 2 ^ BL = loc % 2 ^ BL :=
        Nat.mod_mod_of_dvd loc (cap_dvd_pow_BL B BL h)
      have hidxcs : loc / cap B BL h < (cs0 ++ [cl]).length := by
        simp only [List.length_append, List.length_cons, List.length_nil]
        omega
      have htake_eq : (cs0 ++ [cl]).take (loc / cap B BL h)
          = cs0.take (loc / cap B BL h) := List.take_append_of_le_length hjle
      obtain ⟨cj, hcj⟩ : ∃ cj, (cs0 ++ [cl]).get? (loc / cap B BL h) = some cj :=
        ⟨_, List.get?_eq_get hidxcs⟩
      have hgd : (cs0 ++ [cl]).getD (loc / cap B BL h) (.leaf []) = cj := by
        rw [List.getD_eq_getElem?_getD, ← List.get?_eq_getElem?, hcj]
        rfl
      have hgetv : (cs0 ++ [cl]).get ⟨loc / cap B BL h, hidxcs⟩ = cj := by
        have h2 := List.get?_eq_get hidxcs
        rw [hcj] at h2
        exact (Option.some_inj.mp h2).symm
      obtain ⟨szc, hcw, hltc⟩ :
          ∃ szc, WfReg B BL h cj szc ∧ loc % cap B BL h < szc := by
        rcases Nat.lt_or_ge (loc / cap B BL h) cs0.length with hjlt | hjge
        · have hcj0 : cs0.get? (loc / cap B BL h) = some cj := by
            rw [← List.get?_append hjlt, hcj]
          have hcjmem : cj ∈ cs0 := List.get?_mem hcj0
          exact ⟨cap B BL h, wfFull_wfReg (hfull cj hcjmem), Nat.mod_lt _ hcappos⟩
        · have hjk : loc / cap B BL h = cs0.length := le_antisymm hjle hjge
          have hcjlast : (cs0 ++ [cl]).get? (loc / cap B BL h) = some cl := by
            rw [hjk, List.get?_append_right (le_refl _)]
            simp
          have hcjeq : cj = cl := by
            rw [hcj] at hcjlast
            exact Option.some_inj.mp hcjlast
          subst hcjeq
          refine ⟨szl, hreg, ?_⟩
          rw [← hjk] at hloc
          omega
      have hcjlen : cj.toList.length = szc := (wfReg_length hcw).1
      have hsplit0 : (Node.inner (cs0 ++ [cl])).toList
          = Node.toListAll ((cs0 ++ [cl]).take (loc / cap B BL h)) ++ (cj.toList
            ++ Node.toListAll ((cs0 ++ [cl]).drop (loc / cap B BL h + 1))) := by
        rw [Node.toList_inner, toListAll_split_at (cs0 ++ [cl]) hidxcs, hgetv]
      have hAlen : (Node.toListAll ((cs0 ++ [cl]).take (loc / cap B BL h))).length
          = loc / cap B BL h * cap B BL h := by
        rw [htake_eq]
        rw [toListAll_length_const
          (fun c hc => wfFull_length (hfull c (List.mem_of_mem_take hc)))]
        rw [List.length_take, min_eq_left hjle]
      have hE1 : ∀ r, r ≤ cj.toList.length →
          (Node.inner (cs0 ++ [cl])).toList.take (loc / cap B BL h * cap B BL h + r)
            = Node.toListAll ((cs0 ++ [cl]).take (loc / cap B BL h))
              ++ cj.toList.take r := by
        intro r hr
        rw [hsplit0, ← hAlen, List.take_append, List.take_append_of_le_length hr]
      have hE2 : ∀ r q, r ≤ cj.toList.length →
          ((Node.inner (cs0 ++ [cl])).toList.take (loc / cap B BL h * cap B BL h + r)).drop
            (loc / cap B BL h * cap B BL h + q) = (cj.toList.take r).drop q := by
        intro r q hr
        rw [hE1 r hr, ← hAlen, List.drop_append]
      have hAeq : Node.toListAll ((cs0 ++ [cl]).take (loc / cap B BL h))
          = (Node.inner (cs0 ++ [cl])).toList.take (loc / cap B BL h * cap B BL h) := by
        have h2 := hE1 0 (by omega)
        simp only [Nat.add_zero, List.take_zero, List.append_nil] at h2
        exact h2.symm
      have hchspec := ih hcw last (loc % cap B BL h) (lv - B)
        (fun h1 => lvl_step hlv1 h1) hltc hlocmod
      rw [sliceR]
      rw [if_neg (by simp)]
      rw [hjay, hgd]
      rcases hrec : sliceR B BL false h cj (lv - B) last with ⟨sh2, on2, ts2, tl2⟩
      rw [hrec] at hchspec
      cases on2 with
      | none =>
        dsimp only at hchspec ⊢
        obtain ⟨hltbl, hts, htl⟩ := hchspec
        by_cases hj0 : loc / cap B BL h = 0
        · rw [if_pos hj0]
          dsimp only
          have hloceq : loc % cap B BL h = loc := by
            rw [hj0] at hdm
            omega
          refine ⟨by omega, by omega, ?_⟩
          rw [htl, hloceq]
          congr 1
          have h2 := hE1 (loc + 1) (by omega)
          rw [hj0] at h2
          simp only [Nat.zero_mul, Nat.zero_add, List.take_zero, Node.toListAll_nil,
            List.nil_append] at h2
          exact h2.symm
        · rw [if_neg hj0, if_neg (by simp)]
          dsimp only
          have hlocbl : loc % cap B BL h = loc % 2 ^ BL := by
            rw [← hmodbl]
            exact (Nat.mod_eq_of_lt hltbl).symm
          have hbody : loc + 1 - ts2 = loc / cap B BL h * cap B BL h := by
            omega
          refine ⟨rfl, ?_, by omega, ?_, ?_, ?_⟩
          · have h1 : cap B BL h ≤ loc / cap B BL h * cap B BL h :=
              Nat.le_mul_of_pos_left _ (by omega)
            omega
          · rw [hbody, htake_eq]
            exact wfReg_prefix_full hfull (by omega) hjle hcnt
          · rw [hbody, htake_eq, Node.toList_inner, ← htake_eq, hAeq]
          · rw [htl]
            congr 1
            rw [hbody]
            rw [show loc + 1 = loc / cap B BL h * cap B BL h + (loc % cap B BL h + 1)
              from by omega]
            have h3 := hE2 (loc % cap B BL h + 1) 0 (by omega)
            rw [Nat.add_zero, List.drop_zero] at h3
            exact h3.symm
      | some n2 =>
        dsimp only at hchspec ⊢
        obtain ⟨hsh2, hgebl, hts, hw2, htl2, htail2⟩ := hchspec
        have htsle : ts2 ≤ loc % cap B BL h + 1 := by
          have : loc % cap B BL h % 2 ^ BL ≤ loc % cap B BL h := Nat.mod_le _ _
          omega
        have hbody : loc + 1 - ts2
            = loc / cap B BL h * cap B BL h + (loc % cap B BL h + 1 - ts2) := by
          omega
        refine ⟨rfl, ?_, ?_, ?_, ?_, ?_⟩
        · have : 2 ^ BL ≤ loc % cap B BL h := hgebl
          have h2 : loc % cap B BL h ≤ loc := Nat.mod_le _ _
          omega
        · rw [hts, hmodbl]
        · rw [hbody, htake_eq]
          exact wfReg_prefix_part hfull hjle hw2 hcnt
        · rw [htake_eq, Node.toList_inner, Node.toListAll_append, toListAll_singleton,
            ← htake_eq, htl2, hbody, hE1 _ (by omega)]
        · rw [htail2]
          congr 1
          rw [hbody]
          rw [show loc + 1 = loc / cap B BL h * cap B BL h + (loc % cap B BL h + 1)
            from by omega]
          exact (hE2 (loc % cap B BL h + 1) (loc % cap B BL h + 1 - ts2) (by omega)).symm
theorem sliceR_any {B BL : Nat} {α : Type} {h : Nat} {n : Node α} {sz : Nat}
    (hw : WfAny B BL h n sz) (hB : 0 < B) :
    ∀ last lv, (1 ≤ h → lv = BL + B * (h - 1)) → last < sz →
    match sliceR B BL false h n lv last with
    | (_, none, ts, tl) =>
        last < 2 ^ BL ∧ ts = last + 1 ∧ tl = Node.leaf (n.toList.take (last + 1))
    | (sh2, some n2, ts, tl) =>
        sh2 = lv ∧ 0 < ts ∧ ts ≤ 2 ^ BL ∧ ts ≤ last ∧
        WfAny B BL h n2 (last + 1 - ts) ∧
        n2.toList = n.toList.take (last + 1 - ts) ∧
        tl = Node.leaf ((n.toList.take (last + 1)).drop (last + 1 - ts)) := by
  induction hw with
  | @reg h n sz hr hal =>
    intro last lv hlv hlast
    have hlen := wfReg_length hr
    have hblpos : (0:Nat) < 2 ^ BL := Nat.pos_pow_of_pos _ (by omega)
    have hsp := sliceR_reg hB h hr last last lv hlv hlast
      (Nat.mod_eq_of_lt (by omega))
    rcases hrec : sliceR B BL false h n lv last with ⟨sh2, on2, ts2, tl2⟩
    rw [hrec] at hsp
    cases on2 with
    | none => exact hsp
    | some n2 =>
      dsimp only at hsp ⊢
      obtain ⟨hsh2, hge, hts, hw2, htl2, htail2⟩ := hsp
      have hmbl : last % 2 ^ BL < 2 ^ BL := Nat.mod_lt _ hblpos
      have hdm2 := Nat.div_add_mod last (2 ^ BL)
      refine ⟨hsh2, by omega, by omega, by omega, ?_, htl2, htail2⟩
      refine WfAny.reg hw2 (fun _ => ?_)
      have hval : last + 1 - ts2 = 2 ^ BL * (last / 2 ^ BL) := by omega
      rw [hval]
      exact Nat.mul_mod_right _ _
  | @rel h cs ss hlen hch hbounds hpos hcnt ih =>
    intro last lv hlv hlast
    have hlv1 : lv = BL + B * h := by simpa using hlv (by omega)
    have hcap : (2 : Nat) ^ lv = cap B BL h := by rw [hlv1]; rfl
    have hblpos : (0:Nat) < 2 ^ BL := Nat.pos_pow_of_pos _ (by omega)
    obtain ⟨j, hjlen, hjle, hjlt⟩ := @locate ss _ (by simpa using hlast)
    have hjlencs : j < cs.length := by omega
    have hjss : j < ss.length := by omega
    have hsplit : (ss.take (j + 1)).sum = (ss.take j).sum + ss.getD j 0 :=
      take_sum_add ss j hjlen
    have hstart : last / 2 ^ lv % 2 ^ B = last / cap B BL h := by
      rw [hcap]
      apply Nat.mod_eq_of_lt
      have hsum : ss.sum ≤ ss.length * cap B BL h := by
        calc ss.sum ≤ ss.length • cap B BL h :=
              List.sum_le_card_nsmul _ _ (fun s hs => (hbounds s hs).2)
          _ = ss.length * cap B BL h := by simp
      have : last < 2 ^ B * cap B BL h := by
        have : ss.length * cap B BL h ≤ 2 ^ B * cap B BL h :=
          Nat.mul_le_mul_right _ (by omega)
        omega
      exact (Nat.div_lt_iff_lt_mul (cap_pos B BL h)).mpr (by omega)
    have hstartle : last / cap B BL h ≤ j := by
      have htb : (ss.take (j + 1)).sum ≤ (j + 1) * cap B BL h := by
        calc (ss.take (j + 1)).sum ≤ (ss.take (j + 1)).length • cap B BL h :=
              List.sum_le_card_nsmul _ _
                (fun s hs => (hbounds s (List.mem_of_mem_take hs)).2)
          _ = (ss.take (j + 1)).length * cap B BL h := by simp
          _ ≤ (j + 1) * cap B BL h := by
              exact Nat.mul_le_mul_right _ (by simp)
      have := (Nat.div_lt_iff_lt_mul (cap_pos B BL h)).mpr
        (by omega : last < (j + 1) * cap B BL h)
      omega
    have hkj : sizeIndex (cumSizes ss) last (last / 2 ^ lv % 2 ^ B) = j := by
      apply sizeIndex_eq (by rw [cumSizes_length]; omega)
      · rw [cumSizes_getD ss j hjlen]; omega
      · intro m hm hmj
        rw [cumSizes_getD ss m (by omega)]
        have := take_sum_mono ss (a := m + 1) (b := j) (by omega)
        omega
      · rw [hstart]; exact hstartle
    have hjz : j < (cs.zip ss).length := by
      rw [List.length_zip]; omega
    have hzget : (cs.zip ss)[j] = (cs[j], ss[j]) := List.getElem_zip
    have hzmem : (cs[j], ss[j]) ∈ cs.zip ss := by
      rw [← hzget]
      exact List.getElem_mem _
    have hssj : ss[j] = ss.getD j 0 := by
      rw [List.getD_eq_getElem?_getD, List.getElem?_eq_getElem (by omega : j < ss.length)]
      rfl
    obtain ⟨cj, hcj⟩ : ∃ cj, cs.get? j = some cj := ⟨_, List.get?_eq_get hjlencs⟩
    have hcjv : (cs[j] : Node α) = cj := by
      have h2 := List.get?_eq_getElem? cs j
      rw [hcj] at h2
      simp [List.getElem?_eq_getElem hjlencs] at h2
      exact h2.symm
    have hgetv : cs.get ⟨j, hjlencs⟩ = cj := hcjv
    have hgd : cs.getD j (.leaf []) = cj := by
      rw [List.getD_eq_getElem?_getD, ← List.get?_eq_getElem?, hcj]
      rfl
    have hidx2 : last - (if j = 0 then 0 else (cumSizes ss).getD (j - 1) 0)
        = last - (ss.take j).sum := by
      rcases Nat.eq_zero_or_pos j with h0 | h1
      · simp [h0]
      · have hj1 : j - 1 + 1 = j := Nat.succ_pred_eq_of_pos h1
        have hgd1 : (cumSizes ss).getD (j - 1) 0 = (ss.take j).sum := by
          rw [cumSizes_getD ss (j - 1) (by omega), hj1]
        have hne : j ≠ 0 := by omega
        rw [if_neg hne, hgd1]
    have hloc : last - (ss.take j).sum < ss.getD j 0 := by omega
    have hcjlen : cj.toList.length = ss.getD j 0 := by
      rw [← hssj, ← hcjv]
      exact (wfAny_length (hch _ hzmem)).1
    have hcjbd := hbounds (ss.getD j 0) (getD_mem_of_lt hjss)
    -- decomposition of the flattened list at child j
    have hsplit0 : (Node.relaxed cs (cumSizes ss)).toList
        = Node.toListAll (cs.take j) ++ (cj.toList
          ++ Node.toListAll (cs.drop (j + 1))) := by
      rw [Node.toList_relaxed, toListAll_split_at cs hjlencs, hgetv]
    have hAlen : (Node.toListAll (cs.take j)).length = (ss.take j).sum := by
      refine toListAll_length_of (by simp [List.length_take]; omega) ?_
      intro p hp
      exact (wfAny_length (hch p (zip_take_sub hp))).1
    have hE1 : ∀ r, r ≤ cj.toList.length →
        (Node.relaxed cs (cumSizes ss)).toList.take ((ss.take j).sum + r)
          = Node.toListAll (cs.take j) ++ cj.toList.take r := by
      intro r hr
      rw [hsplit0, ← hAlen, List.take_append, List.take_append_of_le_length hr]
    have hE2 : ∀ r q, r ≤ cj.toList.length →
        ((Node.relaxed cs (cumSizes ss)).toList.take ((ss.take j).sum + r)).drop
          ((ss.take j).sum + q) = (cj.toList.take r).drop q := by
      intro r q hr
      rw [hE1 r hr, ← hAlen, List.drop_append]
    have hAeq : Node.toListAll (cs.take j)
        = (Node.relaxed cs (cumSizes ss)).toList.take ((ss.take j).sum) := by
      have h2 := hE1 0 (by omega)
      simp only [Nat.add_zero, List.take_zero, List.append_nil] at h2
      exact h2.symm
    have hIH := ih (cs[j], ss[j]) hzmem (last - (ss.take j).sum) (lv - B)
      (fun h1 => lvl_step hlv1 h1) (by rw [hssj]; exact hloc)
    dsimp only at hIH
    rw [hcjv] at hIH
    rw [sliceR]
    rw [if_neg (by simp)]
    rw [hkj, hidx2, hgd]
    dsimp only
    rcases hrec : sliceR B BL false h cj (lv - B)
        (last - (ss.take j).sum) with ⟨sh2, on2, ts2, tl2⟩
    rw [hrec] at hIH
    cases on2 with
    | none =>
      dsimp only at hIH ⊢
      obtain ⟨hltbl, hts, htl⟩ := hIH
      by_cases hj0 : j = 0
      · rw [if_pos hj0]
        dsimp only
        have hsum0 : (ss.take j).sum = 0 := by rw [hj0]; simp
        refine ⟨by omega, by omega, ?_⟩
        rw [htl]
        congr 1
        have h2 := hE1 (last + 1) (by omega)
        rw [hsum0] at h2
        simp only [Nat.zero_add] at h2
        rw [h2, hj0]
        simp [Node.toListAll_nil]
      · rw [if_neg hj0, if_neg (by simp)]
        dsimp only
        have hsumpos : 0 < (ss.take j).sum := by
          have h1 : (ss.take 1).sum ≤ (ss.take j).sum := take_sum_mono ss (by omega)
          have h2 : (ss.take 1).sum = ss.getD 0 0 := by
            have := take_sum_add ss 0 (by omega)
            simpa using this
          have h3 := hbounds (ss.getD 0 0) (getD_mem_of_lt (by omega))
          omega
        have hbody : last + 1 - ts2 = (ss.take j).sum := by omega
        refine ⟨rfl, by omega, by omega, by omega, ?_, ?_, ?_⟩
        · rw [hbody, cumSizes_take]
          have hwf := wfAnyRel h (cs.take j) (ss.take j)
            (by simp [List.length_take]; omega)
            (fun p hp => hch p (zip_take_sub hp))
            (fun s hs => hbounds s (List.mem_of_mem_take hs))
            (by simp [List.length_take]; omega)
            (by rw [List.length_take]; omega)
          exact hwf
        · rw [Node.toList_relaxed, hbody]
          exact hAeq
        · rw [htl]
          congr 1
          rw [hbody]
          rw [show last + 1 = (ss.take j).sum + (last - (ss.take j).sum + 1)
            from by omega]
          have h3 := hE2 (last - (ss.take j).sum + 1) 0 (by omega)
          rw [Nat.add_zero, List.drop_zero] at h3
          exact h3.symm
    | some n2 =>
      dsimp only at hIH ⊢
      obtain ⟨hsh2, htspos, htsbl, htsle, hw2, htl2, htail2⟩ := hIH
      have hbody : last + 1 - ts2
          = (ss.take j).sum + (last - (ss.take j).sum + 1 - ts2) := by omega
      have htbl : (cumSizes ss).take j ++ [last + 1 - ts2]
          = cumSizes (ss.take j ++ [last - (ss.take j).sum + 1 - ts2]) := by
        rw [cumSizes_append_one, cumSizes_take]
        have h4 : last + 1 - ts2
            = (ss.take j).sum + (last - (ss.take j).sum + 1 - ts2) := by omega
        rw [h4]
      refine ⟨rfl, by omega, by omega, by omega, ?_, ?_, ?_⟩
      · rw [htbl]
        have hwf := wfAnyRel h
          (cs.take j ++ [n2])
          (ss.take j ++ [last - (ss.take j).sum + 1 - ts2])
          (by simp [List.length_take]; omega)
          (by
            intro p hp
            rw [List.zip_append (by simp [List.length_take]; omega)] at hp
            rcases List.mem_append.mp hp with hp | hp
            · exact hch p (zip_take_sub hp)
            · simp only [List.zip_cons_cons, List.zip_nil_right,
                List.mem_singleton] at hp
              rw [hp]
              exact hw2)
          (by
            intro s hs
            rcases List.mem_append.mp hs with hs | hs
            · exact hbounds s (List.mem_of_mem_take hs)
            · simp only [List.mem_singleton] at hs
              subst hs
              constructor
              · omega
              · have h4 : last - (ss.take j).sum + 1 - ts2 ≤ ss.getD j 0 := by omega
                omega)
          (by simp) (by simp [List.length_take]; omega)
        rw [List.sum_append, List.sum_singleton] at hwf
        have hval : (ss.take j).sum + (last - (ss.take j).sum + 1 - ts2)
            = last + 1 - ts2 := by omega
        rw [hval] at hwf
        exact hwf
      · rw [Node.toList_relaxed, Node.toListAll_append, toListAll_singleton, htl2,
          hbody, hE1 _ (by omega)]
      · rw [htail2]
        congr 1
        rw [hbody]
        rw [show last + 1 = (ss.take j).sum + (last - (ss.take j).sum + 1)
          from by omega]
        exact (hE2 (last - (ss.take j).sum + 1)
          (last - (ss.take j).sum + 1 - ts2) (by omega)).symm
theorem sliceR_top_reg {B BL : Nat} {α : Type} (hB : 0 < B) :
    ∀ h {n : Node α} {sz : Nat}, WfReg B BL h n sz →
    ∀ last lv, (1 ≤ h → lv = BL + B * (h - 1)) → last < sz →
    match sliceR B BL true h n lv last with
    | (_, none, ts, tl) =>
        last < 2 ^ BL ∧ ts = last + 1 ∧ tl = Node.leaf (n.toList.take (last + 1))
    | (sh2, some n2, ts, tl) =>
        ∃ h2, 1 ≤ h2 ∧ h2 ≤ h ∧ sh2 = BL + B * (h2 - 1) ∧
        0 < ts ∧ ts ≤ 2 ^ BL ∧ ts ≤ last ∧
        WfAny B BL h2 n2 (last + 1 - ts) ∧
        n2.toList = n.toList.take (last + 1 - ts) ∧
        tl = Node.leaf ((n.toList.take (last + 1)).drop (last + 1 - ts)) := by
  intro h
  induction h with
  | zero =>
    intro n sz hw last loc lv hloc
    cases hw with
    | leaf hx hpos hle =>
      rw [sliceR]
      dsimp only
      have hle2 : sz ≤ 2 ^ BL := by simpa [cap] using hle
      have hmod2 : last % 2 ^ BL = last := Nat.mod_eq_of_lt (by omega)
      refine ⟨by omega, by rw [hmod2], ?_⟩
      rw [leafData_leaf, Node.toList_leaf, hmod2]
  | succ h ih =>
    intro n sz hw last lv hlv hlast
    cases hw with
    | @inner _ cs0 cl szl hfull hreg hcnt =>
      have hlv1 : lv = BL + B * h := by simpa using hlv (by omega)
      have hcap : (2 : Nat) ^ lv = cap B BL h := by rw [hlv1]; rfl
      have hcappos := cap_pos B BL h
      have hblpos : (0:Nat) < 2 ^ BL := Nat.pos_pow_of_pos _ (by omega)
      have hble : 2 ^ BL ≤ cap B BL h := by
        rw [cap_split]
        nlinarith [Nat.pos_pow_of_pos (B * h) (show 0 < 2 by omega)]
      have hszl := wfReg_length hreg
      have hsz_le : cs0.length * cap B BL h + szl ≤ cap B BL (h + 1) := by
        rw [cap_succ]
        nlinarith [hszl.2.2]
      have hmod : last % cap B BL (h + 1) = last := Nat.mod_eq_of_lt (by omega)
      have hdm := Nat.div_add_mod last (cap B BL h)
      have hml := Nat.mod_lt last hcappos
      have hcm : cap B BL h * (last / cap B BL h)
          = (last / cap B BL h) * cap B BL h := mul_comm _ _
      have hjay : last / 2 ^ lv % 2 ^ B = last / cap B BL h := by
        conv_rhs => rw [show last = last % cap B BL (h + 1) from hmod.symm,
          cap_succ, mul_comm, Nat.mod_mul_right_div_self]
        rw [hcap]
      have hjle : last / cap B BL h ≤ cs0.length := by
        have h1 : last < (cs0.length + 1) * cap B BL h := by nlinarith [hszl.2.2]
        have := (Nat.div_lt_iff_lt_mul hcappos).mpr h1
        omega
      have hlocmod : last % cap B BL h = last % cap B BL h := rfl
      have hmodbl : last % cap B BL h % 2 ^ BL = last % 2 ^ BL :=
        Nat.mod_mod_of_dvd last (cap_dvd_pow_BL B BL h)
      have hidxcs : last / cap B BL h < (cs0 ++ [cl]).length := by
        simp only [List.length_append, List.length_cons, List.length_nil]
        omega
      have htake_eq : (cs0 ++ [cl]).take (last / cap B BL h)
          = cs0.take (last / cap B BL h) := List.take_append_of_le_length hjle
      obtain ⟨cj, hcj⟩ : ∃ cj, (cs0 ++ [cl]).get? (last / cap B BL h) = some cj :=
        ⟨_, List.get?_eq_get hidxcs⟩
      have hgd : (cs0 ++ [cl]).getD (last / cap B BL h) (.leaf []) = cj := by
        rw [List.getD_eq_getElem?_getD, ← List.get?_eq_getElem?, hcj]
        rfl
      have hgetv : (cs0 ++ [cl]).get ⟨last / cap B BL h, hidxcs⟩ = cj := by
        have h2 := List.get?_eq_get hidxcs
        rw [hcj] at h2
        exact (Option.some_inj.mp h2).symm
      obtain ⟨szc, hcw, hltc⟩ :
          ∃ szc, WfReg B BL h cj szc ∧ last % cap B BL h < szc := by
        rcases Nat.lt_or_ge (last / cap B BL h) cs0.length with hjlt | hjge
        · have hcj0 : cs0.get? (last / cap B BL h) = some cj := by
            rw [← List.get?_append hjlt, hcj]
          have hcjmem : cj ∈ cs0 := List.get?_mem hcj0
          exact ⟨cap B BL h, wfFull_wfReg (hfull cj hcjmem), Nat.mod_lt _ hcappos⟩
        · have hjk : last / cap B BL h = cs0.length := le_antisymm hjle hjge
          have hcjlast : (cs0 ++ [cl]).get? (last / cap B BL h) = some cl := by
            rw [hjk, List.get?_append_right (le_refl _)]
            simp
          have hcjeq : cj = cl := by
            rw [hcj] at hcjlast
            exact Option.some_inj.mp hcjlast
          subst hcjeq
          refine ⟨szl, hreg, ?_⟩
          rw [← hjk] at hlast
          omega
      have hcjlen : cj.toList.length = szc := (wfReg_length hcw).1
      have hsplit0 : (Node.inner (cs0 ++ [cl])).toList
          = Node.toListAll ((cs0 ++ [cl]).take (last / cap B BL h)) ++ (cj.toList
            ++ Node.toListAll ((cs0 ++ [cl]).drop (last / cap B BL h + 1))) := by
        rw [Node.toList_inner, toListAll_split_at (cs0 ++ [cl]) hidxcs, hgetv]
      have hAlen : (Node.toListAll ((cs0 ++ [cl]).take (last / cap B BL h))).length
          = last / cap B BL h * cap B BL h := by
        rw [htake_eq]
        rw [toListAll_length_const
          (fun c hc => wfFull_length (hfull c (List.mem_of_mem_take hc)))]
        rw [List.length_take, min_eq_left hjle]
      have hE1 : ∀ r, r ≤ cj.toList.length →
          (Node.inner (cs0 ++ [cl])).toList.take (last / cap B BL h * cap B BL h + r)
            = Node.toListAll ((cs0 ++ [cl]).take (last / cap B BL h))
              ++ cj.toList.take r := by
        intro r hr
        rw [hsplit0, ← hAlen, List.take_append, List.take_append_of_le_length hr]
      have hE2 : ∀ r q, r ≤ cj.toList.length →
          ((Node.inner (cs0 ++ [cl])).toList.take
              (last / cap B BL h * cap B BL h + r)).drop
            (last / cap B BL h * cap B BL h + q) = (cj.toList.take r).drop q := by
        intro r q hr
        rw [hE1 r hr, ← hAlen, List.drop_append]
      have hAeq : Node.toListAll ((cs0 ++ [cl]).take (last / cap B BL h))
          = (Node.inner (cs0 ++ [cl])).toList.take
              (last / cap B BL h * cap B BL h) := by
        have h2 := hE1 0 (by omega)
        simp only [Nat.add_zero, List.take_zero, List.append_nil] at h2
        exact h2.symm
      rw [sliceR]
      rw [hjay, hgd]
      by_cases hj0 : last / cap B BL h = 0
      · -- collapse: the whole slice lives in the first child
        rw [if_pos (by simp [hj0])]
        rw [hj0] at hgd
        rw [hgd]
        have hlastlt : last < szc := by
          rw [hj0] at hdm
          omega
        have hIH := ih hcw last (lv - B) (fun h1 => lvl_step hlv1 h1) hlastlt
        rcases hrec : sliceR B BL true h cj (lv - B) last with ⟨sh2, on2, ts2, tl2⟩
        rw [hrec] at hIH
        have hpref : ∀ r, r ≤ last + 1 →
            cj.toList.take r = (Node.inner (cs0 ++ [cl])).toList.take r := by
          intro r hr
          have h2 := hE1 r (by omega)
          rw [hj0] at h2
          simp only [Nat.zero_mul, Nat.zero_add, List.take_zero, Node.toListAll_nil,
            List.nil_append] at h2
          exact h2.symm
        cases on2 with
        | none =>
          dsimp only at hIH ⊢
          obtain ⟨hltbl, hts, htl⟩ := hIH
          refine ⟨hltbl, hts, ?_⟩
          rw [htl, hpref (last + 1) (by omega)]
        | some n2 =>
          dsimp only at hIH ⊢
          obtain ⟨h2, hh1, hh2, hsh2, htspos, htsbl, htsle, hw2, htl2, htail2⟩ := hIH
          refine ⟨h2, hh1, by omega, hsh2, htspos, htsbl, htsle, hw2, ?_, ?_⟩
          · rw [htl2, hpref _ (by omega)]
          · rw [htail2, hpref _ (by omega)]
      · -- no collapse at this level: the else path with a plain child slice
        rw [if_neg (by simp [hj0])]
        have hchspec := sliceR_reg hB h hcw last (last % cap B BL h) (lv - B)
          (fun h1 => lvl_step hlv1 h1) hltc rfl
        rcases hrec : sliceR B BL false h cj (lv - B) last with ⟨sh2, on2, ts2, tl2⟩
        rw [hrec] at hchspec
        cases on2 with
        | none =>
          dsimp only at hchspec ⊢
          obtain ⟨hltbl, hts, htl⟩ := hchspec
          rw [if_neg hj0]
          have hlocbl : last % cap B BL h = last % 2 ^ BL := by
            rw [← hmodbl]
            exact (Nat.mod_eq_of_lt hltbl).symm
          have hbody : last + 1 - ts2 = last / cap B BL h * cap B BL h := by
            omega
          by_cases hcoll : last / cap B BL h = 1 ∧ BL < lv
          · -- adopt the single full child to the left of the cut
            rw [if_pos (by simp [hcoll.1, hcoll.2])]
            dsimp only
            have hK1 : 0 < cs0.length := by omega
            obtain ⟨c0, hc0⟩ : ∃ c0, cs0.get? 0 = some c0 :=
              ⟨_, List.get?_eq_get hK1⟩
            have hc0mem : c0 ∈ cs0 := List.get?_mem hc0
            have hgd0 : (cs0 ++ [cl]).getD 0 (.leaf []) = c0 := by
              rw [List.getD_eq_getElem?_getD, ← List.get?_eq_getElem?,
                List.get?_append hK1, hc0]
              rfl
            rw [hgd0]
            have hh1 : 1 ≤ h := by
              by_contra hcon
              push_neg at hcon
              have : h = 0 := by omega
              rw [this] at hlv1
              omega
            refine ⟨h, hh1, by omega, lvl_step hlv1 hh1, by omega, by omega,
              ?_, ?_, ?_, ?_⟩
            · have := hcoll.1
              have h3 : cap B BL h ≤ last := by
                rw [← Nat.one_mul (cap B BL h)]
                calc 1 * cap B BL h = cap B BL h * 1 := by ring
                  _ ≤ cap B BL h * (last / cap B BL h) :=
                      Nat.mul_le_mul_left _ (by omega)
                  _ ≤ last := by omega
              omega
            · have hbody2 : last + 1 - ts2 = cap B BL h := by
                rw [hbody, hcoll.1]
                omega
              rw [hbody2]
              exact WfAny.reg (wfFull_wfReg (hfull c0 hc0mem))
                (fun _ => Nat.mod_eq_zero_of_dvd (cap_dvd_pow_BL B BL h))
            · have hbody2 : last + 1 - ts2 = cap B BL h := by
                rw [hbody, hcoll.1]
                omega
              rw [hbody2]
              have hc0first : Node.toListAll ((cs0 ++ [cl]).take 1) = c0.toList := by
                have hdec1 : (cs0 ++ [cl]).take 1 = [c0] := by
                  cases cs0 with
                  | nil => simp at hK1
                  | cons a t =>
                    simp only [List.cons_append, List.take_succ_cons, List.take_zero]
                    have : a = c0 := by
                      simp only [List.get?_cons_zero] at hc0
                      exact Option.some_inj.mp hc0
                    rw [this]
                rw [hdec1, toListAll_singleton]
              have h5 := hAeq
              rw [hcoll.1, Nat.one_mul] at h5
              rw [← hc0first]
              exact h5
            · rw [htl]
              congr 1
              rw [hbody]
              rw [show last + 1 = last / cap B BL h * cap B BL h
                  + (last % cap B BL h + 1) from by omega]
              have h3 := hE2 (last % cap B BL h + 1) 0 (by omega)
              rw [Nat.add_zero, List.drop_zero] at h3
              exact h3.symm
          · rw [if_neg (by
              intro hcon
              exact hcoll ⟨hcon.2.1, hcon.2.2⟩)]
            dsimp only
            refine ⟨h + 1, by omega, by omega, by simpa using hlv1, by omega, ?_, ?_,
              ?_, ?_, ?_⟩
            · have h3 : last % 2 ^ BL < 2 ^ BL := Nat.mod_lt _ hblpos
              omega
            · have h3 : cap B BL h ≤ last / cap B BL h * cap B BL h :=
                Nat.le_mul_of_pos_left _ (by omega)
              omega
            · rw [hbody, htake_eq]
              refine WfAny.reg (wfReg_prefix_full hfull (by omega) hjle hcnt)
                (fun _ => ?_)
              exact Nat.mod_eq_zero_of_dvd
                (Dvd.dvd.mul_left (cap_dvd_pow_BL B BL h) _)
            · rw [hbody, htake_eq, Node.toList_inner, ← htake_eq, hAeq]
            · rw [htl]
              congr 1
              rw [hbody]
              rw [show last + 1 = last / cap B BL h * cap B BL h
                  + (last % cap B BL h + 1) from by omega]
              have h3 := hE2 (last % cap B BL h + 1) 0 (by omega)
              rw [Nat.add_zero, List.drop_zero] at h3
              exact h3.symm
        | some n2 =>
          dsimp only at hchspec ⊢
          obtain ⟨hsh2, hgebl, hts, hw2, htl2, htail2⟩ := hchspec
          have htsle : ts2 ≤ last % cap B BL h + 1 := by
            have : last % cap B BL h % 2 ^ BL ≤ last % cap B BL h := Nat.mod_le _ _
            omega
          have hbody : last + 1 - ts2
              = last / cap B BL h * cap B BL h + (last % cap B BL h + 1 - ts2) := by
            omega
          refine ⟨h + 1, by omega, by omega, by simpa using hlv1, by omega, ?_, ?_,
            ?_, ?_, ?_⟩
          · have h3 : last % 2 ^ BL < 2 ^ BL := Nat.mod_lt _ hblpos
            omega
          · have h3 : 2 ^ BL ≤ last % cap B BL h := hgebl
            have h4 : last % cap B BL h ≤ last := Nat.mod_le _ _
            omega
          · rw [hbody, htake_eq]
            refine WfAny.reg (wfReg_prefix_part hfull hjle hw2 hcnt) (fun _ => ?_)
            rw [← hbody]
            have hval : last + 1 - ts2 = 2 ^ BL * (last / 2 ^ BL) := by
              have hdm2 := Nat.div_add_mod last (2 ^ BL)
              omega
            rw [hval]
            exact Nat.mul_mod_right _ _
          · rw [htake_eq, Node.toList_inner, Node.toListAll_append,
              toListAll_singleton, ← htake_eq, htl2, hbody, hE1 _ (by omega)]
          · rw [htail2]
            congr 1
            rw [hbody]
            rw [show last + 1 = last / cap B BL h * cap B BL h
                + (last % cap B BL h + 1) from by omega]
            exact (hE2 (last % cap B BL h + 1)
              (last % cap B BL h + 1 - ts2) (by omega)).symm

/-- `slice_right` with the `Collapse` flag on any well-formed subtree: the
cut either collapses into a left spine (returning a root of some lower
height `h2` together with its shift) or keeps the node's level, and in all
cases the returned body and tail carve the prefix `take (last + 1)` of the
subtree's elements at a leaf-aligned boundary. -/
theorem sliceR_top {B BL : Nat} {α : Type} {h : Nat} {n : Node α} {sz : Nat}
    (hw : WfAny B BL h n sz) (hB : 0 < B) :
    ∀ last lv, (1 ≤ h → lv = BL + B * (h - 1)) → last < sz →
    match sliceR B BL true h n lv last with
    | (_, none, ts, tl) =>
        last < 2 ^ BL ∧ ts = last + 1 ∧ tl = Node.leaf (n.toList.take (last + 1))
    | (sh2, some n2, ts, tl) =>
        ∃ h2, 1 ≤ h2 ∧ h2 ≤ h ∧ sh2 = BL + B * (h2 - 1) ∧
        0 < ts ∧ ts ≤ 2 ^ BL ∧ ts ≤ last ∧
        WfAny B BL h2 n2 (last + 1 - ts) ∧
        n2.toList = n.toList.take (last + 1 - ts) ∧
        tl = Node.leaf ((n.toList.take (last + 1)).drop (last + 1 - ts)) := by
  induction hw with
  | @reg h n sz hr hal =>
    intro last lv hlv hlast
    exact sliceR_top_reg hB h hr last lv hlv hlast
  | @rel h cs ss hlen hch hbounds hpos hcnt ih =>
    intro last lv hlv hlast
    have hlv1 : lv = BL + B * h := by simpa using hlv (by omega)
    have hcap : (2 : Nat) ^ lv = cap B BL h := by rw [hlv1]; rfl
    have hblpos : (0:Nat) < 2 ^ BL := Nat.pos_pow_of_pos _ (by omega)
    obtain ⟨j, hjlen, hjle, hjlt⟩ := @locate ss _ (by simpa using hlast)
    have hjlencs : j < cs.length := by omega
    have hjss : j < ss.length := by omega
    have hsplit : (ss.take (j + 1)).sum = (ss.take j).sum + ss.getD j 0 :=
      take_sum_add ss j hjlen
    have hstart : last / 2 ^ lv % 2 ^ B = last / cap B BL h := by
      rw [hcap]
      apply Nat.mod_eq_of_lt
      have hsum : ss.sum ≤ ss.length * cap B BL h := by
        calc ss.sum ≤ ss.length • cap B BL h :=
              List.sum_le_card_nsmul _ _ (fun s hs => (hbounds s hs).2)
          _ = ss.length * cap B BL h := by simp
      have : last < 2 ^ B * cap B BL h := by
        have : ss.length * cap B BL h ≤ 2 ^ B * cap B BL h :=
          Nat.mul_le_mul_right _ (by omega)
        omega
      exact (Nat.div_lt_iff_lt_mul (cap_pos B BL h)).mpr (by omega)
    have hstartle : last / cap B BL h ≤ j := by
      have htb : (ss.take (j + 1)).sum ≤ (j + 1) * cap B BL h := by
        calc (ss.take (j + 1)).sum ≤ (ss.take (j + 1)).length • cap B BL h :=
              List.sum_le_card_nsmul _ _
                (fun s hs => (hbounds s (List.mem_of_mem_take hs)).2)
          _ = (ss.take (j + 1)).length * cap B BL h := by simp
          _ ≤ (j + 1) * cap B BL h := by
              exact Nat.mul_le_mul_right _ (by simp)
      have := (Nat.div_lt_iff_lt_mul (cap_pos B BL h)).mpr
        (by omega : last < (j + 1) * cap B BL h)
      omega
    have hkj : sizeIndex (cumSizes ss) last (last / 2 ^ lv % 2 ^ B) = j := by
      apply sizeIndex_eq (by rw [cumSizes_length]; omega)
      · rw [cumSizes_getD ss j hjlen]; omega
      · intro m hm hmj
        rw [cumSizes_getD ss m (by omega)]
        have := take_sum_mono ss (a := m + 1) (b := j) (by omega)
        omega
      · rw [hstart]; exact hstartle
    have hjz : j < (cs.zip ss).length := by
      rw [List.length_zip]; omega
    have hzget : (cs.zip ss)[j] = (cs[j], ss[j]) := List.getElem_zip
    have hzmem : (cs[j], ss[j]) ∈ cs.zip ss := by
      rw [← hzget]
      exact List.getElem_mem _
    have hssj : ss[j] = ss.getD j 0 := by
      rw [List.getD_eq_getElem?_getD, List.getElem?_eq_getElem (by omega : j < ss.length)]
      rfl
    obtain ⟨cj, hcj⟩ : ∃ cj, cs.get? j = some cj := ⟨_, List.get?_eq_get hjlencs⟩
    have hcjv : (cs[j] : Node α) = cj := by
      have h2 := List.get?_eq_getElem? cs j
      rw [hcj] at h2
      simp [List.getElem?_eq_getElem hjlencs] at h2
      exact h2.symm
    have hgetv : cs.get ⟨j, hjlencs⟩ = cj := hcjv
    have hgd : cs.getD j (.leaf []) = cj := by
      rw [List.getD_eq_getElem?_getD, ← List.get?_eq_getElem?, hcj]
      rfl
    have hidx2 : last - (if j = 0 then 0 else (cumSizes ss).getD (j - 1) 0)
        = last - (ss.take j).sum := by
      rcases Nat.eq_zero_or_pos j with h0 | h1
      · simp [h0]
      · have hj1 : j - 1 + 1 = j := Nat.succ_pred_eq_of_pos h1
        have hgd1 : (cumSizes ss).getD (j - 1) 0 = (ss.take j).sum := by
          rw [cumSizes_getD ss (j - 1) (by omega), hj1]
        have hne : j ≠ 0 := by omega
        rw [if_neg hne, hgd1]
    have hloc : last - (ss.take j).sum < ss.getD j 0 := by omega
    have hcjlen : cj.toList.length = ss.getD j 0 := by
      rw [← hssj, ← hcjv]
      exact (wfAny_length (hch _ hzmem)).1
    have hcjbd := hbounds (ss.getD j 0) (getD_mem_of_lt hjss)
    have hsplit0 : (Node.relaxed cs (cumSizes ss)).toList
        = Node.toListAll (cs.take j) ++ (cj.toList
          ++ Node.toListAll (cs.drop (j + 1))) := by
      rw [Node.toList_relaxed, toListAll_split_at cs hjlencs, hgetv]
    have hAlen : (Node.toListAll (cs.take j)).length = (ss.take j).sum := by
      refine toListAll_length_of (by simp [List.length_take]; omega) ?_
      intro p hp
      exact (wfAny_length (hch p (zip_take_sub hp))).1
    have hE1 : ∀ r, r ≤ cj.toList.length →
        (Node.relaxed cs (cumSizes ss)).toList.take ((ss.take j).sum + r)
          = Node.toListAll (cs.take j) ++ cj.toList.take r := by
      intro r hr
      rw [hsplit0, ← hAlen, List.take_append, List.take_append_of_le_length hr]
    have hE2 : ∀ r q, r ≤ cj.toList.length →
        ((Node.relaxed cs (cumSizes ss)).toList.take ((ss.take j).sum + r)).drop
          ((ss.take j).sum + q) = (cj.toList.take r).drop q := by
      intro r q hr
      rw [hE1 r hr, ← hAlen, List.drop_append]
    have hAeq : Node.toListAll (cs.take j)
        = (Node.relaxed cs (cumSizes ss)).toList.take ((ss.take j).sum) := by
      have h2 := hE1 0 (by omega)
      simp only [Nat.add_zero, List.take_zero, List.append_nil] at h2
      exact h2.symm
    rw [sliceR]
    rw [hkj]
    by_cases hj0 : j = 0
    · -- the cut falls in the first slot: collapse into child 0
      rw [if_pos (by simp [hj0])]
      subst hj0
      rw [hgd]
      have hz0sum : ((ss.take 0).sum : Nat) = 0 := by simp
      have hlast0 : last < ss.getD 0 0 := by omega
      have hIH := ih (cs[0], ss[0]) hzmem last (lv - B)
        (fun h1 => lvl_step hlv1 h1) (by rw [hssj]; exact hlast0)
      dsimp only at hIH
      rw [hcjv] at hIH
      have hpref : ∀ r, r ≤ last + 1 →
          cj.toList.take r = (Node.relaxed cs (cumSizes ss)).toList.take r := by
        intro r hr
        have h2 := hE1 r (by rw [hcjlen]; omega)
        simpa using h2.symm
      rcases hrec : sliceR B BL true h cj (lv - B) last with ⟨sh2, on2, ts2, tl2⟩
      rw [hrec] at hIH
      cases on2 with
      | none =>
        dsimp only at hIH ⊢
        obtain ⟨hltbl, hts, htl⟩ := hIH
        refine ⟨hltbl, hts, ?_⟩
        rw [htl, hpref (last + 1) (le_refl _)]
      | some n2 =>
        dsimp only at hIH ⊢
        obtain ⟨h2, hh1, hh2le, hsh2, htspos, htsbl, htsle, hw2, htl2, htail2⟩ := hIH
        refine ⟨h2, hh1, by omega, hsh2, htspos, htsbl, htsle, hw2, ?_, ?_⟩
        · rw [htl2, hpref _ (by omega)]
        · rw [htail2, hpref (last + 1) (le_refl _)]
    · -- the cut falls past the first slot: the plain slice of child j
      rw [if_neg (by simp [hj0])]
      rw [hidx2, hgd]
      dsimp only
      have hcwf : WfAny B BL h cj (ss.getD j 0) := by
        have h2 := hch _ hzmem
        rw [hcjv, hssj] at h2
        exact h2
      have hchspec := sliceR_any hcwf hB (last - (ss.take j).sum) (lv - B)
        (fun h1 => lvl_step hlv1 h1) hloc
      rcases hrec : sliceR B BL false h cj (lv - B)
          (last - (ss.take j).sum) with ⟨sh2, on2, ts2, tl2⟩
      rw [hrec] at hchspec
      cases on2 with
      | none =>
        dsimp only at hchspec ⊢
        obtain ⟨hltbl, hts, htl⟩ := hchspec
        rw [if_neg hj0]
        have hsumpos : 0 < (ss.take j).sum := by
          have h1 : (ss.take 1).sum ≤ (ss.take j).sum := take_sum_mono ss (by omega)
          have h2 : (ss.take 1).sum = ss.getD 0 0 := by
            have := take_sum_add ss 0 (by omega)
            simpa using this
          have h3 := hbounds (ss.getD 0 0) (getD_mem_of_lt (by omega))
          omega
        by_cases hadopt : j = 1 ∧ BL < lv
        · -- adopt the single whole child to the left of the cut
          rw [if_pos (by simp [hadopt.1, hadopt.2])]
          dsimp only
          obtain ⟨c0, hc0⟩ : ∃ c0, cs.get? 0 = some c0 :=
            ⟨_, List.get?_eq_get hpos⟩
          have hgd0 : cs.getD 0 (.leaf []) = c0 := by
            rw [List.getD_eq_getElem?_getD, ← List.get?_eq_getElem?, hc0]
            rfl
          rw [hgd0]
          have hc0v : (cs[0] : Node α) = c0 := by
            have h2 := List.get?_eq_getElem? cs 0
            rw [hc0] at h2
            simp [List.getElem?_eq_getElem hpos] at h2
            exact h2.symm
          have hz0 : (0:Nat) < ss.length := by omega
          have hs0v : (ss[0] : Nat) = ss.getD 0 0 := by
            rw [List.getD_eq_getElem?_getD, List.getElem?_eq_getElem hz0]
            rfl
          have hz0j : (0:Nat) < (cs.zip ss).length := by
            rw [List.length_zip]; omega
          have hz0get : (cs.zip ss)[0] = (cs[0], ss[0]) := List.getElem_zip
          have hz0mem : ((cs[0] : Node α), (ss[0] : Nat)) ∈ cs.zip ss := by
            rw [← hz0get]
            exact List.getElem_mem _
          have hc0wf : WfAny B BL h c0 (ss.getD 0 0) := by
            have h2 := hch _ hz0mem
            rw [hc0v, hs0v] at h2
            exact h2
          have hh1 : 1 ≤ h := by
            rcases Nat.eq_zero_or_pos h with h0 | h1
            · rw [h0] at hlv1
              omega
            · exact h1
          have hs1 : (ss.take 1).sum = ss.getD 0 0 := by
            have := take_sum_add ss 0 (by omega)
            simpa using this
          have hsj1 : (ss.take j).sum = ss.getD 0 0 := by
            rw [hadopt.1, hs1]
          have he : last + 1 - ts2 = ss.getD 0 0 := by omega
          refine ⟨h, hh1, by omega, lvl_step hlv1 hh1, by omega, by omega,
            by omega, ?_, ?_, ?_⟩
          · rw [he]
            exact hc0wf
          · rw [he]
            have hcs1 : cs.take 1 = [c0] := by
              cases cs with
              | nil => simp at hpos
              | cons a t =>
                simp only [List.take_succ_cons, List.take_zero]
                have ha : a = c0 := by
                  simp only [List.get?_cons_zero] at hc0
                  exact Option.some_inj.mp hc0
                rw [ha]
            have h5 := hAeq
            rw [hadopt.1, hcs1, toListAll_singleton, hs1] at h5
            exact h5
          · have hlt1 : last - (ss.take j).sum + 1 ≤ cj.toList.length := by
              rw [hcjlen]; omega
            have h6 := hE2 (last - (ss.take j).sum + 1) 0 hlt1
            rw [Nat.add_zero, List.drop_zero] at h6
            have h7 : (ss.take j).sum + (last - (ss.take j).sum + 1) = last + 1 := by
              omega
            rw [h7] at h6
            have h8 : last + 1 - ts2 = (ss.take j).sum := by omega
            rw [htl, h8]
            exact congrArg Node.leaf h6.symm
        · -- keep the level: the node truncated to the first j slots
          rw [if_neg (by
            intro hcon
            exact hadopt ⟨hcon.2.1, hcon.2.2⟩)]
          dsimp only
          have hbody : last + 1 - ts2 = (ss.take j).sum := by omega
          refine ⟨h + 1, by omega, le_refl _, by simpa using hlv1, by omega,
            by omega, by omega, ?_, ?_, ?_⟩
          · rw [hbody, cumSizes_take]
            have hwf := wfAnyRel h (cs.take j) (ss.take j)
              (by simp [List.length_take]; omega)
              (fun p hp => hch p (zip_take_sub hp))
              (fun s hs => hbounds s (List.mem_of_mem_take hs))
              (by simp [List.length_take]; omega)
              (by rw [List.length_take]; omega)
            exact hwf
          · rw [Node.toList_relaxed, hbody]
            exact hAeq
          · rw [htl]
            congr 1
            rw [hbody]
            rw [show last + 1 = (ss.take j).sum + (last - (ss.take j).sum + 1)
              from by omega]
            have h3 := hE2 (last - (ss.take j).sum + 1) 0 (by omega)
            rw [Nat.add_zero, List.drop_zero] at h3
            exact h3.symm
      | some n2 =>
        dsimp only at hchspec ⊢
        obtain ⟨hsh2, htspos, htsbl, htsle, hw2, htl2, htail2⟩ := hchspec
        have hbody : last + 1 - ts2
            = (ss.take j).sum + (last - (ss.take j).sum + 1 - ts2) := by omega
        have htbl : (cumSizes ss).take j ++ [last + 1 - ts2]
            = cumSizes (ss.take j ++ [last - (ss.take j).sum + 1 - ts2]) := by
          rw [cumSizes_append_one, cumSizes_take]
          have h4 : last + 1 - ts2
              = (ss.take j).sum + (last - (ss.take j).sum + 1 - ts2) := by omega
          rw [h4]
        refine ⟨h + 1, by omega, le_refl _, by simpa using hlv1, by omega,
          by omega, by omega, ?_, ?_, ?_⟩
        · rw [htbl]
          have hwf := wfAnyRel h
            (cs.take j ++ [n2])
            (ss.take j ++ [last - (ss.take j).sum + 1 - ts2])
            (by simp [List.length_take]; omega)
            (by
              intro p hp
              rw [List.zip_append (by simp [List.length_take]; omega)] at hp
              rcases List.mem_append.mp hp with hp | hp
              · exact hch p (zip_take_sub hp)
              · simp only [List.zip_cons_cons, List.zip_nil_right,
                  List.mem_singleton] at hp
                rw [hp]
                exact hw2)
            (by
              intro s hs
              rcases List.mem_append.mp hs with hs | hs
              · exact hbounds s (List.mem_of_mem_take hs)
              · simp only [List.mem_singleton] at hs
                subst hs
                constructor
                · omega
                · have h4 : last - (ss.take j).sum + 1 - ts2 ≤ ss.getD j 0 := by
                    omega
                  omega)
            (by simp) (by simp [List.length_take]; omega)
          rw [List.sum_append, List.sum_singleton] at hwf
          have hval : (ss.take j).sum + (last - (ss.take j).sum + 1 - ts2)
              = last + 1 - ts2 := by omega
          rw [hval] at hwf
          exact hwf
        · rw [Node.toList_relaxed, Node.toListAll_append, toListAll_singleton,
            htl2, hbody, hE1 _ (by omega)]
        · rw [htail2]
          congr 1
          rw [hbody]
          rw [show last + 1 = (ss.take j).sum + (last - (ss.take j).sum + 1)
            from by omega]
          exact (hE2 (last - (ss.take j).sum + 1)
            (last - (ss.take j).sum + 1 - ts2) (by omega)).symm

theorem tailOffset_mk {α : Type} (BL sz sh : Nat) (root tail : Node α) :
    tailOffset BL (⟨sz, sh, root, tail⟩ : RRB α)
      = match root.relaxedOf with
        | some szs => szs.getD (szs.length - 1) 0
        | none => if sz ≠ 0 then (sz - 1) - (sz - 1) % 2 ^ BL else 0 := rfl

theorem sub_mod_aligned {bl m x : Nat} (hal : m % 2 ^ bl = 0) (h1 : m ≤ x)
    (h2 : x < m + 2 ^ bl) : x - x % 2 ^ bl = m := by
  obtain ⟨q, hq⟩ := Nat.dvd_of_mod_eq_zero hal
  have hx : x = 2 ^ bl * q + (x - m) := by omega
  have hm : x % 2 ^ bl = x - m := by
    calc x % 2 ^ bl = (2 ^ bl * q + (x - m)) % 2 ^ bl := by rw [← hx]
      _ = (x - m) % 2 ^ bl := Nat.mul_add_mod _ _ _
      _ = x - m := Nat.mod_eq_of_lt (by omega)
  omega

theorem wfT_off_aligned {B BL : Nat} {α : Type} {t : RRB α} (hw : WfT B BL t)
    (hrel : t.root.relaxedOf = none) : tailOffset BL t % 2 ^ BL = 0 := by
  rcases hw.rootWf with ⟨h0, _, _⟩ | hany
  · rw [h0]
    simp
  · exact (wfAny_reg_inv hany hrel).2
      (by rw [hRoot]; exact Nat.succ_le_succ (Nat.zero_le _))

/-- `rrbtree::take` preserves the façade invariant and keeps exactly the
first `n` elements. -/
theorem take_wf {B BL : Nat} {α : Type} {t : RRB α} (hB : 0 < B)
    (hw : WfT B BL t) (n : Nat) :
    WfT B BL (t.take B BL n) ∧ (t.take B BL n).toList = t.toList.take n := by
  have hblpos : (0:Nat) < 2 ^ BL := Nat.pos_pow_of_pos _ (by omega)
  have hoffle := wfT_offLe hw
  have hrootlen := wfT_root_length hw
  have htaillen := wfT_tailLen hw
  have htailLe := hw.tailLe
  rw [RRB.take]
  by_cases hn0 : n = 0
  · rw [if_pos hn0]
    subst hn0
    refine ⟨wfT_empty, ?_⟩
    simp [emptyRRB, RRB.toList, Node.toList_inner, Node.toListAll_nil,
      Node.toList_leaf]
  · rw [if_neg hn0]
    by_cases hge : t.size ≤ n
    · rw [if_pos hge]
      refine ⟨hw, ?_⟩
      rw [List.take_of_length_le (by rw [wfT_toList_length hw]; omega)]
    · rw [if_neg hge]
      by_cases hofflt : tailOffset BL t < n
      · -- the cut lands inside the tail: truncate the tail buffer
        rw [if_pos hofflt]
        have hto' : tailOffset BL (⟨n, t.shift, t.root,
            Node.leaf (t.tail.leafData.take (n - tailOffset BL t))⟩ : RRB α)
            = tailOffset BL t := by
          rw [tailOffset_mk, tailOffset]
          cases hrel : t.root.relaxedOf with
          | some szs => rfl
          | none =>
            show (if n ≠ 0 then (n - 1) - (n - 1) % 2 ^ BL else 0)
                = (if t.size ≠ 0 then (t.size - 1) - (t.size - 1) % 2 ^ BL else 0)
            rw [if_pos hn0, if_pos (show t.size ≠ 0 from by omega)]
            have h1 := wfT_off_aligned hw hrel
            have e1 : (n - 1) - (n - 1) % 2 ^ BL = tailOffset BL t :=
              sub_mod_aligned h1 (by omega) (by omega)
            have e2 : (t.size - 1) - (t.size - 1) % 2 ^ BL = tailOffset BL t :=
              sub_mod_aligned h1 (by omega) (by omega)
            omega
        constructor
        · refine ⟨hw.shiftD, rfl, ?_, ?_, ?_, ?_⟩
          · rw [hto']
            show n = tailOffset BL t
              + (t.tail.leafData.take (n - tailOffset BL t)).length
            rw [List.length_take]
            omega
          · show (t.tail.leafData.take (n - tailOffset BL t)).length ≤ 2 ^ BL
            rw [List.length_take]
            omega
          · intro _
            show (t.tail.leafData.take (n - tailOffset BL t)).length ≠ 0
            rw [List.length_take]
            omega
          · rcases hw.rootWf with ⟨h0, hroot, hshift⟩ | hany2
            · exact Or.inl ⟨by rw [hto']; exact h0, hroot, hshift⟩
            · refine Or.inr ?_
              show WfAny B BL (hRoot B BL t.shift) t.root (tailOffset BL
                (⟨n, t.shift, t.root,
                  Node.leaf (t.tail.leafData.take (n - tailOffset BL t))⟩ : RRB α))
              rw [hto']
              exact hany2
        · show t.root.toList ++ (Node.leaf
              (t.tail.leafData.take (n - tailOffset BL t))).toList
            = t.toList.take n
          rw [Node.toList_leaf]
          have hsplit : t.toList = t.root.toList ++ t.tail.leafData := by
            rw [RRB.toList, wfT_tail_toList hw]
          rw [hsplit]
          have h7 : n = t.root.toList.length + (n - tailOffset BL t) := by
            rw [hrootlen]; omega
          conv_rhs => rw [h7, List.take_append]
      · -- the cut lands in the body: slice the root
        rw [if_neg hofflt]
        have hany : WfAny B BL (hRoot B BL t.shift) t.root (tailOffset BL t) := by
          rcases hw.rootWf with ⟨h0, _, _⟩ | hany2
          · omega
          · exact hany2
        obtain ⟨d, hd⟩ := hw.shiftD
        have hh : hRoot B BL t.shift = d + 1 := by rw [hd]; exact hRoot_eq hB d
        have hlv : 1 ≤ hRoot B BL t.shift →
            t.shift = BL + B * (hRoot B BL t.shift - 1) := by
          intro _
          rw [hh, hd]
          simp
        have hspec := sliceR_top hany hB (n - 1) t.shift hlv (by omega)
        rcases hres : sliceR B BL true (hRoot B BL t.shift) t.root t.shift (n - 1)
          with ⟨nsh, onr, nts, ntl⟩
        rw [hres] at hspec
        have hn1 : n - 1 + 1 = n := by omega
        cases onr with
        | none =>
          dsimp only at hspec ⊢
          obtain ⟨hlt, hts, htl⟩ := hspec
          rw [hn1] at hts htl
          have hto' : tailOffset BL (⟨n, BL, Node.inner [], ntl⟩ : RRB α) = 0 := by
            rw [tailOffset_mk]
            show (if n ≠ 0 then (n - 1) - (n - 1) % 2 ^ BL else 0) = 0
            rw [if_pos hn0, Nat.mod_eq_of_lt (by omega)]
            omega
          constructor
          · refine ⟨⟨0, by simp⟩, by rw [htl]; rfl, ?_, ?_, ?_, ?_⟩
            · rw [hto']
              show n = 0 + ntl.leafData.length
              rw [htl, leafData_leaf, List.length_take, hrootlen]
              omega
            · show ntl.leafData.length ≤ 2 ^ BL
              rw [htl, leafData_leaf, List.length_take, hrootlen]
              omega
            · intro _
              show ntl.leafData.length ≠ 0
              rw [htl, leafData_leaf, List.length_take, hrootlen]
              omega
            · exact Or.inl ⟨hto', rfl, rfl⟩
          · show (Node.inner []).toList ++ ntl.toList = t.toList.take n
            rw [htl, Node.toList_inner, Node.toListAll_nil, List.nil_append,
              Node.toList_leaf, RRB.toList,
              List.take_append_of_le_length (by rw [hrootlen]; omega)]
        | some nr =>
          dsimp only at hspec ⊢
          obtain ⟨h2, hh1, hh2le, hsh, htspos, htsbl, htsle, hwf2, htl2, htail2⟩ :=
            hspec
          rw [hn1] at hwf2 htl2 htail2
          have hto' : tailOffset BL (⟨n, nsh, nr, ntl⟩ : RRB α) = n - nts := by
            rw [tailOffset_mk]
            cases hrel : nr.relaxedOf with
            | some szs =>
              exact wfAny_table_last hwf2 hrel
            | none =>
              show (if n ≠ 0 then (n - 1) - (n - 1) % 2 ^ BL else 0) = n - nts
              rw [if_pos hn0]
              obtain ⟨hreg, hal⟩ := wfAny_reg_inv hwf2 hrel
              exact sub_mod_aligned (hal hh1) (by omega) (by omega)
          have hroot2 : hRoot B BL nsh = h2 := by
            rw [hsh, hRoot_eq hB (h2 - 1)]
            omega
          constructor
          · refine ⟨⟨h2 - 1, hsh⟩, by rw [htail2]; rfl, ?_, ?_, ?_, ?_⟩
            · rw [hto']
              show n = n - nts + ntl.leafData.length
              rw [htail2, leafData_leaf, List.length_drop, List.length_take,
                hrootlen]
              omega
            · show ntl.leafData.length ≤ 2 ^ BL
              rw [htail2, leafData_leaf, List.length_drop, List.length_take,
                hrootlen]
              omega
            · intro _
              show ntl.leafData.length ≠ 0
              rw [htail2, leafData_leaf, List.length_drop, List.length_take,
                hrootlen]
              omega
            · refine Or.inr ?_
              show WfAny B BL (hRoot B BL nsh) nr
                (tailOffset BL (⟨n, nsh, nr, ntl⟩ : RRB α))
              rw [hroot2, hto']
              exact hwf2
          · show nr.toList ++ ntl.toList = t.toList.take n
            rw [htl2, htail2, Node.toList_leaf]
            calc t.root.toList.take (n - nts)
                  ++ (t.root.toList.take n).drop (n - nts)
                = (t.root.toList.take n).take (n - nts)
                  ++ (t.root.toList.take n).drop (n - nts) := by
                  rw [List.take_take, min_eq_left (by omega)]
              _ = t.root.toList.take n := List.take_append_drop _ _
              _ = t.toList.take n := by
                  rw [RRB.toList,
                    List.take_append_of_le_length (by rw [hrootlen]; omega)]

/-- C6: `take(n)` is the prefix of `s` of length `min n size`: its size is
`min n size`, and every index below that bound reads the same element as
in the original tree (so `take 0` is empty, and `take n` for `n ≥ size`
is elementwise equal to `s`). -/
theorem claim_C6 {B BL : Nat} {α : Type} (t : RRB α) (n : Nat) (hB : 0 < B)
    (hw : WfT B BL t) :
    (t.take B BL n).size = min n t.size ∧
    ∀ i, i < min n t.size → (t.take B BL n).get B BL i = t.get B BL i := by
  obtain ⟨hw2, hlist⟩ := take_wf hB hw n
  have hlen : (t.take B BL n).size = min n t.size := by
    rw [← wfT_toList_length hw2, hlist, List.length_take, wfT_toList_length hw]
  refine ⟨hlen, ?_⟩
  intro i hi
  rw [get_correct hB hw2 (by rw [hlen]; omega), get_correct hB hw (by omega),
    hlist, List.get?_take (by omega)]

theorem claim_C6_witness :
    ((⟨1, 2, Node.inner [], Node.leaf [5]⟩ : RRB Nat).take 2 2 3).size
      = min 3 (⟨1, 2, Node.inner [], Node.leaf [5]⟩ : RRB Nat).size ∧
    ∀ i, i < min 3 (⟨1, 2, Node.inner [], Node.leaf [5]⟩ : RRB Nat).size →
      ((⟨1, 2, Node.inner [], Node.leaf [5]⟩ : RRB Nat).take 2 2 3).get 2 2 i
        = (⟨1, 2, Node.inner [], Node.leaf [5]⟩ : RRB Nat).get 2 2 i := by
  have hwf : WfT 2 2 (⟨1, 2, Node.inner [], Node.leaf [5]⟩ : RRB Nat) := by
    refine ⟨⟨0, by decide⟩, rfl, by decide, by decide, fun _ => by decide,
      Or.inl ⟨by decide, rfl, rfl⟩⟩
  exact claim_C6 _ 3 (by decide) hwf

/-- C4: the persistent operations leave the source sequence observable
through the new one: `s.push_back(x).get(i)` equals `s.get(i)` for every
`i < size(s)` (the new tree shares the old elements unchanged; the source
value itself is untouched by construction in a persistent setting). -/
theorem claim_C4 {B BL : Nat} {α : Type} (t : RRB α) (v : α) (hB : 0 < B)
    (hw : WfT B BL t) {i : Nat} (hi : i < t.size) :
    (t.pushBack B BL v).get B BL i = t.get B BL i := by
  obtain ⟨hw2, hlist⟩ := pushBack_wf hB hw v
  have hsz : (t.pushBack B BL v).size = t.size + 1 := by
    rw [← wfT_toList_length hw2, hlist, List.length_append,
      wfT_toList_length hw]
    rfl
  rw [get_correct hB hw2 (by rw [hsz]; omega), get_correct hB hw hi, hlist]
  exact List.get?_append (by rw [wfT_toList_length hw]; omega)

theorem claim_C4_witness :
    0 < (⟨1, 2, Node.inner [], Node.leaf [5]⟩ : RRB Nat).size ∧
    ((⟨1, 2, Node.inner [], Node.leaf [5]⟩ : RRB Nat).pushBack 2 2 7).get 2 2 0
      = (⟨1, 2, Node.inner [], Node.leaf [5]⟩ : RRB Nat).get 2 2 0 := by
  have hwf : WfT 2 2 (⟨1, 2, Node.inner [], Node.leaf [5]⟩ : RRB Nat) := by
    refine ⟨⟨0, by decide⟩, rfl, by decide, by decide, fun _ => by decide,
      Or.inl ⟨by decide, rfl, rfl⟩⟩
  exact ⟨by decide, claim_C4 _ 7 (by decide) hwf (by decide)⟩

theorem childrenOf_inner {α : Type} (cs : List (Node α)) :
    (Node.inner cs).childrenOf = cs := rfl

theorem childrenOf_relaxed {α : Type} (cs : List (Node α)) (szs : List Nat) :
    (Node.relaxed cs szs).childrenOf = cs := rfl

theorem subindexAt_inner {α : Type} (B lv i : Nat) (cs : List (Node α)) :
    subindexAt B (Node.inner cs) lv i = i / 2 ^ lv := rfl

theorem subindexAt_relaxed {α : Type} (B lv i : Nat) (cs : List (Node α))
    (szs : List Nat) :
    subindexAt B (Node.relaxed cs szs) lv i
      = sizeIndex szs i (i / 2 ^ lv % 2 ^ B) := rfl

theorem sizeBeforeAt_inner {α : Type} (lv j : Nat) (cs : List (Node α)) :
    sizeBeforeAt (Node.inner cs) lv j = j * 2 ^ lv := rfl

theorem sizeBeforeAt_relaxed {α : Type} (lv j : Nat) (cs : List (Node α))
    (szs : List Nat) :
    sizeBeforeAt (Node.relaxed cs szs) lv j
      = if j = 0 then 0 else szs.getD (j - 1) 0 := rfl

theorem childSizeAt_inner {α : Type} (lv sz j : Nat) (cs : List (Node α)) :
    childSizeAt (Node.inner cs) lv sz j = min (sz - j * 2 ^ lv) (2 ^ lv) := rfl

theorem childSizeAt_relaxed {α : Type} (lv sz j : Nat) (cs : List (Node α))
    (szs : List Nat) :
    childSizeAt (Node.relaxed cs szs) lv sz j
      = szs.getD j 0 - (if j = 0 then 0 else szs.getD (j - 1) 0) := rfl

theorem getD_replicate {γ : Type} {a d : γ} {n m : Nat} (h : m < n) :
    (List.replicate n a).getD m d = a := by
  rw [List.getD_eq_getElem?_getD, List.getElem?_replicate, if_pos h]
  rfl

theorem cumSizes_cons (a : Nat) (l : List Nat) :
    cumSizes (a :: l) = a :: cumFrom a l := by
  simp [cumSizes, cumFrom]

theorem zip_drop_sub {γ δ : Type} {l1 : List γ} {l2 : List δ} {k : Nat}
    {p : γ × δ} (hp : p ∈ (l1.drop k).zip (l2.drop k)) : p ∈ l1.zip l2 := by
  induction k generalizing l1 l2 with
  | zero => simpa using hp
  | succ k ih =>
    cases l1 with
    | nil => simp at hp
    | cons a l1 =>
      cases l2 with
      | nil => simp at hp
      | cons b l2 =>
        simp only [List.drop_succ_cons] at hp
        exact List.mem_cons_of_mem _ (ih hp)

theorem map_range_drop {L : List Nat} {k : Nat} {g : Nat → Nat}
    (hg : ∀ i, k + i < L.length → g i = L.getD (k + i) 0) :
    (List.range (L.length - k)).map g = L.drop k := by
  apply List.ext_getElem
  · simp
  · intro i h1 h2
    simp only [List.getElem_map, List.getElem_range]
    have hki : k + i < L.length := by
      simp only [List.length_map, List.length_range] at h1
      omega
    rw [hg i hki, List.getElem_drop, List.getD_eq_getElem?_getD,
      List.getElem?_eq_getElem hki]
    rfl

/-- `slice_left_visitor` without the collapse flag, on a regular subtree:
the result keeps the node's level and holds exactly the elements from
`first` on, as a relaxed node. -/
theorem sliceL_reg {B BL : Nat} {α : Type} (hB : 0 < B) :
    ∀ h {n : Node α} {sz : Nat}, WfReg B BL h n sz → (1 ≤ h → sz % 2 ^ BL = 0) →
    ∀ first lv, (1 ≤ h → lv = BL + B * (h - 1)) → first < sz →
    (1 ≤ h → (sliceL B BL false h n lv sz first).1 = lv) ∧
    WfAny B BL h (sliceL B BL false h n lv sz first).2 (sz - first) ∧
    (sliceL B BL false h n lv sz first).2.toList = n.toList.drop first := by
  intro h
  induction h with
  | zero =>
    intro n sz hw _ first lv _ hfirst
    cases hw with
    | leaf hx hpos hle =>
      rw [sliceL]
      dsimp only
      have hmod : first % 2 ^ BL = first := Nat.mod_eq_of_lt (by omega)
      refine ⟨fun h1 => by omega, ?_, ?_⟩
      · rw [leafData_leaf, hmod]
        refine WfAny.reg (WfReg.leaf ?_ (by omega) (by omega)) (fun h1 => by omega)
        rw [List.length_drop]
        omega
      · rw [leafData_leaf, hmod, Node.toList_leaf, Node.toList_leaf]
  | succ h ih =>
    intro n sz hw hal first lv hlv hfirst
    cases hw with
    | @inner _ cs0 cl szl hfull hreg hcnt =>
      have hlv1 : lv = BL + B * h := by simpa using hlv (by omega)
      have hcap : (2 : Nat) ^ lv = cap B BL h := by rw [hlv1]; rfl
      have hcappos := cap_pos B BL h
      have hblpos : (0:Nat) < 2 ^ BL := Nat.pos_pow_of_pos _ (by omega)
      have hszl := wfReg_length hreg
      have hdm := Nat.div_add_mod first (cap B BL h)
      have hml := Nat.mod_lt first hcappos
      have hcm : cap B BL h * (first / cap B BL h)
          = first / cap B BL h * cap B BL h := mul_comm _ _
      have hjle : first / cap B BL h ≤ cs0.length := by
        have h1 : first < (cs0.length + 1) * cap B BL h := by nlinarith [hszl.2.2]
        have := (Nat.div_lt_iff_lt_mul hcappos).mpr h1
        omega
      have hidxcs : first / cap B BL h < (cs0 ++ [cl]).length := by
        simp only [List.length_append, List.length_cons, List.length_nil]
        omega
      have htake_eq : (cs0 ++ [cl]).take (first / cap B BL h)
          = cs0.take (first / cap B BL h) := List.take_append_of_le_length hjle
      obtain ⟨cj, hcj⟩ : ∃ cj, (cs0 ++ [cl]).get? (first / cap B BL h) = some cj :=
        ⟨_, List.get?_eq_get hidxcs⟩
      have hgd : (cs0 ++ [cl]).getD (first / cap B BL h) (.leaf []) = cj := by
        rw [List.getD_eq_getElem?_getD, ← List.get?_eq_getElem?, hcj]
        rfl
      have hgetv : (cs0 ++ [cl]).get ⟨first / cap B BL h, hidxcs⟩ = cj := by
        have h2 := List.get?_eq_get hidxcs
        rw [hcj] at h2
        exact (Option.some_inj.mp h2).symm
      have halcl : 1 ≤ h → szl % 2 ^ BL = 0 := by
        intro _
        have h1 := hal (by omega)
        obtain ⟨q, hq⟩ := cap_dvd_pow_BL B BL h
        have h2 : cs0.length * cap B BL h + szl
            = 2 ^ BL * (cs0.length * q) + szl := by
          rw [hq]
          ring
        rw [h2, Nat.mul_add_mod] at h1
        exact h1
      obtain ⟨szc, hcw, halc, hminszc, hdlt, hgdsz⟩ :
          ∃ szc, WfReg B BL h cj szc ∧ (1 ≤ h → szc % 2 ^ BL = 0) ∧
            min (cs0.length * cap B BL h + szl - first / cap B BL h * cap B BL h)
              (cap B BL h) = szc ∧
            first % cap B BL h < szc ∧
            ((List.replicate cs0.length (cap B BL h) ++ [szl]).take
              (first / cap B BL h + 1)).sum
              = first / cap B BL h * cap B BL h + szc := by
        rcases Nat.lt_or_ge (first / cap B BL h) cs0.length with hjlt | hjge
        · have hcj0 : cs0.get? (first / cap B BL h) = some cj := by
            rw [← List.get?_append hjlt, hcj]
          have hcjmem : cj ∈ cs0 := List.get?_mem hcj0
          refine ⟨cap B BL h, wfFull_wfReg (hfull cj hcjmem),
            (fun _ => Nat.mod_eq_zero_of_dvd (cap_dvd_pow_BL B BL h)), ?_,
            Nat.mod_lt _ hcappos, ?_⟩
          · have h2 : (first / cap B BL h + 1) * cap B BL h
                ≤ cs0.length * cap B BL h := Nat.mul_le_mul_right _ (by omega)
            have h3 : (first / cap B BL h + 1) * cap B BL h
                = first / cap B BL h * cap B BL h + cap B BL h := by ring
            exact min_eq_right (by omega)
          · rw [List.take_append_of_le_length
              (by rw [List.length_replicate]; omega)]
            rw [List.take_replicate]
            rw [min_eq_left (by omega)]
            simp [List.sum_replicate, smul_eq_mul, Nat.add_mul]
        · have hjk : first / cap B BL h = cs0.length := le_antisymm hjle hjge
          have hcjlast : (cs0 ++ [cl]).get? (first / cap B BL h) = some cl := by
            rw [hjk, List.get?_append_right (le_refl _)]
            simp
          have hcjeq : cj = cl := by
            rw [hcj] at hcjlast
            exact Option.some_inj.mp hcjlast
          subst hcjeq
          refine ⟨szl, hreg, halcl, ?_, ?_, ?_⟩
          · have h3 : cs0.length * cap B BL h + szl
                - first / cap B BL h * cap B BL h = szl := by
              rw [hjk]
              omega
            rw [h3]
            exact min_eq_left hszl.2.2
          · have h5 : first / cap B BL h * cap B BL h
                = cs0.length * cap B BL h := by rw [hjk]
            omega
          · rw [List.take_of_length_le (by simp; omega), hjk]
            simp [List.sum_append, List.sum_replicate, smul_eq_mul]
      have hszcle : szc ≤ cap B BL h := by
        rw [← hminszc]
        exact min_le_right _ _
      have hcjlen : cj.toList.length = szc := (wfReg_length hcw).1
      have hsplit0 : (Node.inner (cs0 ++ [cl])).toList
          = Node.toListAll ((cs0 ++ [cl]).take (first / cap B BL h)) ++ (cj.toList
            ++ Node.toListAll ((cs0 ++ [cl]).drop (first / cap B BL h + 1))) := by
        rw [Node.toList_inner, toListAll_split_at (cs0 ++ [cl]) hidxcs, hgetv]
      have hAlen : (Node.toListAll ((cs0 ++ [cl]).take (first / cap B BL h))).length
          = first / cap B BL h * cap B BL h := by
        rw [htake_eq]
        rw [toListAll_length_const
          (fun c hc => wfFull_length (hfull c (List.mem_of_mem_take hc)))]
        rw [List.length_take, min_eq_left hjle]
      have hD1 : ∀ a, a ≤ cj.toList.length →
          (Node.inner (cs0 ++ [cl])).toList.drop
              (first / cap B BL h * cap B BL h + a)
            = cj.toList.drop a
              ++ Node.toListAll ((cs0 ++ [cl]).drop (first / cap B BL h + 1)) := by
        intro a ha
        rw [hsplit0, ← hAlen, List.drop_append, List.drop_append_of_le_length ha]
      have hallzip : ∀ p ∈ (cs0 ++ [cl]).zip
            (List.replicate cs0.length (cap B BL h) ++ [szl]),
          WfAny B BL h p.1 p.2 := by
        intro p hp
        rw [List.zip_append (by simp)] at hp
        rcases List.mem_append.mp hp with hp | hp
        · obtain ⟨h1, h2⟩ := List.of_mem_zip hp
          rw [List.eq_of_mem_replicate h2]
          exact WfAny.reg (wfFull_wfReg (hfull _ h1))
            (fun _ => Nat.mod_eq_zero_of_dvd (cap_dvd_pow_BL B BL h))
        · simp only [List.zip_cons_cons, List.zip_nil_right,
            List.mem_singleton] at hp
          rw [hp]
          exact WfAny.reg hreg halcl
      have hbounds : ∀ s ∈ List.replicate cs0.length (cap B BL h) ++ [szl],
          0 < s ∧ s ≤ cap B BL h := by
        intro s hs
        rcases List.mem_append.mp hs with hs | hs
        · rw [List.eq_of_mem_replicate hs]
          exact ⟨hcappos, le_refl _⟩
        · simp only [List.mem_singleton] at hs
          subst hs
          exact ⟨hszl.2.1, hszl.2.2⟩
      have hlenAll : (List.replicate cs0.length (cap B BL h) ++ [szl]).length
          = cs0.length + 1 := by simp
      have hsumAll : (List.replicate cs0.length (cap B BL h) ++ [szl]).sum
          = cs0.length * cap B BL h + szl := by
        simp [List.sum_append, List.sum_replicate, smul_eq_mul]
      have hdropsum : ((List.replicate cs0.length (cap B BL h) ++ [szl]).drop
            (first / cap B BL h + 1)).sum
          = cs0.length * cap B BL h + szl
            - (first / cap B BL h * cap B BL h + szc) := by
        have h2 : ((List.replicate cs0.length (cap B BL h) ++ [szl]).take
              (first / cap B BL h + 1)).sum
            + ((List.replicate cs0.length (cap B BL h) ++ [szl]).drop
              (first / cap B BL h + 1)).sum
            = cs0.length * cap B BL h + szl := by
          rw [← List.sum_append, List.take_append_drop, hsumAll]
        omega
      have hrest : (List.range ((cs0 ++ [cl]).length - first / cap B BL h - 1)).map
            (fun i => min (cs0.length * cap B BL h + szl
               - (first / cap B BL h + 1 + i) * cap B BL h) (cap B BL h))
          = (List.replicate cs0.length (cap B BL h) ++ [szl]).drop
              (first / cap B BL h + 1) := by
        rw [show (cs0 ++ [cl]).length - first / cap B BL h - 1
            = (List.replicate cs0.length (cap B BL h) ++ [szl]).length
              - (first / cap B BL h + 1) from by simp; omega]
        apply map_range_drop
        intro i hi
        dsimp only
        rw [hlenAll] at hi
        rcases Nat.lt_or_ge (first / cap B BL h + 1 + i) cs0.length with hmlt | hmge
        · rw [List.getD_append _ _ _ _ (by rw [List.length_replicate]; omega),
            getD_replicate hmlt]
          have h2 : (first / cap B BL h + 1 + i + 1) * cap B BL h
              ≤ cs0.length * cap B BL h := Nat.mul_le_mul_right _ (by omega)
          have h3 : (first / cap B BL h + 1 + i + 1) * cap B BL h
              = (first / cap B BL h + 1 + i) * cap B BL h + cap B BL h := by ring
          exact min_eq_right (by omega)
        · have hmk : first / cap B BL h + 1 + i = cs0.length := by omega
          rw [hmk, List.getD_append_right _ _ _ _ (by simp)]
          simp only [List.length_replicate, Nat.sub_self]
          have h4 : cs0.length * cap B BL h + szl
              - cs0.length * cap B BL h = szl := by omega
          rw [h4]
          exact min_eq_left hszl.2.2
      have hdeq : first - first / cap B BL h * cap B BL h = first % cap B BL h := by
        omega
      rw [sliceL]
      rw [if_neg (by simp)]
      simp only [childrenOf_inner, subindexAt_inner, sizeBeforeAt_inner,
        childSizeAt_inner, hcap]
      rw [hgd, hminszc, hdeq, hrest]
      rcases hsub : sliceL B BL false h cj (lv - B) szc (first % cap B BL h)
        with ⟨ssh, sub2⟩
      have hIH := ih hcw halc (first % cap B BL h) (lv - B)
        (fun h1 => lvl_step hlv1 h1) hdlt
      rw [hsub] at hIH
      obtain ⟨_, hwsub, hlsub⟩ := hIH
      dsimp only at hwsub hlsub ⊢
      refine ⟨fun _ => trivial, ?_, ?_⟩
      · have hwf := wfAnyRel h
          (sub2 :: (cs0 ++ [cl]).drop (first / cap B BL h + 1))
          ((szc - first % cap B BL h)
            :: (List.replicate cs0.length (cap B BL h) ++ [szl]).drop
              (first / cap B BL h + 1))
          (by
            simp only [List.length_cons, List.length_drop, hlenAll,
              List.length_append, List.length_nil])
          (by
            intro p hp
            rw [List.zip_cons_cons] at hp
            rcases List.mem_cons.mp hp with hp | hp
            · rw [hp]
              exact hwsub
            · exact hallzip p (zip_drop_sub hp))
          (by
            intro s hs
            rcases List.mem_cons.mp hs with hs | hs
            · subst hs
              exact ⟨by omega, by omega⟩
            · exact hbounds s (List.mem_of_mem_drop hs))
          (by simp)
          (by
            simp only [List.length_cons, List.length_drop, List.length_append,
              List.length_nil]
            generalize first / cap B BL h = w
            omega)
        rw [cumSizes_cons] at hwf
        rw [List.sum_cons] at hwf
        have hle2 : first / cap B BL h * cap B BL h + szc
            ≤ cs0.length * cap B BL h + szl := by
          rw [← hgdsz, ← hsumAll]
          exact take_sum_le_sum _ _
        have hval : szc - first % cap B BL h
            + ((List.replicate cs0.length (cap B BL h) ++ [szl]).drop
              (first / cap B BL h + 1)).sum
            = cs0.length * cap B BL h + szl - first := by
          omega
        rw [hval] at hwf
        exact hwf
      · rw [Node.toList_relaxed, Node.toListAll_cons, hlsub]
        have h7 : first = first / cap B BL h * cap B BL h + first % cap B BL h := by
          omega
        conv_rhs => rw [h7]
        exact (hD1 (first % cap B BL h) (by omega)).symm
